import Mathlib

/-!
# Verification of the bp-tools Esplora reconciliation engine

A shallow embedding of `src/indexers/esplora.rs` (BP-WG/bp-tools): the
gap-limited address scanner, the memoized paginated transaction fetch, the
change-detection logic of `process_address`, and the two-pass ledger
reconciliation (`process_transactions`, `process_outputs`, `process_inputs`),
together with the `create` and `update` entry points of the `Indexer` impl.

Modelling conventions:
* transaction ids, script pubkeys and rendered address strings are `Nat`
  (all are opaque identifiers here; a rendered address string is identified
  with the script it encodes, and the empty string is `Option.none`);
* the Rust `BTreeMap`s are association lists with unique keys and
  replace-on-insert, the `BTreeSet`s are duplicate-free lists;
* satoshi amounts are `Nat`, i64 balances are `Int` with the saturating
  arithmetic of the source made explicit;
* network calls are a pure environment `Env`; a failing call is
  `Except.error`; the unbounded Rust loops take explicit fuel, and fuel
  exhaustion is a distinguished outcome `Hard.fuelOut` distinct from the
  `expect`-panic outcome `Hard.panicked`;
* the observable behaviour (network calls made, per-address visits, and the
  output/input processing order) is recorded in an event trace.
-/

namespace BpEsplora

/-- Transaction id (opaque). -/
abbrev Txid := Nat

/-- Script pubkey (opaque). A rendered address string is identified with the
script it encodes; `Option Script` with `none` models the empty string. -/
abbrev Script := Nat

/-- Network error value carried by the accumulated error list. -/
abbrev Err := Nat

/-- An outpoint: transaction id plus output index (`bpstd::Outpoint`). -/
structure Outpoint where
  txid : Txid
  vout : Nat
deriving DecidableEq, Repr

/-- A derivation terminal: keychain plus index. -/
structure Terminal where
  keychain : Nat
  index : Nat
deriving DecidableEq, Repr

/-- A derived address (`bpstd::DerivedAddr`): terminal plus the address,
which we identify with its script pubkey. -/
structure DerivedAddr where
  terminal : Terminal
  script : Script
deriving DecidableEq, Repr

/-- Confirmation status of a raw indexer transaction (`esplora::TxStatus`):
`confirmed` is the boolean flag, `complete` records that block height, hash
and time are all present. -/
structure ETxStatus where
  confirmed : Bool
  complete : Bool
deriving DecidableEq, Repr

/-- Raw indexer prevout (`esplora::PrevOut`). -/
structure EPrevOut where
  scriptpubkey : Script
  value : Nat
deriving DecidableEq, Repr

/-- Raw indexer transaction input (`esplora::Vin`); fields not used by the
engine (sequence, scriptsig, witness) are omitted. -/
structure EVin where
  txid : Txid
  vout : Nat
  is_coinbase : Bool
  prevout : Option EPrevOut
deriving DecidableEq, Repr

/-- Raw indexer transaction output (`esplora::Vout`). -/
structure EVout where
  scriptpubkey : Script
  value : Nat
deriving DecidableEq, Repr

/-- Raw indexer transaction (`esplora::Tx`); fee, size, weight, version and
locktime are omitted (the engine only copies them through). -/
structure ETx where
  txid : Txid
  status : ETxStatus
  vin : List EVin
  vout : List EVout
deriving DecidableEq, Repr

/-- Internal confirmation status (`TxStatus`): mined or in the mempool.
Mining info fields are not consulted by the engine beyond `is_mined`. -/
inductive TxStatus where
  | mined
  | mempool
deriving DecidableEq, Repr

/-- `impl From<esplora::TxStatus> for TxStatus`: mined exactly when the raw
status is confirmed with height, hash and time all present. -/
def TxStatus.ofE (s : ETxStatus) : TxStatus :=
  if s.confirmed && s.complete then .mined else .mempool

/-- `TxStatus::is_mined`. -/
def TxStatus.isMined : TxStatus → Bool
  | .mined => true
  | .mempool => false

/-- Modelled from the spec: counterparty classification `Party` (defined in
the wallet data-model module of this repository, outside the provided
sources). Variants follow the spec: `Unknown(script)`, `Subsidy`,
`WalletOwned` (a wallet terminal reference; the address script is carried so
that its script pubkey is recoverable), `Counterparty(address)` (the address
is carried as its script). -/
inductive Party where
  | unknown (s : Script)
  | subsidy
  | walletOwned (t : Terminal) (s : Script)
  | counterparty (s : Script)
deriving DecidableEq, Repr

/-- Modelled from the spec: `Party::script_pubkey()`; a `Subsidy` party has
no script, every other variant renders one. -/
def Party.scriptPubkey : Party → Option Script
  | .unknown s => some s
  | .subsidy => none
  | .walletOwned _ s => some s
  | .counterparty s => some s

/-- Modelled from the spec: `Party::is_unknown()`. -/
def Party.isUnknown : Party → Bool
  | .unknown _ => true
  | _ => false

/-- A transaction output from the wallet's viewpoint (`TxDebit`): outpoint,
beneficiary party, value and the optional spent back-reference. The Rust
field has inpoint type, produced by a pure field-preserving conversion from
`credit.outpoint`; we store the converted-from outpoint itself. -/
structure TxDebit where
  outpoint : Outpoint
  beneficiary : Party
  value : Nat
  spent : Option Outpoint
deriving DecidableEq, Repr

/-- A transaction input from the wallet's viewpoint (`TxCredit`): the
outpoint it spends, coinbase flag, value and payer party. Sequence number,
scriptsig and witness are copied through by the source and omitted here. -/
structure TxCredit where
  outpoint : Outpoint
  coinbase : Bool
  value : Nat
  payer : Party
deriving DecidableEq, Repr

/-- Internal transaction record (`WalletTx`); fee, size, weight, version,
locktime are copied through by the source and omitted here. -/
structure WalletTx where
  txid : Txid
  status : TxStatus
  inputs : List TxCredit
  outputs : List TxDebit
deriving DecidableEq, Repr

/-- `impl From<esplora::Vin> for TxCredit`: the outpoint is
`(vin.txid, vin.vout)` — the funding outpoint; a missing prevout yields
value 0 and payer `Subsidy`, otherwise the payer starts `Unknown` at the
prevout's script. -/
def TxCredit.ofVin (vin : EVin) : TxCredit :=
  { outpoint := ⟨vin.txid, vin.vout⟩
    coinbase := vin.is_coinbase
    value := (vin.prevout.map (·.value)).getD 0
    payer := (vin.prevout.map (fun p => Party.unknown p.scriptpubkey)).getD .subsidy }

/-- `impl From<esplora::Tx> for WalletTx`: outputs are numbered in order,
each starting `Unknown` with no spent back-reference. -/
def WalletTx.ofE (tx : ETx) : WalletTx :=
  { txid := tx.txid
    status := .ofE tx.status
    inputs := tx.vin.map TxCredit.ofVin
    outputs := tx.vout.enum.map fun nv =>
      { outpoint := ⟨tx.txid, nv.1⟩
        beneficiary := .unknown nv.2.scriptpubkey
        value := nv.2.value
        spent := none } }

/-- Per-address aggregate statistics (`WalletAddr<i64>`): terminal, address
script, used count, cumulative received volume, current balance. The source
uses `u32`/`Sats` saturating counters for `used`/`volume` and an `i64`
saturating balance. -/
structure WalletAddr where
  terminal : Terminal
  script : Script
  used : Nat
  volume : Nat
  balance : Int
deriving DecidableEq, Repr

/-- `WalletAddr::from(derive)`: fresh zeroed statistics. -/
def WalletAddr.ofDerive (d : DerivedAddr) : WalletAddr :=
  ⟨d.terminal, d.script, 0, 0, 0⟩

/-- Modelled from the spec: `Party::from_wallet_addr` produces the
wallet-owned party referencing the address terminal. -/
def Party.fromWalletAddr (wa : WalletAddr) : Party :=
  .walletOwned wa.terminal wa.script

/-- Saturating i64 addition (`i64::saturating_add`). -/
def satAddI64 (a b : Int) : Int :=
  max (min (a + b) (2 ^ 63 - 1)) (-(2 ^ 63))

/-- Saturating i64 subtraction (`i64::saturating_sub`). -/
def satSubI64 (a b : Int) : Int :=
  max (min (a - b) (2 ^ 63 - 1)) (-(2 ^ 63))

/-- Saturating u64 addition (`Sats::saturating_add`). -/
def satAddU64 (a b : Nat) : Nat :=
  min (a + b) (2 ^ 64 - 1)

/-! ## Map and set representations

A `BTreeMap<K, V>` is an association list with unique keys; `insert`
replaces the value at an existing key in place. A `BTreeSet` is a
duplicate-free list. -/

/-- `BTreeMap::get`. -/
def mapGet {κ τ : Type} [DecidableEq κ] : List (κ × τ) → κ → Option τ
  | [], _ => none
  | p :: rest, k => if p.1 = k then some p.2 else mapGet rest k

/-- `BTreeMap::insert` (replace in place at an existing key, append new). -/
def mapInsert {κ τ : Type} [DecidableEq κ] : List (κ × τ) → κ → τ → List (κ × τ)
  | [], k, v => [(k, v)]
  | p :: rest, k, v => if p.1 = k then (k, v) :: rest else p :: mapInsert rest k v

/-- `BTreeMap::remove`, keeping only the residual map (the removed value,
when present, is recovered with `mapGet`). -/
def mapRemove {κ τ : Type} [DecidableEq κ] (m : List (κ × τ)) (k : κ) :
    List (κ × τ) :=
  m.filter (fun p => ¬ p.1 = k)

/-- `BTreeMap::extend` over a list of key-value pairs. -/
def mapExtend {κ τ : Type} [DecidableEq κ] (m : List (κ × τ)) (kvs : List (κ × τ)) :
    List (κ × τ) :=
  kvs.foldl (fun acc kv => mapInsert acc kv.1 kv.2) m

/-- `BTreeSet::insert` on a set of outpoints (no-op when present). -/
def utxoInsert (s : List Outpoint) (o : Outpoint) : List Outpoint :=
  if o ∈ s then s else s ++ [o]

/-- `BTreeSet::remove` on a set of outpoints. -/
def utxoRemove (s : List Outpoint) (o : Outpoint) : List Outpoint :=
  s.filter (fun x => ¬ x = o)

/-! ## Wallet cache and session state -/

/-- The authoritative wallet cache (`WalletCache`): per-keychain address
statistics (flattened to one list looked up by terminal — the Rust
`BTreeMap<Keychain, BTreeSet<WalletAddr>>` orders entries by terminal),
the transaction store keyed by txid, and the unspent outpoint set.
`expect_transmute` between `WalletAddr<Sats>` and `WalletAddr<i64>` is
modelled as the identity. -/
structure WalletCache where
  addr : List WalletAddr
  tx : List (Txid × WalletTx)
  utxo : List Outpoint
deriving DecidableEq, Repr

/-- `WalletCache::new()`. -/
def WalletCache.new : WalletCache := ⟨[], [], []⟩

/-- `cache.addr.get(&keychain)` followed by `.get(&wallet_addr_key)`: lookup
of a cached address entry by its terminal (the set's ordering key). -/
def addrGet (l : List WalletAddr) (t : Terminal) : Option WalletAddr :=
  l.find? (fun wa => wa.terminal = t)

/-- `BTreeSet::insert` on address statistics: a `BTreeSet` keeps the
existing element when an equal (same-terminal) one is inserted. -/
def addrInsert (l : List WalletAddr) (wa : WalletAddr) : List WalletAddr :=
  if l.any (fun x => x.terminal = wa.terminal) then l else l ++ [wa]

/-- The address-transaction memo (`IndexerCache.addr_transactions`), keyed by
derived address. Modelled from the spec as an unbounded map: the LRU
capacity/eviction policy of the cache module is outside the provided
sources, and the spec treats the memo as a map address → transaction list. -/
abbrev Memo := List (DerivedAddr × List ETx)

/-- Observable events of a sync session: a page fetch issued to the remote
source (with its continuation cursor), an address visit by the scanner
(the per-address progress tick), and the processing of one transaction's
outputs or inputs on behalf of one address. -/
inductive Ev where
  | fetchCall (s : Script) (cursor : Option Txid)
  | visit (t : Terminal)
  | outputsOf (s : Script) (txid : Txid)
  | inputsOf (s : Script) (txid : Txid)
deriving DecidableEq, Repr

/-- Session state threaded through the engine: the wallet cache, the memo,
the accumulated non-fatal error list, and the event trace. -/
structure St where
  cache : WalletCache
  memo : Memo
  errors : List Err
  trace : List Ev
deriving DecidableEq, Repr

/-- Fatal outcomes of a run: an `expect` panic, or fuel exhaustion of a
Rust loop that the embedding bounds explicitly. -/
inductive Hard where
  | panicked
  | fuelOut
deriving DecidableEq, Repr

/-- Engine computations that may panic or exhaust fuel. -/
abbrev M (α : Type) := Except Hard α

/-! ## Remote source environment -/

/-- Cheap per-address summary (`FullAddrStats`): the rendered address (with
`none` for the empty string) and confirmed/unconfirmed transaction counts
(`chain_stats.tx_count`, `mempool_stats.tx_count`). -/
structure FullAddrStats where
  address : Option Script
  chainCount : Nat
  mempoolCount : Nat
deriving DecidableEq, Repr

/-- `FullAddrStats::default()`. -/
def FullAddrStats.dflt : FullAddrStats := ⟨none, 0, 0⟩

/-- The remote indexing service: one transaction page per (script, cursor)
request, and one summary per address; an `Except.error` is a failed network
call. -/
structure Env where
  page : Script → Option Txid → Except Err (List ETx)
  summary : Script → Except Err FullAddrStats

/-- Page size of the paginated fetch (`PAGE_SIZE`). -/
def PAGE_SIZE : Nat := 25

/-- The fetch loop of `get_scripthash_txs_all`: request a page at the
current cursor; if the page has a last element and at least `PAGE_SIZE - 1`
elements before it, record that last txid as the new cursor and continue,
otherwise append and stop. A failed page request propagates as the fetch
result. Each request is recorded as a `fetchCall` event. -/
def fetchLoop (env : Env) (script : Script) :
    Nat → Option Txid → List ETx → List Ev → M (Except Err (List ETx) × List Ev)
  | 0, _, _, _ => .error .fuelOut
  | fuel + 1, lastSeen, res, tr =>
    let tr := tr ++ [.fetchCall script lastSeen]
    match env.page script lastSeen with
    | .error e => .ok (.error e, tr)
    | .ok r =>
      match r.getLast? with
      | some lastTx =>
        if PAGE_SIZE - 1 ≤ r.length - 1 then
          fetchLoop env script fuel (some lastTx.txid) (res ++ r) tr
        else .ok (.ok (res ++ r), tr)
      | none => .ok (.ok (res ++ r), tr)

/-- `Client::get_scripthash_txs_all`: unless `force_update` is set, a memo
hit answers the request directly; otherwise the paginated loop runs and a
successful result overwrites the memo entry (a failed fetch leaves the memo
untouched and is returned as the error). -/
def getScripthashTxsAll (env : Env) (fuel : Nat) (derive : DerivedAddr)
    (forceUpdate : Bool) (st : St) : M (Except Err (List ETx) × St) := do
  if ¬ forceUpdate then
    match mapGet st.memo derive with
    | some cached => return (.ok cached, st)
    | none => pure ()
  let (r, tr) ← fetchLoop env derive.script fuel none [] st.trace
  match r with
  | .error e => return (.error e, { st with trace := tr })
  | .ok res =>
      return (.ok res, { st with memo := mapInsert st.memo derive res, trace := tr })

/-- `Client::get_addr_tx_stats_by_cache`: summary derived from the memo —
on a hit, the rendered address together with the confirmed/unconfirmed
counts of the memoized list; on a miss, the default (empty) summary. -/
def getAddrTxStatsByCache (memo : Memo) (derive : DerivedAddr) : FullAddrStats :=
  match mapGet memo derive with
  | some cachedTxs =>
      { address := some derive.script
        chainCount := (cachedTxs.filter (fun tx => tx.status.confirmed)).length
        mempoolCount := (cachedTxs.filter (fun tx => ¬ tx.status.confirmed)).length }
  | none => FullAddrStats.dflt

/-! ## Wallet descriptor -/

/-- The wallet descriptor collaborator: its keychains, the derived address
at each (keychain, index), and the network address decoder
(`Address::with(&script, descriptor.network())` succeeds iff
`decode script`). -/
structure Descr where
  keychains : List Nat
  addrOf : Nat → Nat → DerivedAddr
  decode : Script → Bool

/-- The session address index (`address_index`), a `BTreeMap` from script
to the address statistics and the txids newly relevant to that address;
kept sorted by script so that list order is the map's iteration order. -/
abbrev AIndex := List (Script × WalletAddr × List Txid)

/-- `BTreeMap::insert` on the address index, preserving sortedness. -/
def aIndexInsert (m : AIndex) (s : Script) (v : WalletAddr × List Txid) : AIndex :=
  match m with
  | [] => [(s, v.1, v.2)]
  | (k, w) :: rest =>
    if s = k then (s, v.1, v.2) :: rest
    else if s < k then (s, v.1, v.2) :: (k, w) :: rest
    else (k, w) :: aIndexInsert rest s v

/-! ## process_address and the gap-limited scan -/

/-- The fetch tail of `Client::process_address` (reached in create mode
always, in update mode only from the mismatch branch): fetch the full
transaction list (`force_update` = `update_mode`); a fetch error is recorded
and the address marked empty; an empty list marks it empty; otherwise the
fetched transactions are converted and inserted into the transaction store
and their ids kept. In every case the (script → (stats, txids)) entry is
inserted into the address index. -/
def processAddressFetch (env : Env) (fuel : Nat) (updateMode : Bool)
    (derive : DerivedAddr) (st : St) (aIndex : AIndex) : M (St × AIndex × Bool) := do
  let script := derive.script
  let (r, st) ← getScripthashTxsAll env fuel derive updateMode st
  match r with
  | .error e =>
      let st := { st with errors := st.errors ++ [e] }
      return (st, aIndexInsert aIndex script (WalletAddr.ofDerive derive, []), true)
  | .ok [] =>
      return (st, aIndexInsert aIndex script (WalletAddr.ofDerive derive, []), true)
  | .ok txes =>
      let txids := txes.map (·.txid)
      let st := { st with cache := { st.cache with
        tx := mapExtend st.cache.tx
          (txes.map (fun t => ((WalletTx.ofE t).txid, WalletTx.ofE t))) } }
      return (st, aIndexInsert aIndex script (WalletAddr.ofDerive derive, txids), false)

/-- `Client::process_address`. In update mode, change detection runs first:
the memo-derived summary is compared with the remote one (a failed summary
call is recorded as an error and replaced by the default summary). If the
remote summary's address is empty or the summaries are equal, the address is
treated as unchanged: an existing cache entry is re-inserted into the
address index (with no txids) and the address reported non-empty, otherwise
the address is reported empty; no fetch happens. In all other cases the
fetch tail runs. The returned Bool is the `empty` signal fed to the
gap-limit counter. -/
def processAddress (env : Env) (fuel : Nat) (updateMode : Bool)
    (derive : DerivedAddr) (st : St) (aIndex : AIndex) : M (St × AIndex × Bool) := do
  let script := derive.script
  if updateMode then
    let txStatsByCache := getAddrTxStatsByCache st.memo derive
    let (txStatsByClient, st) :=
      match env.summary derive.script with
      | .error e => (FullAddrStats.dflt, { st with errors := st.errors ++ [e] })
      | .ok s => (s, st)
    if txStatsByClient.address = none ∨ txStatsByCache = txStatsByClient then
      match addrGet st.cache.addr derive.terminal with
      | some cachedWalletAddr =>
          return (st, aIndexInsert aIndex script (cachedWalletAddr, []), false)
      | none => return (st, aIndex, true)
    else
      processAddressFetch env fuel updateMode derive st aIndex
  else
    processAddressFetch env fuel updateMode derive st aIndex

/-- The per-keychain loop of `Client::process_wallet_descriptor`: visit
addresses in increasing index order (each visit emits a `visit` event, the
source's progress tick); an empty address increments the consecutive-empty
counter and the loop breaks once it reaches the batch size `B`; a non-empty
address resets the counter to zero. `steps` is the embedding's fuel for the
unbounded iterator. -/
def scanKeychain (env : Env) (fuel : Nat) (B : Nat) (descr : Descr)
    (updateMode : Bool) (keychain : Nat) :
    Nat → Nat → Nat → St → AIndex → M (St × AIndex)
  | 0, _, _, _, _ => .error .fuelOut
  | steps + 1, idx, emptyCount, st, aIndex => do
    let derive := descr.addrOf keychain idx
    let st := { st with trace := st.trace ++ [.visit derive.terminal] }
    let (st, aIndex, empty) ← processAddress env fuel updateMode derive st aIndex
    if empty then
      if B ≤ emptyCount + 1 then return (st, aIndex)
      else
        scanKeychain env fuel B descr updateMode keychain steps (idx + 1) (emptyCount + 1) st aIndex
    else
      scanKeychain env fuel B descr updateMode keychain steps (idx + 1) 0 st aIndex

/-- `Client::process_wallet_descriptor`: run the gap-limited scan over every
keychain in order, threading the session state and building the address
index. -/
def scanKeychains (env : Env) (fuel steps B : Nat) (descr : Descr)
    (updateMode : Bool) :
    List Nat → St → AIndex → M (St × AIndex)
  | [], st, aIndex => .ok (st, aIndex)
  | kc :: rest, st, aIndex => do
    let (st, aIndex) ← scanKeychain env fuel B descr updateMode kc steps 0 0 st aIndex
    scanKeychains env fuel steps B descr updateMode rest st aIndex

/-! ## Two-pass ledger reconciliation -/

/-- Processing of one output (`process_outputs` loop body): a beneficiary
with no script is skipped; an output paying the address under consideration
is classified wallet-owned, its outpoint added to the unspent set and the
address statistics bumped (saturating); otherwise a still-unknown
beneficiary is resolved through the session-wide script map, or failing
that decoded as a counterparty address (decoding failure leaves it
unknown). -/
def processDebit (decode : Script → Bool) (script : Script)
    (selfMap : List (Script × WalletAddr)) (debit : TxDebit) (wa : WalletAddr)
    (cache : WalletCache) : TxDebit × WalletAddr × WalletCache :=
  match debit.beneficiary.scriptPubkey with
  | none => (debit, wa, cache)
  | some s =>
    if s = script then
      let cache := { cache with utxo := utxoInsert cache.utxo debit.outpoint }
      let wa' := { wa with
        used := wa.used + 1
        volume := satAddU64 wa.volume debit.value
        balance := satAddI64 wa.balance (debit.value : Int) }
      ({ debit with beneficiary := Party.fromWalletAddr wa }, wa', cache)
    else if debit.beneficiary.isUnknown then
      match mapGet selfMap s with
      | some realAddr =>
          ({ debit with beneficiary := Party.fromWalletAddr realAddr }, wa, cache)
      | none =>
          if decode s then ({ debit with beneficiary := .counterparty s }, wa, cache)
          else (debit, wa, cache)
    else (debit, wa, cache)

/-- The output loop of `Client::process_outputs` over a transaction's
outputs, rebuilding the output list. -/
def processOutputsGo (decode : Script → Bool) (script : Script)
    (selfMap : List (Script × WalletAddr)) :
    List TxDebit → WalletAddr → WalletCache → List TxDebit × WalletAddr × WalletCache
  | [], wa, cache => ([], wa, cache)
  | d :: rest, wa, cache =>
    let (d', wa', cache') := processDebit decode script selfMap d wa cache
    let (ds, wa'', cache'') := processOutputsGo decode script selfMap rest wa' cache'
    (d' :: ds, wa'', cache'')

/-- `Client::process_outputs`. -/
def processOutputs (decode : Script → Bool) (script : Script)
    (selfMap : List (Script × WalletAddr)) (wa : WalletAddr) (tx : WalletTx)
    (cache : WalletCache) : WalletAddr × WalletTx × WalletCache :=
  let (outs, wa', cache') := processOutputsGo decode script selfMap tx.outputs wa cache
  (wa', { tx with outputs := outs }, cache')

/-- The funding-transaction block at the end of the `process_inputs` loop
body: when the spent outpoint's transaction is in the store and has that
output index, remove the stored outpoint from the unspent set if the
spending transaction is mined, and set the output's spent back-reference to
`credit.outpoint` (the funding outpoint, converted field-for-field by the
source); a missing funding transaction or output index changes nothing. -/
def creditFundingUpdate (status : TxStatus) (credit : TxCredit) (cache : WalletCache) :
    WalletCache :=
  match mapGet cache.tx credit.outpoint.txid with
  | none => cache
  | some prevTx =>
    match prevTx.outputs.get? credit.outpoint.vout with
    | none => cache
    | some txout =>
      let outpoint := txout.outpoint
      let utxo := if status.isMined then utxoRemove cache.utxo outpoint else cache.utxo
      let txout' := { txout with spent := some credit.outpoint }
      let prevTx' := { prevTx with outputs := prevTx.outputs.set credit.outpoint.vout txout' }
      { cache with tx := mapInsert cache.tx credit.outpoint.txid prevTx', utxo := utxo }

/-- Processing of one input (`process_inputs` loop body). A payer with no
script (a coinbase `Subsidy`) is skipped entirely. Otherwise the payer is
classified like an output beneficiary — except that a resolution through
the session-wide script map `continue`s, skipping the funding-transaction
block. The funding-transaction block: when the spent outpoint's transaction
is in the store and has that output, remove the outpoint from the unspent
set if the spending transaction is mined, and set the output's spent
back-reference to `credit.outpoint` (the funding outpoint, converted
field-for-field by the source); a missing funding transaction or output
index is silently tolerated. -/
def processCredit (decode : Script → Bool) (script : Script)
    (selfMap : List (Script × WalletAddr)) (status : TxStatus) (credit : TxCredit)
    (wa : WalletAddr) (cache : WalletCache) : TxCredit × WalletAddr × WalletCache :=
  match credit.payer.scriptPubkey with
  | none => (credit, wa, cache)
  | some s =>
    let step :=
      if s = script then
        ({ credit with payer := Party.fromWalletAddr wa },
         { wa with balance := satSubI64 wa.balance (credit.value : Int) }, false)
      else if credit.payer.isUnknown then
        match mapGet selfMap s with
        | some realAddr => ({ credit with payer := Party.fromWalletAddr realAddr }, wa, true)
        | none =>
            if decode s then ({ credit with payer := .counterparty s }, wa, false)
            else (credit, wa, false)
      else (credit, wa, false)
    let credit := step.1
    let wa := step.2.1
    if step.2.2 then (credit, wa, cache)
    else (credit, wa, creditFundingUpdate status credit cache)

/-- The input loop of `Client::process_inputs` over a transaction's inputs,
rebuilding the input list. -/
def processInputsGo (decode : Script → Bool) (script : Script)
    (selfMap : List (Script × WalletAddr)) (status : TxStatus) :
    List TxCredit → WalletAddr → WalletCache → List TxCredit × WalletAddr × WalletCache
  | [], wa, cache => ([], wa, cache)
  | c :: rest, wa, cache =>
    let (c', wa', cache') := processCredit decode script selfMap status c wa cache
    let (cs, wa'', cache'') := processInputsGo decode script selfMap status rest wa' cache'
    (c' :: cs, wa'', cache'')

/-- `Client::process_inputs`. -/
def processInputs (decode : Script → Bool) (script : Script)
    (selfMap : List (Script × WalletAddr)) (wa : WalletAddr) (tx : WalletTx)
    (cache : WalletCache) : WalletAddr × WalletTx × WalletCache :=
  let (ins, wa', cache') := processInputsGo decode script selfMap tx.status tx.inputs wa cache
  (wa', { tx with inputs := ins }, cache')

/-- The output pass of one address entry: for each txid in order, remove the
transaction from the store (`expect("broken logic")` — absence panics),
process its outputs and reinsert it; each step emits an `outputsOf` event. -/
def outputPass (decode : Script → Bool) (script : Script)
    (selfMap : List (Script × WalletAddr)) :
    List Txid → WalletAddr → WalletCache → List Ev → M (WalletAddr × WalletCache × List Ev)
  | [], wa, cache, tr => .ok (wa, cache, tr)
  | txid :: rest, wa, cache, tr =>
    let tr := tr ++ [.outputsOf script txid]
    match mapGet cache.tx txid with
    | none => .error .panicked
    | some tx =>
      let cache := { cache with tx := mapRemove cache.tx txid }
      let (wa, tx, cache) := processOutputs decode script selfMap wa tx cache
      let cache := { cache with tx := mapInsert cache.tx tx.txid tx }
      outputPass decode script selfMap rest wa cache tr

/-- The input pass of one address entry, mirroring `outputPass` with
`process_inputs` and `inputsOf` events. -/
def inputPass (decode : Script → Bool) (script : Script)
    (selfMap : List (Script × WalletAddr)) :
    List Txid → WalletAddr → WalletCache → List Ev → M (WalletAddr × WalletCache × List Ev)
  | [], wa, cache, tr => .ok (wa, cache, tr)
  | txid :: rest, wa, cache, tr =>
    let tr := tr ++ [.inputsOf script txid]
    match mapGet cache.tx txid with
    | none => .error .panicked
    | some tx =>
      let cache := { cache with tx := mapRemove cache.tx txid }
      let (wa, tx, cache) := processInputs decode script selfMap wa tx cache
      let cache := { cache with tx := mapInsert cache.tx tx.txid tx }
      inputPass decode script selfMap rest wa cache tr

/-- The session-wide script → statistics map (`wallet_self_script_map`),
built from the full address index before empty entries are dropped. -/
def selfScriptMap (aIndex : AIndex) : List (Script × WalletAddr) :=
  aIndex.map (fun e => (e.1, e.2.1))

/-- One iteration of the `process_transactions` entry loop: the output pass
over the entry's txids, then the input pass, then insertion of the entry's
final statistics into the cached address set (a `BTreeSet` insert, which
keeps an existing same-terminal element). -/
def processEntry (decode : Script → Bool) (selfMap : List (Script × WalletAddr))
    (e : Script × WalletAddr × List Txid) (cache : WalletCache) (tr : List Ev) :
    M (WalletCache × List Ev) := do
  let (wa, cache, tr) ← outputPass decode e.1 selfMap e.2.2 e.2.1 cache tr
  let (wa, cache, tr) ← inputPass decode e.1 selfMap e.2.2 wa cache tr
  let cache := { cache with addr := addrInsert cache.addr wa }
  return (cache, tr)

/-- The entry loop of `Client::process_transactions` over the retained
address index, in map (script) order. -/
def processEntries (decode : Script → Bool) (selfMap : List (Script × WalletAddr)) :
    List (Script × WalletAddr × List Txid) → WalletCache → List Ev →
    M (WalletCache × List Ev)
  | [], cache, tr => .ok (cache, tr)
  | e :: rest, cache, tr => do
    let (cache, tr) ← processEntry decode selfMap e cache tr
    processEntries decode selfMap rest cache tr

/-- `Client::process_transactions`: build the session-wide script map from
the full address index, drop entries with no relevant txids, then run the
two passes entry by entry. Returns the retained index (whose length is the
`update` result). -/
def processTransactions (decode : Script → Bool) (st : St) (aIndex : AIndex) :
    M (St × AIndex) := do
  let selfMap := selfScriptMap aIndex
  let retained := aIndex.filter (fun e => ¬ e.2.2 = [])
  let (cache, tr) ← processEntries decode selfMap retained st.cache st.trace
  return ({ st with cache := cache, trace := tr }, retained)

/-! ## Indexer entry points -/

/-- `Indexer::create` for the Esplora client: scan every keychain of the
descriptor starting from an empty wallet cache (the client's memo may carry
entries from earlier sessions), then reconcile. Returns the cache, the
accumulated error list, the event trace and the final memo. -/
def createIx (env : Env) (fuel steps B : Nat) (descr : Descr) (memo0 : Memo) :
    M (WalletCache × List Err × List Ev × Memo) := do
  let st0 : St := ⟨WalletCache.new, memo0, [], []⟩
  let (st, aIndex) ← scanKeychains env fuel steps B descr false descr.keychains st0 []
  let (st, _) ← processTransactions descr.decode st aIndex
  return (st.cache, st.errors, st.trace, st.memo)

/-- `Indexer::update` for the Esplora client: scan in update mode over an
existing wallet cache, then reconcile. Returns the changed-address count
(the retained index length), the updated cache, the errors, the trace and
the final memo. -/
def updateIx (env : Env) (fuel steps B : Nat) (descr : Descr)
    (cache0 : WalletCache) (memo0 : Memo) :
    M (Nat × WalletCache × List Err × List Ev × Memo) := do
  let st0 : St := ⟨cache0, memo0, [], []⟩
  let (st, aIndex) ← scanKeychains env fuel steps B descr true descr.keychains st0 []
  let (st, retained) ← processTransactions descr.decode st aIndex
  return (retained.length, st.cache, st.errors, st.trace, st.memo)

/-! ## Observations -/

/-- Wallet cache of a finished `create` run. -/
def runCache : M (WalletCache × List Err × List Ev × Memo) → Option WalletCache
  | .ok r => some r.1
  | .error _ => none

/-- Event trace of a finished `create` run. -/
def runTrace : M (WalletCache × List Err × List Ev × Memo) → Option (List Ev)
  | .ok r => some r.2.2.1
  | .error _ => none

/-- The output record sitting at an outpoint of the cache's transaction
store, when present. -/
def debitAt (c : WalletCache) (o : Outpoint) : Option TxDebit :=
  match mapGet c.tx o.txid with
  | none => none
  | some tx => tx.outputs.find? (fun d => d.outpoint = o)

/-- Value contributed by one unspent-set outpoint to an address's balance
under the spec's reading: the value of the output at that outpoint when it
is classified `WalletOwned` to the address, else 0. -/
def ownedUnspentVal (c : WalletCache) (wa : WalletAddr) (o : Outpoint) : Int :=
  match debitAt c o with
  | some d => if d.beneficiary = Party.walletOwned wa.terminal wa.script then (d.value : Int) else 0
  | none => 0

/-- Sum over the unspent set of the values of outputs classified
`WalletOwned` to the address — the spec's balance expression. -/
def ownedUnspentSum (c : WalletCache) (wa : WalletAddr) : Int :=
  (c.utxo.map (ownedUnspentVal c wa)).sum

/-- The spec's balance invariant, as claimed: every cached address's balance
equals `ownedUnspentSum`. -/
def balanceInvariantB (c : WalletCache) : Bool :=
  c.addr.all (fun wa => wa.balance = ownedUnspentSum c wa)

/-- Like `ownedUnspentVal` but counting only outputs whose spent
back-reference is still empty. -/
def ownedSpentlessVal (c : WalletCache) (wa : WalletAddr) (o : Outpoint) : Int :=
  match debitAt c o with
  | some d =>
      if d.beneficiary = Party.walletOwned wa.terminal wa.script ∧ d.spent = none then
        (d.value : Int)
      else 0
  | none => 0

/-- Sum over the unspent set of the values of `WalletOwned` outputs with an
empty spent back-reference. -/
def ownedSpentlessSum (c : WalletCache) (wa : WalletAddr) : Int :=
  (c.utxo.map (ownedSpentlessVal c wa)).sum

/-- Event class tests. -/
def isOutputsEv : Ev → Bool
  | .outputsOf _ _ => true
  | _ => false

/-- Event class tests. -/
def isInputsEv : Ev → Bool
  | .inputsOf _ _ => true
  | _ => false

/-- A page fetch issued for a given script. -/
def isFetchOf (s : Script) : Ev → Bool
  | .fetchCall s' _ => s' = s
  | _ => false

/-- The batch-level two-phase discipline claimed by the spec: once any
input processing has happened, no output processing follows. -/
def batchPhased : List Ev → Bool
  | [] => true
  | e :: rest =>
      (if isInputsEv e then rest.all (fun x => !isOutputsEv x) else true) && batchPhased rest

/-! ## Concrete scenario inputs -/

/-- A mined coinbase transaction paying 60 to script 100. -/
def t1 : ETx := ⟨1, ⟨true, true⟩, [⟨0, 0, true, none⟩], [⟨100, 60⟩]⟩

/-- An unconfirmed transaction spending `t1`'s output (script 100, value
60) and paying 50 to the foreign script 200. -/
def t2 : ETx := ⟨2, ⟨false, false⟩, [⟨1, 0, false, some ⟨100, 60⟩⟩], [⟨200, 50⟩]⟩

/-- A mined coinbase transaction paying 70 to script 101. -/
def t3 : ETx := ⟨3, ⟨true, true⟩, [⟨0, 0, true, none⟩], [⟨101, 70⟩]⟩

/-- One keychain, address at index `i` has script `100 + i`; every script
decodes. -/
def cxDescr : Descr := ⟨[0], fun kc i => ⟨⟨kc, i⟩, 100 + i⟩, fun _ => true⟩

/-- Remote source for the balance scenario: address 100 owns `t1` whose
output is spent by the unconfirmed `t2`; all other addresses are empty. -/
def cx1Env : Env :=
  ⟨fun s cur => if s = 100 ∧ cur = none then .ok [t1, t2] else .ok [],
   fun _ => .ok FullAddrStats.dflt⟩

/-- `create` over `cx1Env` (batch size 2, empty memo). -/
def cx1Run : M (WalletCache × List Err × List Ev × Memo) :=
  createIx cx1Env 5 10 2 cxDescr []

/-- Remote source for the phase-interleaving scenario: two active
addresses, each with one mined coinbase transaction. -/
def cx2Env : Env :=
  ⟨fun s cur =>
      if s = 100 ∧ cur = none then .ok [t1]
      else if s = 101 ∧ cur = none then .ok [t3]
      else .ok [],
   fun _ => .ok FullAddrStats.dflt⟩

/-- `create` over `cx2Env` (batch size 2, empty memo). -/
def cx2Run : M (WalletCache × List Err × List Ev × Memo) :=
  createIx cx2Env 5 10 2 cxDescr []

/-- Remote source for the memo-bypass scenario: the network reports no
transactions anywhere. -/
def cx3Env : Env := ⟨fun _ _ => .ok [], fun _ => .ok FullAddrStats.dflt⟩

/-- `create` over `cx3Env` with a memo already holding `t1` for the first
address. -/
def cx3Run : M (WalletCache × List Err × List Ev × Memo) :=
  createIx cx3Env 5 10 2 cxDescr [(⟨⟨0, 0⟩, 100⟩, [t1])]

/-! ## Fetch-loop lemmas -/

/-- Every successful fetch-loop run issues its first page request at the
starting cursor: the trace extends by that `fetchCall` first. -/
theorem fetchLoop_trace (env : Env) (s : Script) :
    ∀ (fuel : Nat) (cursor : Option Txid) (res : List ETx) (tr : List Ev)
      (out : Except Err (List ETx) × List Ev),
      fetchLoop env s fuel cursor res tr = .ok out →
      ∃ rest, out.2 = tr ++ Ev.fetchCall s cursor :: rest := by
  intro fuel
  induction fuel with
  | zero => intro cursor res tr out h; simp [fetchLoop] at h
  | succ f ih =>
    intro cursor res tr out h
    rw [fetchLoop] at h
    rcases hpage : env.page s cursor with e | r
    · rw [hpage] at h
      simp at h
      exact ⟨[], by simp [← h]⟩
    · rw [hpage] at h
      dsimp only at h
      rcases hlast : r.getLast? with _ | lastTx
      · rw [hlast] at h
        dsimp only at h
        simp at h
        exact ⟨[], by simp [← h]⟩
      · rw [hlast] at h
        dsimp only at h
        by_cases hc : PAGE_SIZE - 1 ≤ r.length - 1
        · rw [if_pos hc] at h
          obtain ⟨rest, hrest⟩ := ih _ _ _ _ h
          exact ⟨Ev.fetchCall s (some lastTx.txid) :: rest, by simp [hrest]⟩
        · rw [if_neg hc] at h
          simp at h
          exact ⟨[], by simp [← h]⟩

/-- A single short page (below `PAGE_SIZE`) ends the fetch loop at once. -/
theorem fetchLoop_short (env : Env) (s : Script) (fuel : Nat) (r : List ETx)
    (tr : List Ev) (hfuel : 1 ≤ fuel) (hpage : env.page s none = .ok r)
    (hlen : r.length < PAGE_SIZE) :
    fetchLoop env s fuel none [] tr = .ok (.ok r, tr ++ [.fetchCall s none]) := by
  obtain ⟨f, rfl⟩ : ∃ f, fuel = f + 1 := ⟨fuel - 1, by omega⟩
  rw [fetchLoop, hpage]
  dsimp only
  rcases hlast : r.getLast? with _ | lastTx
  · simp
  · dsimp only
    rw [if_neg (by have := List.length_pos.2 (List.getLast?_isSome.1 (by simp [hlast]) : r ≠ []); omega)]
    simp

/-! ## C7: pagination -/

/-- C7: with a source returning exactly `PAGE_SIZE` records on the first
page (requested with no cursor) and an empty second page (requested with
the last retrieved id as cursor), the fetch loop makes exactly two page
requests and returns exactly those `PAGE_SIZE` records in order. -/
theorem c7_pagination (env : Env) (s : Script) (p : List ETx) (last : ETx) (tr0 : List Ev)
    (hp : p.length = PAGE_SIZE) (hl : p.getLast? = some last)
    (h1 : env.page s none = .ok p) (h2 : env.page s (some last.txid) = .ok [])
    (fuel : Nat) (hf : 2 ≤ fuel) :
    fetchLoop env s fuel none [] tr0 =
      .ok (.ok p, tr0 ++ [.fetchCall s none, .fetchCall s (some last.txid)]) := by
  obtain ⟨f, rfl⟩ : ∃ f, fuel = f + 2 := ⟨fuel - 2, by omega⟩
  have e2 : f + 2 = (f + 1) + 1 := rfl
  rw [e2, fetchLoop, h1]
  simp only [hl, hp]
  rw [if_pos (by norm_num [PAGE_SIZE])]
  rw [fetchLoop, h2]
  simp

/-- A full first page of 25 records. -/
def cw7Page : List ETx := (List.range 25).map fun i => ⟨i, ⟨true, true⟩, [], []⟩

/-- Source delivering `cw7Page` for the cursorless request and nothing
after. -/
def cw7Env : Env :=
  ⟨fun _ cur => if cur = none then .ok cw7Page else .ok [], fun _ => .ok FullAddrStats.dflt⟩

/-- Concrete instance of `c7_pagination`. -/
theorem c7_pagination_witness :
    fetchLoop cw7Env 9 2 none [] [] =
      .ok (.ok cw7Page, [.fetchCall 9 none, .fetchCall 9 (some 24)]) := by
  have h := c7_pagination cw7Env 9 cw7Page ⟨24, ⟨true, true⟩, [], []⟩ []
    (by decide) (by decide) rfl rfl 2 (by decide)
  simpa using h

/-! ## C3: create-mode fetches and the memo -/

/-- C3 as claimed is false: in this `create` run the first address is
visited and yields transaction 1 in the cache, yet no page request is ever
issued for its script — the request is answered by the memo, which held
`t1` while the network reports nothing. -/
theorem c3_memo_bypass_counterexample :
    ((runTrace cx3Run).map
        (fun tr => (tr.any (isFetchOf 100), tr.contains (.visit ⟨0, 0⟩))) = some (false, true))
    ∧ ((runCache cx3Run).map (fun c => (mapGet c.tx 1).isSome) = some true) := by
  decide

/-- C3 amended: in create mode (`force_update = false`) a memo hit answers
the request directly with the memoized list and an unchanged session state
(in particular, no page request is recorded); only on a memo miss does the
paginated fetch run, whose first page request is then recorded. -/
theorem c3_create_memo_first (env : Env) (fuel : Nat) (derive : DerivedAddr) (st : St) :
    (∀ cached, mapGet st.memo derive = some cached →
      getScripthashTxsAll env fuel derive false st = .ok (.ok cached, st))
    ∧ (mapGet st.memo derive = none → ∀ r st',
        getScripthashTxsAll env fuel derive false st = .ok (r, st') →
        ∃ rest, st'.trace = st.trace ++ Ev.fetchCall derive.script none :: rest) := by
  constructor
  · intro cached hc
    simp [getScripthashTxsAll, hc]
    rfl
  · intro hm r st' h
    rw [getScripthashTxsAll] at h
    simp only [Bool.not_false, if_pos, hm] at h
    rcases hloop : fetchLoop env derive.script fuel none [] st.trace with hard | out
    · rw [hloop] at h
      simp [Bind.bind, Except.bind, Pure.pure, Except.pure] at h
    · rcases out with ⟨rr, tr⟩
      rw [hloop] at h
      obtain ⟨rest, hrest⟩ := fetchLoop_trace env derive.script fuel none [] st.trace (rr, tr) hloop
      rcases rr with e | res
      · simp [Bind.bind, Except.bind, Pure.pure, Except.pure] at h
        rw [← h.2]
        exact ⟨rest, by simpa using hrest⟩
      · simp [Bind.bind, Except.bind, Pure.pure, Except.pure] at h
        rw [← h.2]
        exact ⟨rest, by simpa using hrest⟩

/-- Concrete instance of `c3_create_memo_first`: a create-mode request for
an address memoized with `[t1]` is answered from the memo with no state
change. -/
theorem c3_create_memo_first_witness :
    getScripthashTxsAll cx3Env 5 ⟨⟨0, 0⟩, 100⟩ false
        ⟨WalletCache.new, [(⟨⟨0, 0⟩, 100⟩, [t1])], [], []⟩ =
      .ok (.ok [t1], ⟨WalletCache.new, [(⟨⟨0, 0⟩, 100⟩, [t1])], [], []⟩) :=
  (c3_create_memo_first cx3Env 5 ⟨⟨0, 0⟩, 100⟩ _).1 [t1] (by decide)

/-! ## C4, C5: change detection -/

/-- Successful result of an engine computation. -/
def mOk {α : Type} : M α → Option α
  | .ok v => some v
  | .error _ => none

/-- Update-mode session over a cache that already holds statistics for the
first address; no memo, no errors, empty trace. -/
def cx4St : St := ⟨⟨[⟨⟨0, 0⟩, 100, 1, 60, 60⟩], [], []⟩, [], [], []⟩

/-- Remote source whose summary endpoint always fails (error 7). -/
def cx4Env : Env := ⟨fun _ _ => .ok [], fun _ => .error 7⟩

/-- C4 as claimed is false: when the summary call fails in update mode the
error is recorded (errors become `[7]`), but no page fetch is issued for
the address (no `fetchCall` event) and the address is short-circuited as
unchanged (cached statistics reused, signalled non-empty) — not forced
through a re-fetch. -/
theorem c4_summary_error_counterexample :
    (mOk (processAddress cx4Env 5 true ⟨⟨0, 0⟩, 100⟩ cx4St [])).map
        (fun r => (r.1.errors, r.1.trace.any (isFetchOf 100), r.2.2)) =
      some ([7], false, false) := by decide

/-- C4 amended: a failed summary call in update mode records the error and
takes the unchanged branch (the default summary has an empty address): the
cached statistics are reused and the address signalled non-empty when a
cache entry exists, otherwise it is marked empty; in neither case is a
fetch forced (the session state changes only by the recorded error). -/
theorem c4_summary_error_unchanged (env : Env) (fuel : Nat) (derive : DerivedAddr)
    (st : St) (aIndex : AIndex) (e : Err)
    (hsum : env.summary derive.script = .error e) :
    processAddress env fuel true derive st aIndex =
      match addrGet st.cache.addr derive.terminal with
      | some cachedWalletAddr =>
          .ok ({ st with errors := st.errors ++ [e] },
               aIndexInsert aIndex derive.script (cachedWalletAddr, []), false)
      | none => .ok ({ st with errors := st.errors ++ [e] }, aIndex, true) := by
  rcases haddr : addrGet st.cache.addr derive.terminal with _ | cwa
  · simp [processAddress, hsum, haddr, FullAddrStats.dflt]
    rfl
  · simp [processAddress, hsum, haddr, FullAddrStats.dflt]
    rfl

/-- Concrete instance of `c4_summary_error_unchanged`. -/
theorem c4_summary_error_unchanged_witness :
    mOk (processAddress cx4Env 5 true ⟨⟨0, 0⟩, 100⟩ cx4St []) =
      some ({ cx4St with errors := [7] },
            [(100, ⟨⟨0, 0⟩, 100, 1, 60, 60⟩, [])], false) := by
  have h := c4_summary_error_unchanged cx4Env 5 ⟨⟨0, 0⟩, 100⟩ cx4St [] 7 rfl
  rw [h]
  rfl

/-- Remote source whose summary for script 100 matches the memo-derived
one (1 confirmed, 0 unconfirmed) and is empty elsewhere. -/
def cx5Env : Env :=
  ⟨fun _ _ => .ok [], fun s => if s = 100 then .ok ⟨some 100, 1, 0⟩ else .ok FullAddrStats.dflt⟩

/-- Update-mode session: the memo holds the confirmed `t1` for the first
address and the cache already has its statistics. -/
def cx5St : St := ⟨⟨[⟨⟨0, 0⟩, 100, 1, 60, 60⟩], [], []⟩, [(⟨⟨0, 0⟩, 100⟩, [t1])], [], []⟩

/-- C5 as claimed is false in its gap-limit part: with matching summaries
and an existing cache entry, the cached statistics are indeed reused (the
entry is re-inserted into the address index with no txids), but the address
is signalled non-empty (`false`) — it resets the consecutive-empty counter
rather than counting toward it. -/
theorem c5_cached_signal_counterexample :
    (mOk (processAddress cx5Env 5 true ⟨⟨0, 0⟩, 100⟩ cx5St [])).map
        (fun r => (r.2.1, r.2.2)) =
      some ([(100, ⟨⟨0, 0⟩, 100, 1, 60, 60⟩, [])], false) := by decide

/-- C5 amended: in update mode, when the remote summary is obtained and
matches the memo-derived summary (or carries an empty address) and a cache
entry exists for the address, that entry's statistics are re-inserted into
the address index with no transaction ids and the address is signalled
non-empty — resetting the consecutive-empty counter so that every cached
address keeps being checked; the session state is unchanged (no fetch, no
error). -/
theorem c5_unchanged_reuse (env : Env) (fuel : Nat) (derive : DerivedAddr)
    (st : St) (aIndex : AIndex) (s_ : FullAddrStats) (cwa : WalletAddr)
    (hsum : env.summary derive.script = .ok s_)
    (hcond : s_.address = none ∨ getAddrTxStatsByCache st.memo derive = s_)
    (hcache : addrGet st.cache.addr derive.terminal = some cwa) :
    processAddress env fuel true derive st aIndex =
      .ok (st, aIndexInsert aIndex derive.script (cwa, []), false) := by
  rcases hcond with hc | hc
  · simp [processAddress, hsum, hcache, hc]
    rfl
  · simp [processAddress, hsum, hcache, hc]
    rfl

/-- Concrete instance of `c5_unchanged_reuse`. -/
theorem c5_unchanged_reuse_witness :
    mOk (processAddress cx5Env 5 true ⟨⟨0, 0⟩, 100⟩ cx5St []) =
      some (cx5St, [(100, ⟨⟨0, 0⟩, 100, 1, 60, 60⟩, [])], false) := by
  have h := c5_unchanged_reuse cx5Env 5 ⟨⟨0, 0⟩, 100⟩ cx5St [] ⟨some 100, 1, 0⟩
    ⟨⟨0, 0⟩, 100, 1, 60, 60⟩ rfl (.inr (by decide)) (by decide)
  rw [h]
  rfl


/-! ## C6: gap-limit termination -/

/-- Address-visit event test. -/
def isVisitEv : Ev → Bool
  | .visit _ => true
  | _ => false

/-- The visit events of `n` consecutive addresses of keychain `kc`
starting at index `idx`. -/
def visitsFrom (kc : Nat) : Nat → Nat → List Ev
  | _, 0 => []
  | idx, n + 1 => Ev.visit ⟨kc, idx⟩ :: visitsFrom kc (idx + 1) n

/-- Inserting at one key leaves lookups at other keys unchanged. -/
theorem mapGet_mapInsert_ne {κ τ : Type} [DecidableEq κ] (m : List (κ × τ)) (k k' : κ) (v : τ)
    (h : ¬ k' = k) : mapGet (mapInsert m k v) k' = mapGet m k' := by
  induction m with
  | nil =>
    simp only [mapInsert, mapGet]
    rw [if_neg (fun hh : k = k' => h hh.symm)]
  | cons p rest ih =>
    simp only [mapInsert]
    by_cases hp : p.1 = k
    · rw [if_pos hp]
      simp only [mapGet]
      rw [if_neg (fun hh : k = k' => h hh.symm), if_neg (by rw [hp]; exact fun hh : k = k' => h hh.symm)]
    · rw [if_neg hp]
      simp only [mapGet]
      by_cases hq : p.1 = k'
      · rw [if_pos hq, if_pos hq]
      · rw [if_neg hq, if_neg hq]
        exact ih

/-- A forced (or memo-missing) fetch whose first page is short returns that
page, memoizes it and records exactly one page request. -/
theorem getScripthashTxsAll_short (env : Env) (fuel : Nat) (derive : DerivedAddr)
    (force : Bool) (st : St) (r : List ETx)
    (hfuel : 1 ≤ fuel)
    (hmem : force = true ∨ mapGet st.memo derive = none)
    (hpage : env.page derive.script none = .ok r) (hlen : r.length < PAGE_SIZE) :
    getScripthashTxsAll env fuel derive force st =
      .ok (.ok r, { st with memo := mapInsert st.memo derive r,
                            trace := st.trace ++ [.fetchCall derive.script none] }) := by
  have hloop := fetchLoop_short env derive.script fuel r st.trace hfuel hpage hlen
  rcases hmem with hf | hm
  · subst hf
    rw [getScripthashTxsAll]
    simp [hloop, Bind.bind, Except.bind, Pure.pure, Except.pure]
  · rw [getScripthashTxsAll]
    simp [hm, hloop, Bind.bind, Except.bind, Pure.pure, Except.pure]

/-- Create-mode `process_address` on a memo miss with a single short page
`r`: the fetched transactions are converted into the store, the memo and
trace updated, the `(stats, txids)` entry inserted, and the address is
empty exactly when `r` is. -/
theorem processAddress_create (env : Env) (fuel : Nat) (derive : DerivedAddr)
    (st : St) (aIndex : AIndex) (r : List ETx)
    (hfuel : 1 ≤ fuel) (hmiss : mapGet st.memo derive = none)
    (hpage : env.page derive.script none = .ok r) (hlen : r.length < PAGE_SIZE) :
    processAddress env fuel false derive st aIndex =
      .ok ({ st with
              cache := { st.cache with
                tx := mapExtend st.cache.tx (r.map fun t => ((WalletTx.ofE t).txid, WalletTx.ofE t)) },
              memo := mapInsert st.memo derive r,
              trace := st.trace ++ [.fetchCall derive.script none] },
           aIndexInsert aIndex derive.script (WalletAddr.ofDerive derive, r.map (·.txid)),
           r.isEmpty) := by
  have hshort := getScripthashTxsAll_short env fuel derive false st r hfuel (.inr hmiss) hpage hlen
  rw [processAddress, processAddressFetch]
  simp only [Bind.bind, Except.bind, hshort]
  rcases r with _ | ⟨t, rest⟩
  · simp [Pure.pure, Except.pure, mapExtend]
  · simp [Pure.pure, Except.pure]

/-- The per-keychain scan over a run of `n` remaining empty addresses
(counter at `ec`, `ec + n = B`): it stops after visiting exactly those `n`
addresses. -/
theorem scanKeychain_empty_run (env : Env) (fuel B : Nat) (descr : Descr) (kc : Nat)
    (sc : Nat → Script)
    (hfuel : 1 ≤ fuel)
    (haddr : ∀ i, descr.addrOf kc i = ⟨⟨kc, i⟩, sc i⟩) :
    ∀ (n idx ec : Nat) (st : St) (aIndex : AIndex) (steps : Nat),
      (∀ j, idx ≤ j → env.page (sc j) none = .ok []) →
      (∀ j, idx ≤ j → mapGet st.memo ⟨⟨kc, j⟩, sc j⟩ = none) →
      ec + n = B → 1 ≤ n → n ≤ steps →
      ∃ st' aIndex',
        scanKeychain env fuel B descr false kc steps idx ec st aIndex = .ok (st', aIndex') ∧
        st'.trace.filter isVisitEv = (st.trace.filter isVisitEv) ++ visitsFrom kc idx n := by
  intro n
  induction n with
  | zero => intro idx ec st aIndex steps _ _ _ h1 _; omega
  | succ n ih =>
    intro idx ec st aIndex steps hemp hmemo hec hnpos hsteps
    obtain ⟨s, rfl⟩ : ∃ s, steps = s + 1 := ⟨steps - 1, by omega⟩
    rw [scanKeychain]
    rw [haddr idx]
    dsimp only
    have hpa := processAddress_create env fuel ⟨⟨kc, idx⟩, sc idx⟩
      { st with trace := st.trace ++ [Ev.visit ⟨kc, idx⟩] } aIndex []
      hfuel (hmemo idx le_rfl) (hemp idx le_rfl) (by simp [PAGE_SIZE])
    simp only [Bind.bind, Except.bind, hpa]
    by_cases hstop : B ≤ ec + 1
    · have hn : n = 0 := by omega
      subst hn
      simp only [List.isEmpty_nil, if_true, if_pos hstop, Pure.pure, Except.pure]
      refine ⟨_, _, rfl, ?_⟩
      simp [visitsFrom, List.filter_append, isVisitEv]
    · simp only [List.isEmpty_nil, if_true, if_neg hstop]
      have hmemo2 : ∀ j, idx + 1 ≤ j →
          mapGet (mapInsert st.memo ⟨⟨kc, idx⟩, sc idx⟩ ([] : List ETx)) ⟨⟨kc, j⟩, sc j⟩ = none := by
        intro j hj
        rw [mapGet_mapInsert_ne]
        · exact hmemo j (by omega)
        · intro hh
          have hji : j = idx := by
            have := congrArg (fun d : DerivedAddr => d.terminal.index) hh
            simpa using this
          omega
      obtain ⟨st', aIndex', hrun, htrace⟩ := ih (idx + 1) (ec + 1)
        { st with
          cache := { st.cache with
            tx := mapExtend st.cache.tx (List.map (fun t => ((WalletTx.ofE t).txid, WalletTx.ofE t)) ([] : List ETx)) },
          memo := mapInsert st.memo ⟨⟨kc, idx⟩, sc idx⟩ [],
          trace := (st.trace ++ [Ev.visit ⟨kc, idx⟩]) ++ [Ev.fetchCall (sc idx) none] }
        (aIndexInsert aIndex (sc idx) (WalletAddr.ofDerive ⟨⟨kc, idx⟩, sc idx⟩, List.map (fun t => t.txid) ([] : List ETx)))
        s (fun j hj => hemp j (by omega)) (fun j hj => hmemo2 j hj) (by omega) (by omega) (by omega)
      refine ⟨st', aIndex', hrun, ?_⟩
      rw [htrace]
      simp [visitsFrom, List.filter_append, isVisitEv]


/-- The per-keychain scan over `m` active addresses followed by emptiness:
each active address resets the counter, so exactly `m + B` addresses are
visited. -/
theorem scanKeychain_active_then_empty (env : Env) (fuel B : Nat) (descr : Descr) (kc : Nat)
    (sc : Nat → Script) (acts : Nat → List ETx)
    (hfuel : 1 ≤ fuel) (hB : 1 ≤ B)
    (haddr : ∀ i, descr.addrOf kc i = ⟨⟨kc, i⟩, sc i⟩) :
    ∀ (m idx : Nat) (st : St) (aIndex : AIndex) (steps : Nat),
      (∀ j, idx ≤ j → j < idx + m → env.page (sc j) none = .ok (acts j)) →
      (∀ j, idx ≤ j → j < idx + m → acts j ≠ [] ∧ (acts j).length < PAGE_SIZE) →
      (∀ j, idx + m ≤ j → env.page (sc j) none = .ok []) →
      (∀ j, idx ≤ j → mapGet st.memo ⟨⟨kc, j⟩, sc j⟩ = none) →
      m + B ≤ steps →
      ∃ st' aIndex',
        scanKeychain env fuel B descr false kc steps idx 0 st aIndex = .ok (st', aIndex') ∧
        st'.trace.filter isVisitEv = st.trace.filter isVisitEv ++ visitsFrom kc idx (m + B) := by
  intro m
  induction m with
  | zero =>
    intro idx st aIndex steps hact hne hemp hmemo hsteps
    have h := scanKeychain_empty_run env fuel B descr kc sc hfuel haddr B idx 0 st aIndex steps
      (fun j hj => hemp j (by omega)) hmemo (by omega) hB (by omega)
    simpa using h
  | succ m ih =>
    intro idx st aIndex steps hact hne hemp hmemo hsteps
    obtain ⟨s, rfl⟩ : ∃ s, steps = s + 1 := ⟨steps - 1, by omega⟩
    rw [scanKeychain, haddr idx]
    dsimp only
    have hpa := processAddress_create env fuel ⟨⟨kc, idx⟩, sc idx⟩
      { st with trace := st.trace ++ [Ev.visit ⟨kc, idx⟩] } aIndex (acts idx)
      hfuel (hmemo idx le_rfl) (hact idx le_rfl (by omega)) (hne idx le_rfl (by omega)).2
    simp only [Bind.bind, Except.bind, hpa]
    have hie : ¬ ((acts idx).isEmpty = true) := by
      rcases h : acts idx with _ | _
      · exact absurd h (hne idx le_rfl (by omega)).1
      · simp [h]
    rw [if_neg hie]
    have hmemo2 : ∀ j, idx + 1 ≤ j →
        mapGet (mapInsert st.memo ⟨⟨kc, idx⟩, sc idx⟩ (acts idx)) ⟨⟨kc, j⟩, sc j⟩ = none := by
      intro j hj
      rw [mapGet_mapInsert_ne]
      · exact hmemo j (by omega)
      · intro hh
        have hji : j = idx := by
          have := congrArg (fun d : DerivedAddr => d.terminal.index) hh
          simpa using this
        omega
    obtain ⟨st', aIndex', hrun, htrace⟩ := ih (idx + 1)
      { st with
        cache := { st.cache with
          tx := mapExtend st.cache.tx (List.map (fun t => ((WalletTx.ofE t).txid, WalletTx.ofE t)) (acts idx)) },
        memo := mapInsert st.memo ⟨⟨kc, idx⟩, sc idx⟩ (acts idx),
        trace := (st.trace ++ [Ev.visit ⟨kc, idx⟩]) ++ [Ev.fetchCall (sc idx) none] }
      (aIndexInsert aIndex (sc idx) (WalletAddr.ofDerive ⟨⟨kc, idx⟩, sc idx⟩, List.map (fun t => t.txid) (acts idx)))
      s (fun j hj1 hj2 => hact j (by omega) (by omega))
      (fun j hj1 hj2 => hne j (by omega) (by omega))
      (fun j hj => hemp j (by omega)) (fun j hj => hmemo2 j hj) (by omega)
    refine ⟨st', aIndex', hrun, ?_⟩
    rw [htrace]
    have hmb : m + 1 + B = (m + B) + 1 := by omega
    rw [hmb]
    simp [visitsFrom, List.filter_append, isVisitEv]


/-- C6: for a keychain whose indices 0–4 have activity (a non-empty short
page each) and whose indices from 5 on are empty, the gap-limited scan
terminates (returns `.ok` for any step budget of at least `5 + B`) having
visited exactly addresses `0 .. 5 + B - 1` and no further: the
consecutive-empty counter resets on each active address and scanning stops
once it reaches the batch size `B`. -/
theorem c6_gap_limit (env : Env) (fuel B : Nat) (descr : Descr) (kc : Nat)
    (sc : Nat → Script) (acts : Nat → List ETx) (st0 : St) (aIndex0 : AIndex)
    (hfuel : 1 ≤ fuel) (hB : 1 ≤ B)
    (haddr : ∀ i, descr.addrOf kc i = ⟨⟨kc, i⟩, sc i⟩)
    (hact : ∀ i, i < 5 → env.page (sc i) none = .ok (acts i))
    (hne : ∀ i, i < 5 → acts i ≠ [] ∧ (acts i).length < PAGE_SIZE)
    (hemp : ∀ i, 5 ≤ i → env.page (sc i) none = .ok [])
    (hmemo : ∀ j, mapGet st0.memo ⟨⟨kc, j⟩, sc j⟩ = none)
    (steps : Nat) (hsteps : 5 + B ≤ steps) :
    ∃ st' aIndex',
      scanKeychain env fuel B descr false kc steps 0 0 st0 aIndex0 = .ok (st', aIndex') ∧
      st'.trace.filter isVisitEv = st0.trace.filter isVisitEv ++ visitsFrom kc 0 (5 + B) :=
  scanKeychain_active_then_empty env fuel B descr kc sc acts hfuel hB haddr 5 0 st0 aIndex0 steps
    (fun j _ hj => hact j (by omega)) (fun j _ hj => hne j (by omega))
    (fun j hj => hemp j (by omega)) (fun j _ => hmemo j) hsteps

/-- Remote source with activity (one mined transaction) at scripts below
105 and emptiness elsewhere. -/
def cw6Env : Env :=
  ⟨fun s cur => if s < 105 ∧ cur = none then .ok [⟨s, ⟨true, true⟩, [], []⟩] else .ok [],
   fun _ => .ok FullAddrStats.dflt⟩

/-- Concrete instance of `c6_gap_limit`: batch size 3, scripts
`100 + i`, exactly 8 addresses visited. -/
theorem c6_gap_limit_witness :
    (mOk (scanKeychain cw6Env 1 3 cxDescr false 0 8 0 0 ⟨WalletCache.new, [], [], []⟩ [])).map
      (fun r => r.1.trace.filter isVisitEv) = some (visitsFrom 0 0 8) := by
  obtain ⟨st', aIndex', hrun, htrace⟩ :=
    c6_gap_limit cw6Env 1 3 cxDescr 0 (fun i => 100 + i) (fun i => [⟨100 + i, ⟨true, true⟩, [], []⟩])
      ⟨WalletCache.new, [], [], []⟩ []
      (by omega) (by omega) (fun i => rfl)
      (fun i hi => by
        have h5 : 100 + i < 105 := by omega
        simp [cw6Env, h5])
      (fun i hi => ⟨by simp, by simp [PAGE_SIZE]⟩)
      (fun i hi => by
        have h5 : ¬ (100 + i < 105) := by omega
        simp [cw6Env, h5])
      (fun j => rfl) 8 (by omega)
  rw [hrun]
  simpa [mOk] using htrace

/-! ## C2: processing order of the two passes -/

/-- A successful output pass over an entry's txids appends exactly one
`outputsOf` event per txid, in order. -/
theorem outputPass_trace (decode : Script → Bool) (script : Script)
    (selfMap : List (Script × WalletAddr)) :
    ∀ (txids : List Txid) (wa : WalletAddr) (cache : WalletCache) (tr : List Ev)
      (out : WalletAddr × WalletCache × List Ev),
      outputPass decode script selfMap txids wa cache tr = .ok out →
      out.2.2 = tr ++ txids.map (Ev.outputsOf script) := by
  intro txids
  induction txids with
  | nil =>
    intro wa cache tr out h
    simp only [outputPass] at h
    cases h
    simp
  | cons t rest ih =>
    intro wa cache tr out h
    rw [outputPass] at h
    rcases hget : mapGet cache.tx t with _ | tx
    · rw [hget] at h
      exact absurd h (by simp)
    · rw [hget] at h
      dsimp only at h
      have htr := ih _ _ _ _ h
      rw [htr]
      simp

/-- A successful input pass appends exactly one `inputsOf` event per txid,
in order. -/
theorem inputPass_trace (decode : Script → Bool) (script : Script)
    (selfMap : List (Script × WalletAddr)) :
    ∀ (txids : List Txid) (wa : WalletAddr) (cache : WalletCache) (tr : List Ev)
      (out : WalletAddr × WalletCache × List Ev),
      inputPass decode script selfMap txids wa cache tr = .ok out →
      out.2.2 = tr ++ txids.map (Ev.inputsOf script) := by
  intro txids
  induction txids with
  | nil =>
    intro wa cache tr out h
    simp only [inputPass] at h
    cases h
    simp
  | cons t rest ih =>
    intro wa cache tr out h
    rw [inputPass] at h
    rcases hget : mapGet cache.tx t with _ | tx
    · rw [hget] at h
      exact absurd h (by simp)
    · rw [hget] at h
      dsimp only at h
      have htr := ih _ _ _ _ h
      rw [htr]
      simp

/-- One entry's processing appends all of its output events, then all of
its input events. -/
theorem processEntry_trace (decode : Script → Bool) (selfMap : List (Script × WalletAddr))
    (e : Script × WalletAddr × List Txid) (cache : WalletCache) (tr : List Ev)
    (out : WalletCache × List Ev) (h : processEntry decode selfMap e cache tr = .ok out) :
    out.2 = tr ++ (e.2.2.map (Ev.outputsOf e.1) ++ e.2.2.map (Ev.inputsOf e.1)) := by
  rw [processEntry] at h
  rcases hop : outputPass decode e.1 selfMap e.2.2 e.2.1 cache tr with hard | o1
  · rw [hop] at h
    exact absurd h (by simp [Bind.bind, Except.bind])
  · rw [hop] at h
    simp only [Bind.bind, Except.bind] at h
    rcases hip : inputPass decode e.1 selfMap e.2.2 o1.1 o1.2.1 o1.2.2 with hard | o2
    · rw [hip] at h
      exact absurd h (by simp)
    · rw [hip] at h
      simp only [Pure.pure, Except.pure] at h
      cases h
      have h1 := outputPass_trace decode e.1 selfMap e.2.2 e.2.1 cache tr o1 hop
      have h2 := inputPass_trace decode e.1 selfMap e.2.2 o1.1 o1.2.1 o1.2.2 o2 hip
      simp only [h2, h1]
      simp

/-- The entry loop's trace is the per-entry concatenation of output events
followed by input events. -/
theorem processEntries_trace (decode : Script → Bool) (selfMap : List (Script × WalletAddr)) :
    ∀ (entries : List (Script × WalletAddr × List Txid)) (cache : WalletCache) (tr : List Ev)
      (out : WalletCache × List Ev),
      processEntries decode selfMap entries cache tr = .ok out →
      out.2 = tr ++ entries.flatMap
        (fun e => e.2.2.map (Ev.outputsOf e.1) ++ e.2.2.map (Ev.inputsOf e.1)) := by
  intro entries
  induction entries with
  | nil =>
    intro cache tr out h
    simp only [processEntries] at h
    cases h
    simp
  | cons e rest ih =>
    intro cache tr out h
    rw [processEntries] at h
    rcases he : processEntry decode selfMap e cache tr with hard | o1
    · rw [he] at h
      exact absurd h (by simp [Bind.bind, Except.bind])
    · rw [he] at h
      simp only [Bind.bind, Except.bind] at h
      have h1 := processEntry_trace decode selfMap e cache tr o1 he
      have h2 := ih o1.1 o1.2 out h
      rw [h2, h1]
      simp

/-- C2 amended: the two-pass discipline of `process_transactions` is per
address entry, not batch-wide — for each retained entry, in map order, all
outputs of that entry's transactions are processed before any of its
inputs; input processing of one address precedes output processing of
later addresses. -/
theorem c2_per_address_two_pass (decode : Script → Bool) (st : St) (aIndex : AIndex)
    (out : St × AIndex) (h : processTransactions decode st aIndex = .ok out) :
    out.1.trace = st.trace ++
      (aIndex.filter (fun e => ¬ e.2.2 = [])).flatMap
        (fun e => e.2.2.map (Ev.outputsOf e.1) ++ e.2.2.map (Ev.inputsOf e.1)) := by
  rw [processTransactions] at h
  rcases hpe : processEntries decode (selfScriptMap aIndex)
      (aIndex.filter (fun e => ¬ e.2.2 = [])) st.cache st.trace with hard | o1
  · rw [hpe] at h
    exact absurd h (by simp [Bind.bind, Except.bind])
  · rw [hpe] at h
    simp only [Bind.bind, Except.bind, Pure.pure, Except.pure] at h
    cases h
    exact processEntries_trace decode (selfScriptMap aIndex) _ st.cache st.trace o1 hpe

/-- C2 as claimed is false: in this two-address `create` run, the inputs of
the first address's transaction are processed before the outputs of the
second address's transaction, so the batch-wide output-before-input
discipline does not hold. -/
theorem c2_interleaving_counterexample :
    (runTrace cx2Run).map batchPhased = some false := by decide

/-- Transaction store holding the converted `t1`; empty everything else. -/
def cw2St : St := ⟨⟨[], [(1, WalletTx.ofE t1)], []⟩, [], [], []⟩

/-- Two-entry address index: one active entry with txid 1, one empty. -/
def cw2AIndex : AIndex :=
  [(100, WalletAddr.ofDerive ⟨⟨0, 0⟩, 100⟩, [1]), (101, WalletAddr.ofDerive ⟨⟨0, 1⟩, 101⟩, [])]

/-- Concrete instance of `c2_per_address_two_pass`. -/
theorem c2_per_address_two_pass_witness :
    (mOk (processTransactions (fun _ => true) cw2St cw2AIndex)).map (fun r => r.1.trace) =
      some [Ev.outputsOf 100 1, Ev.inputsOf 100 1] := by
  obtain ⟨out, hrun⟩ : ∃ out, processTransactions (fun _ => true) cw2St cw2AIndex = .ok out :=
    ⟨_, rfl⟩
  have htr := c2_per_address_two_pass (fun _ => true) cw2St cw2AIndex out hrun
  rw [hrun]
  simp only [mOk, Option.map]
  rw [htr]
  rfl

/-! ## C1 counterexample, C8: the spent back-reference -/

/-- Lookup after insert at the same key yields the inserted value. -/
theorem mapGet_mapInsert_self {κ τ : Type} [DecidableEq κ] (m : List (κ × τ)) (k : κ) (v : τ) :
    mapGet (mapInsert m k v) k = some v := by
  induction m with
  | nil => simp [mapGet, mapInsert]
  | cons p rest ih =>
    by_cases hp : p.1 = k
    · simp [mapInsert, hp, mapGet]
    · simp only [mapInsert, if_neg hp, mapGet]
      exact ih

/-- C1 as claimed is false: in the `cx1Run` create run (a mined funding
transaction whose output is spent by an unconfirmed transaction in the same
batch), the address balance is 0 while the sum of unspent-set outputs
classified `WalletOwned` to it is 60 — the unconfirmed spend debits the
balance but leaves the outpoint in the unspent set. -/
theorem c1_balance_counterexample :
    ((runCache cx1Run).map balanceInvariantB = some false)
    ∧ ((runCache cx1Run).map
        (fun c => (c.addr.map (fun wa => wa.balance), c.addr.map (ownedUnspentSum c))) =
          some ([0], [60])) := by decide

/-- C8 as claimed is partly false: in `cx1Run`, transaction 2 spends output
`(1, 0)` from its input at position 0, so a back-reference identifying "the
spending transaction and its input position" would be `(2, 0)`; the code
instead stores the spent outpoint itself, `(1, 0)`. -/
theorem c8_backlink_counterexample :
    ((runCache cx1Run).bind (fun c => (debitAt c ⟨1, 0⟩).map (fun d => d.spent)) =
        some (some ⟨1, 0⟩))
    ∧ ¬ ((runCache cx1Run).bind (fun c => (debitAt c ⟨1, 0⟩).map (fun d => d.spent)) =
        some (some ⟨2, 0⟩)) := by decide

/-- C8 amended: when an input whose payer renders the address under
consideration spends an output whose funding transaction is present in the
store (with the referenced output index), the output's spent field is set —
but to the spent outpoint itself (funding txid and output index), not to
the spending transaction and input position; the outpoint is removed from
the unspent set only when the spending transaction is mined; a missing
funding transaction changes nothing and raises no error. -/
theorem c8_backlink_spent_outpoint (decode : Script → Bool) (script : Script)
    (selfMap : List (Script × WalletAddr)) (status : TxStatus) (credit : TxCredit)
    (wa : WalletAddr) (cache : WalletCache)
    (hpayer : credit.payer.scriptPubkey = some script) :
    (∀ prevTx txout,
      mapGet cache.tx credit.outpoint.txid = some prevTx →
      prevTx.outputs.get? credit.outpoint.vout = some txout →
      (mapGet (processCredit decode script selfMap status credit wa cache).2.2.tx
          credit.outpoint.txid).map (fun p => p.outputs.get? credit.outpoint.vout) =
        some (some { txout with spent := some credit.outpoint })
      ∧ (processCredit decode script selfMap status credit wa cache).2.2.utxo =
          (if status.isMined then utxoRemove cache.utxo txout.outpoint else cache.utxo))
    ∧ (mapGet cache.tx credit.outpoint.txid = none →
        (processCredit decode script selfMap status credit wa cache).2.2 = cache) := by
  constructor
  · intro prevTx txout hprev hout
    rw [processCredit, hpayer]
    dsimp only
    rw [if_pos rfl]
    dsimp only
    rw [if_neg (fun hh : false = true => Bool.noConfusion hh)]
    dsimp only
    rw [creditFundingUpdate]
    dsimp only
    rw [hprev]
    dsimp only
    rw [hout]
    dsimp only
    constructor
    · rw [mapGet_mapInsert_self]
      dsimp only [Option.map]
      rw [List.get?_set_eq, hout]
      rfl
    · rfl
  · intro hprev
    rw [processCredit, hpayer]
    dsimp only
    rw [if_pos rfl]
    dsimp only
    rw [if_neg (fun hh : false = true => Bool.noConfusion hh)]
    dsimp only
    rw [creditFundingUpdate]
    dsimp only
    rw [hprev]

/-- Concrete instance of `c8_backlink_spent_outpoint`. -/
theorem c8_backlink_spent_outpoint_witness :
    (mapGet (processCredit (fun _ => true) 100 [] .mempool ⟨⟨1, 0⟩, false, 60, .unknown 100⟩
          (WalletAddr.ofDerive ⟨⟨0, 0⟩, 100⟩) ⟨[], [(1, WalletTx.ofE t1)], [⟨1, 0⟩]⟩).2.2.tx
        1).map (fun p => p.outputs.get? 0) =
      some (some ⟨⟨1, 0⟩, .unknown 100, 60, some ⟨1, 0⟩⟩) := by
  have h := (c8_backlink_spent_outpoint (fun _ => true) 100 [] .mempool
      ⟨⟨1, 0⟩, false, 60, .unknown 100⟩ (WalletAddr.ofDerive ⟨⟨0, 0⟩, 100⟩)
      ⟨[], [(1, WalletTx.ofE t1)], [⟨1, 0⟩]⟩ rfl).1
      (WalletTx.ofE t1) ⟨⟨1, 0⟩, .unknown 100, 60, none⟩ rfl rfl
  exact h.1

/-! ## C9: idempotence of update -/

/-- A remote source reports no activity beyond the memo for an address:
its summary call fails, or returns an empty address, or agrees with the
memo-derived summary. -/
def SummaryUnchanged (env : Env) (m : Memo) (d : DerivedAddr) : Prop :=
  match env.summary d.script with
  | .error _ => True
  | .ok s_ => s_.address = none ∨ getAddrTxStatsByCache m d = s_

/-- The unchanged branch with no cache entry marks the address empty and
leaves everything untouched. -/
theorem c5_unchanged_nocache (env : Env) (fuel : Nat) (derive : DerivedAddr)
    (st : St) (aIndex : AIndex) (s_ : FullAddrStats)
    (hsum : env.summary derive.script = .ok s_)
    (hcond : s_.address = none ∨ getAddrTxStatsByCache st.memo derive = s_)
    (hnone : addrGet st.cache.addr derive.terminal = none) :
    processAddress env fuel true derive st aIndex = .ok (st, aIndex, true) := by
  rcases hcond with hc | hc
  · simp [processAddress, hsum, hnone, hc]
    rfl
  · simp [processAddress, hsum, hnone, hc]
    rfl

/-- Members of the index after an insert are old members or the inserted
entry. -/
theorem mem_aIndexInsert (s : Script) (v : WalletAddr × List Txid) :
    ∀ (m : AIndex) (e : Script × WalletAddr × List Txid),
      e ∈ aIndexInsert m s v → e ∈ m ∨ e = (s, v.1, v.2) := by
  intro m
  induction m with
  | nil =>
    intro e he
    simp [aIndexInsert] at he
    right
    simp [he]
  | cons p rest ih =>
    intro e he
    rw [aIndexInsert] at he
    rcases p with ⟨k, w⟩
    by_cases h1 : s = k
    · rw [if_pos h1] at he
      rcases List.mem_cons.1 he with h | h
      · right; simp [h]
      · left; exact List.mem_cons_of_mem _ h
    · rw [if_neg h1] at he
      by_cases h2 : s < k
      · rw [if_pos h2] at he
        rcases List.mem_cons.1 he with h | h
        · right; simp [h]
        · left; exact h
      · rw [if_neg h2] at he
        rcases List.mem_cons.1 he with h | h
        · left; exact List.mem_cons.2 (.inl h)
        · rcases ih e h with h' | h'
          · left; exact List.mem_cons_of_mem _ h'
          · right; exact h'

/-- All entries of an address index carry no transaction ids. -/
def AllEmpty (aIndex : AIndex) : Prop := ∀ e ∈ aIndex, e.2.2 = ([] : List Txid)

/-- Update-mode `process_address` under an unchanged summary never touches
the cache or the memo, and only adds txid-free entries to the index. -/
theorem processAddress_unchanged (env : Env) (fuel : Nat) (derive : DerivedAddr)
    (st : St) (aIndex : AIndex)
    (hsum : SummaryUnchanged env st.memo derive) :
    ∃ st' aIndex' b, processAddress env fuel true derive st aIndex = .ok (st', aIndex', b)
      ∧ st'.cache = st.cache ∧ st'.memo = st.memo
      ∧ (AllEmpty aIndex → AllEmpty aIndex') := by
  rcases hs : env.summary derive.script with e | s_
  · have h := c4_summary_error_unchanged env fuel derive st aIndex e hs
    rcases haddr : addrGet st.cache.addr derive.terminal with _ | cwa
    · rw [haddr] at h
      exact ⟨_, _, _, h, rfl, rfl, fun ha => ha⟩
    · rw [haddr] at h
      refine ⟨_, _, _, h, rfl, rfl, fun ha e' he' => ?_⟩
      rcases mem_aIndexInsert derive.script (cwa, []) aIndex e' he' with h' | h'
      · exact ha e' h'
      · simp [h']
  · rw [SummaryUnchanged, hs] at hsum
    rcases haddr : addrGet st.cache.addr derive.terminal with _ | cwa
    · have h := c5_unchanged_nocache env fuel derive st aIndex s_ hs hsum haddr
      exact ⟨_, _, _, h, rfl, rfl, fun ha => ha⟩
    · have h := c5_unchanged_reuse env fuel derive st aIndex s_ cwa hs hsum haddr
      refine ⟨_, _, _, h, rfl, rfl, fun ha e' he' => ?_⟩
      rcases mem_aIndexInsert derive.script (cwa, []) aIndex e' he' with h' | h'
      · exact ha e' h'
      · simp [h']

/-- The per-keychain update-mode scan under unchanged summaries preserves
the cache and memo and produces only txid-free index entries. -/
theorem scanKeychain_unchanged (env : Env) (fuel B : Nat) (descr : Descr) (kc : Nat)
    (memo0 : Memo)
    (hsum : ∀ idx, SummaryUnchanged env memo0 (descr.addrOf kc idx)) :
    ∀ (steps idx ec : Nat) (st : St) (aIndex : AIndex) (out : St × AIndex),
      st.memo = memo0 → AllEmpty aIndex →
      scanKeychain env fuel B descr true kc steps idx ec st aIndex = .ok out →
      out.1.cache = st.cache ∧ out.1.memo = memo0 ∧ AllEmpty out.2 := by
  intro steps
  induction steps with
  | zero =>
    intro idx ec st aIndex out hm ha h
    simp [scanKeychain] at h
  | succ s ih =>
    intro idx ec st aIndex out hm ha h
    rw [scanKeychain] at h
    obtain ⟨st', aIndex', b, hpa, hc, hm', hae⟩ :=
      processAddress_unchanged env fuel (descr.addrOf kc idx)
        { st with trace := st.trace ++ [Ev.visit (descr.addrOf kc idx).terminal] } aIndex
        (by simpa [hm] using hsum idx)
    rw [hpa] at h
    simp only [Bind.bind, Except.bind] at h
    have hm'' : st'.memo = memo0 := by rw [hm']; exact hm
    have hae' : AllEmpty aIndex' := hae ha
    rcases b with _ | _
    · rw [if_neg (fun hh : false = true => Bool.noConfusion hh)] at h
      obtain ⟨h1, h2, h3⟩ := ih (idx + 1) 0 st' aIndex' out hm'' hae' h
      exact ⟨by rw [h1]; exact hc, h2, h3⟩
    · rw [if_pos rfl] at h
      by_cases hstop : B ≤ ec + 1
      · rw [if_pos hstop] at h
        simp only [Pure.pure, Except.pure] at h
        cases h
        exact ⟨hc, hm'', hae'⟩
      · rw [if_neg hstop] at h
        obtain ⟨h1, h2, h3⟩ := ih (idx + 1) (ec + 1) st' aIndex' out hm'' hae' h
        exact ⟨by rw [h1]; exact hc, h2, h3⟩

/-- As `scanKeychain_unchanged`, over the whole keychain list. -/
theorem scanKeychains_unchanged (env : Env) (fuel steps B : Nat) (descr : Descr)
    (memo0 : Memo) :
    ∀ (kcs : List Nat),
      (∀ kc ∈ kcs, ∀ idx, SummaryUnchanged env memo0 (descr.addrOf kc idx)) →
      ∀ (st : St) (aIndex : AIndex) (out : St × AIndex),
      st.memo = memo0 → AllEmpty aIndex →
      scanKeychains env fuel steps B descr true kcs st aIndex = .ok out →
      out.1.cache = st.cache ∧ out.1.memo = memo0 ∧ AllEmpty out.2 := by
  intro kcs
  induction kcs with
  | nil =>
    intro hsum st aIndex out hm ha h
    simp only [scanKeychains] at h
    cases h
    exact ⟨rfl, hm, ha⟩
  | cons kc rest ih =>
    intro hsum st aIndex out hm ha h
    rw [scanKeychains] at h
    rcases h1 : scanKeychain env fuel B descr true kc steps 0 0 st aIndex with hard | o1
    · rw [h1] at h
      exact absurd h (by simp [Bind.bind, Except.bind])
    · rw [h1] at h
      simp only [Bind.bind, Except.bind] at h
      obtain ⟨ha1, hm1, hae1⟩ := scanKeychain_unchanged env fuel B descr kc memo0
        (hsum kc (List.mem_cons_self kc rest)) steps 0 0 st aIndex o1 hm ha h1
      obtain ⟨ha2, hm2, hae2⟩ := ih (fun k hk idx => hsum k (List.mem_cons_of_mem kc hk) idx)
        o1.1 o1.2 out hm1 hae1 h
      exact ⟨by rw [ha2]; exact ha1, hm2, hae2⟩

/-- `process_transactions` over an index with no relevant transactions
retains nothing and changes nothing. -/
theorem processTransactions_all_empty (decode : Script → Bool) (st : St) (aIndex : AIndex)
    (out : St × AIndex) (ha : AllEmpty aIndex)
    (h : processTransactions decode st aIndex = .ok out) :
    out.1.cache = st.cache ∧ out.1.memo = st.memo ∧ out.2 = [] := by
  rw [processTransactions] at h
  have hret : aIndex.filter (fun e => ¬ e.2.2 = []) = [] := by
    rw [List.filter_eq_nil]
    intro e he
    simp [ha e he]
  rw [hret] at h
  simp only [processEntries, Bind.bind, Except.bind, Pure.pure, Except.pure] at h
  cases h
  exact ⟨rfl, rfl, rfl⟩

/-- C9: a completed `update` run against a remote source reporting no
activity beyond what the memo already reflects (every summary fails, is
empty, or matches the memo-derived one) leaves the wallet cache exactly
equal to its prior state — no duplicate address or transaction entries, no
changed statistics, an unchanged unspent set — the memo unchanged, and
reports zero changed addresses. -/
theorem c9_update_idempotent (env : Env) (fuel steps B : Nat) (descr : Descr)
    (cache0 : WalletCache) (memo0 : Memo)
    (hsum : ∀ kc ∈ descr.keychains, ∀ idx, SummaryUnchanged env memo0 (descr.addrOf kc idx))
    (out : Nat × WalletCache × List Err × List Ev × Memo)
    (hrun : updateIx env fuel steps B descr cache0 memo0 = .ok out) :
    out.2.1 = cache0 ∧ out.2.2.2.2 = memo0 ∧ out.1 = 0 := by
  unfold updateIx at hrun
  dsimp only at hrun
  rcases h1 : scanKeychains env fuel steps B descr true descr.keychains
      ⟨cache0, memo0, [], []⟩ [] with hard | ⟨st1, aidx1⟩
  · rw [h1] at hrun
    exact absurd hrun (by simp [Bind.bind, Except.bind])
  · rw [h1] at hrun
    simp only [Bind.bind, Except.bind] at hrun
    rcases h2 : processTransactions descr.decode st1 aidx1 with hard | ⟨st2, ret2⟩
    · rw [h2] at hrun
      exact absurd hrun (by simp)
    · rw [h2] at hrun
      simp only [Pure.pure, Except.pure] at hrun
      cases hrun
      obtain ⟨hc1, hm1, hae1⟩ := scanKeychains_unchanged env fuel steps B descr memo0
        descr.keychains hsum ⟨cache0, memo0, [], []⟩ [] (st1, aidx1) rfl
        (fun e he => absurd he (List.not_mem_nil e)) h1
      obtain ⟨hc2, hm2, hret⟩ := processTransactions_all_empty descr.decode st1 aidx1
        (st2, ret2) hae1 h2
      refine ⟨?_, ?_, ?_⟩
      · exact hc2.trans hc1
      · exact hm2.trans hm1
      · rw [show ret2 = [] from hret]
        rfl

/-- Cache after a first sync of `t1` for the first address. -/
def cw9Cache : WalletCache := ⟨[⟨⟨0, 0⟩, 100, 1, 60, 60⟩], [(1, WalletTx.ofE t1)], [⟨1, 0⟩]⟩

/-- Memo after that first sync. -/
def cw9Memo : Memo := [(⟨⟨0, 0⟩, 100⟩, [t1])]

/-- Concrete instance of `c9_update_idempotent`: a second update over
`cx5Env` leaves cache and memo untouched. -/
theorem c9_update_idempotent_witness :
    (mOk (updateIx cx5Env 5 10 2 cxDescr cw9Cache cw9Memo)).map
      (fun r => (r.1, r.2.1, r.2.2.2.2)) = some (0, cw9Cache, cw9Memo) := by
  obtain ⟨out, hrun⟩ : ∃ out, updateIx cx5Env 5 10 2 cxDescr cw9Cache cw9Memo = .ok out :=
    ⟨_, rfl⟩
  have hsum : ∀ kc ∈ cxDescr.keychains, ∀ idx,
      SummaryUnchanged cx5Env cw9Memo (cxDescr.addrOf kc idx) := by
    intro kc hkc idx
    have hkc0 : kc = 0 := by simpa [cxDescr] using hkc
    subst hkc0
    rcases idx with _ | n
    · exact Or.inr (by decide)
    · have hne : cx5Env.summary (100 + (n + 1)) = .ok FullAddrStats.dflt := by
        have hx : ¬ (100 + (n + 1) = 100) := by omega
        simp [cx5Env, hx]
      unfold SummaryUnchanged
      dsimp [cxDescr]
      rw [hne]
      exact Or.inl rfl
  have h := c9_update_idempotent cx5Env 5 10 2 cxDescr cw9Cache cw9Memo hsum out hrun
  rw [hrun]
  simp [mOk, h.1, h.2.1, h.2.2]

/-! ## C10: unreachability of the `broken logic` panic -/

/-- A txid is soundly stored: the transaction store binds it to a record
carrying that very id. -/
def GoodTx (txm : List (Txid × WalletTx)) (t : Txid) : Prop :=
  ∃ v, mapGet txm t = some v ∧ v.txid = t

/-- Every txid listed in the address index is soundly stored. -/
def GoodIdx (aIndex : AIndex) (txm : List (Txid × WalletTx)) : Prop :=
  ∀ e ∈ aIndex, ∀ t ∈ e.2.2, GoodTx txm t

/-- Removing one key leaves lookups at other keys unchanged. -/
theorem mapGet_mapRemove_ne {κ τ : Type} [DecidableEq κ] (m : List (κ × τ)) (k k' : κ)
    (h : ¬ k' = k) : mapGet (mapRemove m k) k' = mapGet m k' := by
  induction m with
  | nil => simp [mapRemove, mapGet]
  | cons p rest ih =>
    by_cases hp : p.1 = k
    · rw [show mapRemove (p :: rest) k = mapRemove rest k by simp [mapRemove, List.filter, hp]]
      rw [ih]
      simp only [mapGet]
      rw [if_neg (by rw [hp]; exact fun hh => h hh.symm)]
    · rw [show mapRemove (p :: rest) k = p :: mapRemove rest k by simp [mapRemove, List.filter, hp]]
      simp only [mapGet]
      by_cases hq : p.1 = k'
      · rw [if_pos hq, if_pos hq]
      · rw [if_neg hq, if_neg hq]
        exact ih

/-- Inserting a self-keyed record preserves sound storage. -/
theorem goodTx_mapInsert (m : List (Txid × WalletTx)) (k : Txid) (v : WalletTx) (t : Txid)
    (hv : v.txid = k) (h : GoodTx m t ∨ t = k) : GoodTx (mapInsert m k v) t := by
  by_cases ht : t = k
  · subst ht
    exact ⟨v, mapGet_mapInsert_self m t v, hv⟩
  · rcases h with h | h
    · rcases h with ⟨w, hw, hwt⟩
      exact ⟨w, by rw [mapGet_mapInsert_ne m k t v ht]; exact hw, hwt⟩
    · exact absurd h ht

/-- Extending with self-keyed records preserves sound storage and soundly
stores every extended key. -/
theorem goodTx_mapExtend :
    ∀ (kvs : List (Txid × WalletTx)) (m : List (Txid × WalletTx)) (t : Txid),
      (∀ kv ∈ kvs, kv.2.txid = kv.1) →
      (GoodTx m t ∨ ∃ kv ∈ kvs, kv.1 = t) → GoodTx (mapExtend m kvs) t := by
  intro kvs
  induction kvs with
  | nil =>
    intro m t _ h
    rcases h with h | ⟨kv, hkv, _⟩
    · exact h
    · exact absurd hkv (List.not_mem_nil kv)
  | cons kv rest ih =>
    intro m t hkeys h
    rw [show mapExtend m (kv :: rest) = mapExtend (mapInsert m kv.1 kv.2) rest from rfl]
    apply ih _ t (fun kv' h' => hkeys kv' (List.mem_cons_of_mem kv h'))
    rcases h with h | ⟨kv', hkv', hk⟩
    · exact Or.inl (goodTx_mapInsert m kv.1 kv.2 t (hkeys kv (List.mem_cons_self kv rest)) (Or.inl h))
    · rcases List.mem_cons.1 hkv' with h' | h'
      · have hk2 : t = kv.1 := by rw [← h']; exact hk.symm
        exact Or.inl (goodTx_mapInsert m kv.1 kv.2 t
          (hkeys kv (List.mem_cons_self kv rest)) (Or.inr hk2))
      · exact Or.inr ⟨kv', h', hk⟩

/-- The remove-then-reinsert pattern of the entry loop preserves sound
storage when the reinserted record keeps the removed record's id. -/
theorem goodTx_reinsert (m : List (Txid × WalletTx)) (t0 : Txid) (tx tx' : WalletTx) (t : Txid)
    (hget : mapGet m t0 = some tx) (htx : tx.txid = t0) (htx' : tx'.txid = tx.txid)
    (h : GoodTx m t) : GoodTx (mapInsert (mapRemove m t0) tx'.txid tx') t := by
  by_cases ht : t = t0
  · subst ht
    refine ⟨tx', ?_, by rw [htx', htx]⟩
    rw [show tx'.txid = t from by rw [htx', htx]]
    exact mapGet_mapInsert_self _ t tx'
  · rcases h with ⟨w, hw, hwt⟩
    refine ⟨w, ?_, hwt⟩
    rw [show tx'.txid = t0 from by rw [htx', htx]]
    rw [mapGet_mapInsert_ne _ t0 t tx' ht, mapGet_mapRemove_ne m t0 t ht]
    exact hw

/-- The funding-update block preserves sound storage: it only replaces a
stored record by one with the same id. -/
theorem goodTx_creditFundingUpdate (status : TxStatus) (credit : TxCredit)
    (cache : WalletCache) (t : Txid) (h : GoodTx cache.tx t) :
    GoodTx (creditFundingUpdate status credit cache).tx t := by
  rw [creditFundingUpdate]
  rcases hprev : mapGet cache.tx credit.outpoint.txid with _ | prevTx
  · exact h
  · dsimp only
    rcases hout : prevTx.outputs.get? credit.outpoint.vout with _ | txout
    · exact h
    · dsimp only
      by_cases ht : t = credit.outpoint.txid
      · subst ht
        rcases h with ⟨w, hw, hwt⟩
        have hwp : w = prevTx := by
          rw [hw] at hprev
          exact Option.some.inj hprev
        refine ⟨_, mapGet_mapInsert_self _ credit.outpoint.txid _, ?_⟩
        show prevTx.txid = credit.outpoint.txid
        rw [← hwp]
        exact hwt
      · rcases h with ⟨w, hw, hwt⟩
        exact ⟨w, by rw [mapGet_mapInsert_ne _ _ _ _ ht]; exact hw, hwt⟩

/-- Output processing never touches the transaction store. -/
theorem processDebit_tx (decode : Script → Bool) (script : Script)
    (selfMap : List (Script × WalletAddr)) (d : TxDebit) (wa : WalletAddr)
    (cache : WalletCache) :
    (processDebit decode script selfMap d wa cache).2.2.tx = cache.tx := by
  rw [processDebit]
  rcases d.beneficiary.scriptPubkey with _ | s
  · rfl
  · dsimp only
    by_cases h1 : s = script
    · rw [if_pos h1]
    · rw [if_neg h1]
      by_cases h2 : d.beneficiary.isUnknown = true
      · rw [if_pos h2]
        rcases mapGet selfMap s with _ | realAddr
        · dsimp only
          by_cases h3 : decode s = true
          · rw [if_pos h3]
          · rw [if_neg h3]
        · rfl
      · rw [if_neg h2]

/-- The output loop never touches the transaction store. -/
theorem processOutputsGo_tx (decode : Script → Bool) (script : Script)
    (selfMap : List (Script × WalletAddr)) :
    ∀ (outs : List TxDebit) (wa : WalletAddr) (cache : WalletCache),
      (processOutputsGo decode script selfMap outs wa cache).2.2.tx = cache.tx := by
  intro outs
  induction outs with
  | nil => intro wa cache; rfl
  | cons d rest ih =>
    intro wa cache
    have hd := processDebit_tx decode script selfMap d wa cache
    rcases hpd : processDebit decode script selfMap d wa cache with ⟨d', wa', cache'⟩
    rw [hpd] at hd
    have h2 := ih wa' cache'
    rcases hgo : processOutputsGo decode script selfMap rest wa' cache' with ⟨ds, wa'', cache''⟩
    rw [hgo] at h2
    rw [processOutputsGo, hpd]
    dsimp only
    rw [hgo]
    dsimp only at hd h2 ⊢
    rw [h2, hd]

/-- `process_outputs` leaves the store untouched and preserves the
processed transaction's id. -/
theorem processOutputs_tx (decode : Script → Bool) (script : Script)
    (selfMap : List (Script × WalletAddr)) (wa : WalletAddr) (tx : WalletTx)
    (cache : WalletCache) :
    (processOutputs decode script selfMap wa tx cache).2.2.tx = cache.tx
    ∧ (processOutputs decode script selfMap wa tx cache).2.1.txid = tx.txid := by
  rw [processOutputs]
  have h := processOutputsGo_tx decode script selfMap tx.outputs wa cache
  rcases hgo : processOutputsGo decode script selfMap tx.outputs wa cache with ⟨outs, wa', cache'⟩
  rw [hgo] at h
  exact ⟨h, rfl⟩

/-- Input processing preserves sound storage. -/
theorem goodTx_processCredit (decode : Script → Bool) (script : Script)
    (selfMap : List (Script × WalletAddr)) (status : TxStatus) (credit : TxCredit)
    (wa : WalletAddr) (cache : WalletCache) (t : Txid) (h : GoodTx cache.tx t) :
    GoodTx (processCredit decode script selfMap status credit wa cache).2.2.tx t := by
  rw [processCredit]
  rcases credit.payer.scriptPubkey with _ | s
  · exact h
  · dsimp only
    by_cases h1 : s = script
    · rw [if_pos h1]
      dsimp only
      rw [if_neg (fun hh : false = true => Bool.noConfusion hh)]
      exact goodTx_creditFundingUpdate status _ cache t h
    · rw [if_neg h1]
      by_cases h2 : credit.payer.isUnknown = true
      · rw [if_pos h2]
        rcases mapGet selfMap s with _ | realAddr
        · dsimp only
          by_cases h3 : decode s = true
          · rw [if_pos h3]
            dsimp only
            rw [if_neg (fun hh : false = true => Bool.noConfusion hh)]
            exact goodTx_creditFundingUpdate status _ cache t h
          · rw [if_neg h3]
            dsimp only
            rw [if_neg (fun hh : false = true => Bool.noConfusion hh)]
            exact goodTx_creditFundingUpdate status _ cache t h
        · dsimp only
          rw [if_pos rfl]
          exact h
      · rw [if_neg h2]
        dsimp only
        rw [if_neg (fun hh : false = true => Bool.noConfusion hh)]
        exact goodTx_creditFundingUpdate status _ cache t h

/-- The input loop preserves sound storage. -/
theorem goodTx_processInputsGo (decode : Script → Bool) (script : Script)
    (selfMap : List (Script × WalletAddr)) (status : TxStatus) :
    ∀ (ins : List TxCredit) (wa : WalletAddr) (cache : WalletCache) (t : Txid),
      GoodTx cache.tx t →
      GoodTx (processInputsGo decode script selfMap status ins wa cache).2.2.tx t := by
  intro ins
  induction ins with
  | nil => intro wa cache t h; exact h
  | cons c rest ih =>
    intro wa cache t h
    have hc := goodTx_processCredit decode script selfMap status c wa cache t h
    rcases hpc : processCredit decode script selfMap status c wa cache with ⟨c', wa', cache'⟩
    rw [hpc] at hc
    dsimp only at hc
    have h2 := ih wa' cache' t hc
    rcases hgo : processInputsGo decode script selfMap status rest wa' cache' with ⟨cs, wa'', cache''⟩
    rw [hgo] at h2
    rw [processInputsGo, hpc]
    dsimp only
    rw [hgo]
    dsimp only at h2 ⊢
    exact h2

/-- `process_inputs` preserves sound storage. -/
theorem goodTx_processInputs (decode : Script → Bool) (script : Script)
    (selfMap : List (Script × WalletAddr)) (wa : WalletAddr) (tx : WalletTx)
    (cache : WalletCache) (t : Txid) (h : GoodTx cache.tx t) :
    GoodTx (processInputs decode script selfMap wa tx cache).2.2.tx t := by
  rw [processInputs]
  have hg := goodTx_processInputsGo decode script selfMap tx.status tx.inputs wa cache t h
  rcases hgo : processInputsGo decode script selfMap tx.status tx.inputs wa cache with ⟨ins, wa', cache'⟩
  rw [hgo] at hg
  exact hg

/-- `process_inputs` preserves the processed transaction's id. -/
theorem processInputs_txid (decode : Script → Bool) (script : Script)
    (selfMap : List (Script × WalletAddr)) (wa : WalletAddr) (tx : WalletTx)
    (cache : WalletCache) :
    (processInputs decode script selfMap wa tx cache).2.1.txid = tx.txid := by
  rw [processInputs]

/-- The output pass of an entry always succeeds when its txids are soundly
stored, and preserves sound storage of every tracked txid. -/
theorem outputPass_ok (decode : Script → Bool) (script : Script)
    (selfMap : List (Script × WalletAddr)) (P : Txid → Prop) :
    ∀ (txids : List Txid) (wa : WalletAddr) (cache : WalletCache) (tr : List Ev),
      (∀ t, P t → GoodTx cache.tx t) → (∀ t ∈ txids, P t) →
      ∃ out, outputPass decode script selfMap txids wa cache tr = .ok out
        ∧ (∀ t, P t → GoodTx out.2.1.tx t) := by
  intro txids
  induction txids with
  | nil => intro wa cache tr hP htx; exact ⟨(wa, cache, tr), rfl, hP⟩
  | cons t0 rest ih =>
    intro wa cache tr hP htx
    obtain ⟨v, hv, hvt⟩ := hP t0 (htx t0 (List.mem_cons_self t0 rest))
    have htxtx := processOutputs_tx decode script selfMap wa v
      { cache with tx := mapRemove cache.tx t0 }
    rcases hpo : processOutputs decode script selfMap wa v
        { cache with tx := mapRemove cache.tx t0 } with ⟨wa1, tx1, cache1⟩
    rw [hpo] at htxtx
    dsimp only at htxtx
    obtain ⟨hc1, ht1⟩ := htxtx
    have hpres : ∀ t, P t → GoodTx (mapInsert cache1.tx tx1.txid tx1) t := by
      intro t hPt
      by_cases ht : t = t0
      · subst ht
        refine ⟨tx1, ?_, by rw [ht1, hvt]⟩
        rw [show tx1.txid = t from by rw [ht1, hvt]]
        exact mapGet_mapInsert_self _ t tx1
      · have ha : GoodTx (mapRemove cache.tx t0) t := by
          rcases hP t hPt with ⟨w, hw, hwt⟩
          exact ⟨w, by rw [mapGet_mapRemove_ne _ _ _ ht]; exact hw, hwt⟩
        have hb : GoodTx cache1.tx t := by rw [hc1]; exact ha
        exact goodTx_mapInsert _ _ _ t rfl (Or.inl hb)
    obtain ⟨out, hrun, hpres'⟩ := ih wa1 { cache1 with tx := mapInsert cache1.tx tx1.txid tx1 }
      (tr ++ [Ev.outputsOf script t0]) hpres (fun t htt => htx t (List.mem_cons_of_mem t0 htt))
    refine ⟨out, ?_, hpres'⟩
    rw [outputPass, hv]
    dsimp only
    rw [hpo]
    dsimp only
    exact hrun

/-- The input pass of an entry always succeeds when its txids are soundly
stored, and preserves sound storage of every tracked txid. -/
theorem inputPass_ok (decode : Script → Bool) (script : Script)
    (selfMap : List (Script × WalletAddr)) (P : Txid → Prop) :
    ∀ (txids : List Txid) (wa : WalletAddr) (cache : WalletCache) (tr : List Ev),
      (∀ t, P t → GoodTx cache.tx t) → (∀ t ∈ txids, P t) →
      ∃ out, inputPass decode script selfMap txids wa cache tr = .ok out
        ∧ (∀ t, P t → GoodTx out.2.1.tx t) := by
  intro txids
  induction txids with
  | nil => intro wa cache tr hP htx; exact ⟨(wa, cache, tr), rfl, hP⟩
  | cons t0 rest ih =>
    intro wa cache tr hP htx
    obtain ⟨v, hv, hvt⟩ := hP t0 (htx t0 (List.mem_cons_self t0 rest))
    have ht1 := processInputs_txid decode script selfMap wa v
      { cache with tx := mapRemove cache.tx t0 }
    have hgi := fun t h => goodTx_processInputs decode script selfMap wa v
      { cache with tx := mapRemove cache.tx t0 } t h
    rcases hpi : processInputs decode script selfMap wa v
        { cache with tx := mapRemove cache.tx t0 } with ⟨wa1, tx1, cache1⟩
    rw [hpi] at ht1
    simp only [hpi] at hgi
    dsimp only at ht1 hgi
    have hpres : ∀ t, P t → GoodTx (mapInsert cache1.tx tx1.txid tx1) t := by
      intro t hPt
      by_cases ht : t = t0
      · subst ht
        refine ⟨tx1, ?_, by rw [ht1, hvt]⟩
        rw [show tx1.txid = t from by rw [ht1, hvt]]
        exact mapGet_mapInsert_self _ t tx1
      · have ha : GoodTx (mapRemove cache.tx t0) t := by
          rcases hP t hPt with ⟨w, hw, hwt⟩
          exact ⟨w, by rw [mapGet_mapRemove_ne _ _ _ ht]; exact hw, hwt⟩
        have hb : GoodTx cache1.tx t := hgi t ha
        exact goodTx_mapInsert _ _ _ t rfl (Or.inl hb)
    obtain ⟨out, hrun, hpres'⟩ := ih wa1 { cache1 with tx := mapInsert cache1.tx tx1.txid tx1 }
      (tr ++ [Ev.inputsOf script t0]) hpres (fun t htt => htx t (List.mem_cons_of_mem t0 htt))
    refine ⟨out, ?_, hpres'⟩
    rw [inputPass, hv]
    dsimp only
    rw [hpi]
    dsimp only
    exact hrun

/-- One entry's processing always succeeds under sound storage of the
tracked txids, preserving it. -/
theorem processEntry_ok (decode : Script → Bool) (selfMap : List (Script × WalletAddr))
    (P : Txid → Prop) (e : Script × WalletAddr × List Txid) (cache : WalletCache)
    (tr : List Ev) (hP : ∀ t, P t → GoodTx cache.tx t) (htx : ∀ t ∈ e.2.2, P t) :
    ∃ out, processEntry decode selfMap e cache tr = .ok out
      ∧ (∀ t, P t → GoodTx out.1.tx t) := by
  obtain ⟨o1, hrun1, hpres1⟩ := outputPass_ok decode e.1 selfMap P e.2.2 e.2.1 cache tr hP htx
  obtain ⟨o2, hrun2, hpres2⟩ := inputPass_ok decode e.1 selfMap P e.2.2 o1.1 o1.2.1 o1.2.2 hpres1 htx
  refine ⟨({ o2.2.1 with addr := addrInsert o2.2.1.addr o2.1 }, o2.2.2), ?_, hpres2⟩
  rw [processEntry]
  rw [hrun1]
  simp only [Bind.bind, Except.bind]
  rcases o1 with ⟨wa1, cache1, tr1⟩
  rw [hrun2]
  rcases o2 with ⟨wa2, cache2, tr2⟩
  rfl

/-- The entry loop always succeeds under sound storage of all listed
txids. -/
theorem processEntries_ok (decode : Script → Bool) (selfMap : List (Script × WalletAddr))
    (P : Txid → Prop) :
    ∀ (entries : List (Script × WalletAddr × List Txid)) (cache : WalletCache) (tr : List Ev),
      (∀ t, P t → GoodTx cache.tx t) → (∀ e ∈ entries, ∀ t ∈ e.2.2, P t) →
      ∃ out, processEntries decode selfMap entries cache tr = .ok out := by
  intro entries
  induction entries with
  | nil => intro cache tr _ _; exact ⟨(cache, tr), rfl⟩
  | cons e rest ih =>
    intro cache tr hP htx
    obtain ⟨o1, hrun1, hpres1⟩ := processEntry_ok decode selfMap P e cache tr hP
      (htx e (List.mem_cons_self e rest))
    obtain ⟨out, hrun⟩ := ih o1.1 o1.2 hpres1
      (fun e' he' t ht => htx e' (List.mem_cons_of_mem e he') t ht)
    refine ⟨out, ?_⟩
    rw [processEntries, hrun1]
    simp only [Bind.bind, Except.bind]
    rcases o1 with ⟨cache1, tr1⟩
    exact hrun

/-- `process_transactions` always succeeds when the address index's txids
are soundly stored. -/
theorem processTransactions_ok (decode : Script → Bool) (st : St) (aIndex : AIndex)
    (hgood : GoodIdx aIndex st.cache.tx) :
    ∃ out, processTransactions decode st aIndex = .ok out := by
  obtain ⟨o1, hrun⟩ := processEntries_ok decode (selfScriptMap aIndex)
    (fun t => ∃ e ∈ aIndex, t ∈ e.2.2)
    (aIndex.filter (fun e => ¬ e.2.2 = [])) st.cache st.trace
    (fun t ht => by rcases ht with ⟨e, he, hte⟩; exact hgood e he t hte)
    (fun e he t ht => ⟨e, (List.mem_filter.1 he).1, ht⟩)
  refine ⟨(({ st with cache := o1.1, trace := o1.2 } : St),
    aIndex.filter (fun e => ¬ e.2.2 = [])), ?_⟩
  rw [processTransactions, hrun]
  simp only [Bind.bind, Except.bind]
  rcases o1 with ⟨cache1, tr1⟩
  rfl

/-- The fetch never touches the wallet cache (only memo, errors, trace). -/
theorem getScripthashTxsAll_cache (env : Env) (fuel : Nat) (derive : DerivedAddr)
    (force : Bool) (st : St) (out : Except Err (List ETx) × St)
    (h : getScripthashTxsAll env fuel derive force st = .ok out) :
    out.2.cache = st.cache := by
  rw [getScripthashTxsAll] at h
  by_cases hf : force = true
  · subst hf
    simp only [Bool.not_true] at h
    rcases hloop : fetchLoop env derive.script fuel none [] st.trace with hard | ⟨rr, tr⟩
    · rw [hloop] at h
      simp [Bind.bind, Except.bind, Pure.pure, Except.pure] at h
    · rw [hloop] at h
      rcases rr with e | res
      · simp [Bind.bind, Except.bind, Pure.pure, Except.pure] at h
        rw [← h]
      · simp [Bind.bind, Except.bind, Pure.pure, Except.pure] at h
        rw [← h]
  · have hf' : force = false := by
      rcases force with _ | _
      · rfl
      · exact absurd rfl hf
    subst hf'
    simp only [Bool.not_false] at h
    rcases hm : mapGet st.memo derive with _ | cached
    · rw [hm] at h
      rcases hloop : fetchLoop env derive.script fuel none [] st.trace with hard | ⟨rr, tr⟩
      · rw [hloop] at h
        simp [Bind.bind, Except.bind, Pure.pure, Except.pure] at h
      · rw [hloop] at h
        rcases rr with e | res
        · simp [Bind.bind, Except.bind, Pure.pure, Except.pure] at h
          rw [← h]
        · simp [Bind.bind, Except.bind, Pure.pure, Except.pure] at h
          rw [← h]
    · rw [hm] at h
      simp only [Pure.pure, Except.pure, if_pos] at h
      cases h
      rfl

/-- The fetch loop can only fail by fuel exhaustion, never by a panic. -/
theorem fetchLoop_no_panic (env : Env) (s : Script) :
    ∀ (fuel : Nat) (cursor : Option Txid) (res : List ETx) (tr : List Ev) (hard : Hard),
      fetchLoop env s fuel cursor res tr = .error hard → hard = .fuelOut := by
  intro fuel
  induction fuel with
  | zero =>
    intro cursor res tr hard h
    rw [fetchLoop] at h
    cases h
    rfl
  | succ f ih =>
    intro cursor res tr hard h
    rw [fetchLoop] at h
    rcases hpage : env.page s cursor with e | r
    · rw [hpage] at h
      cases h
    · rw [hpage] at h
      dsimp only at h
      rcases hlast : r.getLast? with _ | lastTx
      · rw [hlast] at h
        cases h
      · rw [hlast] at h
        dsimp only at h
        by_cases hc : PAGE_SIZE - 1 ≤ r.length - 1
        · rw [if_pos hc] at h
          exact ih _ _ _ _ h
        · rw [if_neg hc] at h
          cases h

/-- The memoized fetch can only fail by fuel exhaustion. -/
theorem getScripthashTxsAll_no_panic (env : Env) (fuel : Nat) (derive : DerivedAddr)
    (force : Bool) (st : St) (hard : Hard)
    (h : getScripthashTxsAll env fuel derive force st = .error hard) : hard = .fuelOut := by
  rw [getScripthashTxsAll] at h
  by_cases hf : force = true
  · subst hf
    simp only [Bool.not_true] at h
    rcases hloop : fetchLoop env derive.script fuel none [] st.trace with hard' | ⟨rr, tr⟩
    · rw [hloop] at h
      simp only [Bind.bind, Except.bind] at h
      cases h
      exact fetchLoop_no_panic env derive.script fuel none [] st.trace _ hloop
    · rw [hloop] at h
      rcases rr with e | res
      · simp [Bind.bind, Except.bind, Pure.pure, Except.pure] at h
      · simp [Bind.bind, Except.bind, Pure.pure, Except.pure] at h
  · have hf' : force = false := by
      rcases force with _ | _
      · rfl
      · exact absurd rfl hf
    subst hf'
    simp only [Bool.not_false] at h
    rcases hm : mapGet st.memo derive with _ | cached
    · rw [hm] at h
      rcases hloop : fetchLoop env derive.script fuel none [] st.trace with hard' | ⟨rr, tr⟩
      · rw [hloop] at h
        simp only [Bind.bind, Except.bind] at h
        cases h
        exact fetchLoop_no_panic env derive.script fuel none [] st.trace _ hloop
      · rw [hloop] at h
        rcases rr with e | res
        · simp [Bind.bind, Except.bind, Pure.pure, Except.pure] at h
        · simp [Bind.bind, Except.bind, Pure.pure, Except.pure] at h
    · rw [hm] at h
      simp only [Pure.pure, Except.pure] at h
      cases h

/-- The fetch tail of `process_address` preserves sound storage and keeps
the address index soundly stored: fetched transactions enter the store
keyed by their own ids. -/
theorem processAddressFetch_good (env : Env) (fuel : Nat) (um : Bool) (derive : DerivedAddr)
    (st : St) (aIndex : AIndex) (out : St × AIndex × Bool)
    (h : processAddressFetch env fuel um derive st aIndex = .ok out) :
    (∀ t, GoodTx st.cache.tx t → GoodTx out.1.cache.tx t)
    ∧ (GoodIdx aIndex st.cache.tx → GoodIdx out.2.1 out.1.cache.tx) := by
  rw [processAddressFetch] at h
  rcases hg : getScripthashTxsAll env fuel derive um st with hard | ⟨rr, st1⟩
  · rw [hg] at h
    simp [Bind.bind, Except.bind] at h
  · rw [hg] at h
    have hc1 : st1.cache = st.cache := getScripthashTxsAll_cache env fuel derive um st (rr, st1) hg
    simp only [Bind.bind, Except.bind] at h
    rcases rr with e | res
    · simp only [Pure.pure, Except.pure] at h
      cases h
      refine ⟨fun t ht => by rw [hc1]; exact ht, fun hgood e' he' t ht => ?_⟩
      rcases mem_aIndexInsert derive.script (WalletAddr.ofDerive derive, []) aIndex e' he' with h' | h'
      · rw [hc1]
        exact hgood e' h' t ht
      · rw [h'] at ht
        exact absurd ht (List.not_mem_nil t)
    · rcases res with _ | ⟨t0, ts⟩
      · simp only [Pure.pure, Except.pure] at h
        cases h
        refine ⟨fun t ht => by rw [hc1]; exact ht, fun hgood e' he' t ht => ?_⟩
        rcases mem_aIndexInsert derive.script (WalletAddr.ofDerive derive, []) aIndex e' he' with h' | h'
        · rw [hc1]
          exact hgood e' h' t ht
        · rw [h'] at ht
          exact absurd ht (List.not_mem_nil t)
      · simp only [Pure.pure, Except.pure] at h
        cases h
        have hkeys : ∀ kv ∈ (t0 :: ts).map (fun t => ((WalletTx.ofE t).txid, WalletTx.ofE t)),
            kv.2.txid = kv.1 := by
          intro kv hkv
          rcases List.mem_map.1 hkv with ⟨tt, _, hkvt⟩
          rw [← hkvt]
        have hmono : ∀ t, GoodTx st.cache.tx t →
            GoodTx (mapExtend st1.cache.tx
              ((t0 :: ts).map (fun t => ((WalletTx.ofE t).txid, WalletTx.ofE t)))) t := by
          intro t ht
          apply goodTx_mapExtend _ _ _ hkeys
          rw [hc1]
          exact Or.inl ht
        refine ⟨hmono, fun hgood e' he' t ht => ?_⟩
        rcases mem_aIndexInsert derive.script
            (WalletAddr.ofDerive derive, (t0 :: ts).map (fun t => t.txid)) aIndex e' he' with h' | h'
        · exact hmono t (hgood e' h' t ht)
        · rw [h'] at ht
          apply goodTx_mapExtend _ _ _ hkeys
          right
          rcases List.mem_map.1 ht with ⟨tt, htt, httx⟩
          exact ⟨((WalletTx.ofE tt).txid, WalletTx.ofE tt),
            List.mem_map.2 ⟨tt, htt, rfl⟩, by rw [← httx]; rfl⟩

/-- `process_address` preserves sound storage and keeps the address index
soundly stored. -/
theorem processAddress_good (env : Env) (fuel : Nat) (um : Bool) (derive : DerivedAddr)
    (st : St) (aIndex : AIndex) (out : St × AIndex × Bool)
    (h : processAddress env fuel um derive st aIndex = .ok out) :
    (∀ t, GoodTx st.cache.tx t → GoodTx out.1.cache.tx t)
    ∧ (GoodIdx aIndex st.cache.tx → GoodIdx out.2.1 out.1.cache.tx) := by
  rw [processAddress] at h
  rcases um with _ | _
  · rw [if_neg (fun hh : false = true => Bool.noConfusion hh)] at h
    exact processAddressFetch_good env fuel false derive st aIndex out h
  · rw [if_pos rfl] at h
    rcases hsum : env.summary derive.script with e | s_
    · rw [hsum] at h
      dsimp only at h
      by_cases hcond : (FullAddrStats.dflt.address = none
          ∨ getAddrTxStatsByCache st.memo derive = FullAddrStats.dflt)
      · rw [if_pos hcond] at h
        rcases haddr : addrGet st.cache.addr derive.terminal with _ | cwa
        · rw [haddr] at h
          simp only [Pure.pure, Except.pure] at h
          cases h
          exact ⟨fun t ht => ht, fun hgood => hgood⟩
        · rw [haddr] at h
          simp only [Pure.pure, Except.pure] at h
          cases h
          refine ⟨fun t ht => ht, fun hgood e' he' t ht => ?_⟩
          rcases mem_aIndexInsert derive.script (cwa, []) aIndex e' he' with h' | h'
          · exact hgood e' h' t ht
          · rw [h'] at ht
            exact absurd ht (List.not_mem_nil t)
      · rw [if_neg hcond] at h
        exact processAddressFetch_good env fuel true derive
          { st with errors := st.errors ++ [e] } aIndex out h
    · rw [hsum] at h
      dsimp only at h
      by_cases hcond : (s_.address = none ∨ getAddrTxStatsByCache st.memo derive = s_)
      · rw [if_pos hcond] at h
        rcases haddr : addrGet st.cache.addr derive.terminal with _ | cwa
        · rw [haddr] at h
          simp only [Pure.pure, Except.pure] at h
          cases h
          exact ⟨fun t ht => ht, fun hgood => hgood⟩
        · rw [haddr] at h
          simp only [Pure.pure, Except.pure] at h
          cases h
          refine ⟨fun t ht => ht, fun hgood e' he' t ht => ?_⟩
          rcases mem_aIndexInsert derive.script (cwa, []) aIndex e' he' with h' | h'
          · exact hgood e' h' t ht
          · rw [h'] at ht
            exact absurd ht (List.not_mem_nil t)
      · rw [if_neg hcond] at h
        exact processAddressFetch_good env fuel true derive st aIndex out h

/-- The fetch tail can only fail by fuel exhaustion. -/
theorem processAddressFetch_no_panic (env : Env) (fuel : Nat) (um : Bool)
    (derive : DerivedAddr) (st : St) (aIndex : AIndex) (hard : Hard)
    (h : processAddressFetch env fuel um derive st aIndex = .error hard) :
    hard = .fuelOut := by
  rw [processAddressFetch] at h
  rcases hg : getScripthashTxsAll env fuel derive um st with hard' | ⟨rr, st1⟩
  · rw [hg] at h
    simp only [Bind.bind, Except.bind] at h
    cases h
    exact getScripthashTxsAll_no_panic env fuel derive um st _ hg
  · rw [hg] at h
    simp only [Bind.bind, Except.bind] at h
    rcases rr with e | res
    · simp only [Pure.pure, Except.pure] at h
      cases h
    · rcases res with _ | ⟨t0, ts⟩
      · simp only [Pure.pure, Except.pure] at h
        cases h
      · simp only [Pure.pure, Except.pure] at h
        cases h

/-- `process_address` can only fail by fuel exhaustion. -/
theorem processAddress_no_panic (env : Env) (fuel : Nat) (um : Bool)
    (derive : DerivedAddr) (st : St) (aIndex : AIndex) (hard : Hard)
    (h : processAddress env fuel um derive st aIndex = .error hard) :
    hard = .fuelOut := by
  rw [processAddress] at h
  rcases um with _ | _
  · rw [if_neg (fun hh : false = true => Bool.noConfusion hh)] at h
    exact processAddressFetch_no_panic env fuel false derive st aIndex hard h
  · rw [if_pos rfl] at h
    rcases hsum : env.summary derive.script with e | s_
    · rw [hsum] at h
      dsimp only at h
      by_cases hcond : (FullAddrStats.dflt.address = none
          ∨ getAddrTxStatsByCache st.memo derive = FullAddrStats.dflt)
      · rw [if_pos hcond] at h
        rcases haddr : addrGet st.cache.addr derive.terminal with _ | cwa
        · rw [haddr] at h
          cases h
        · rw [haddr] at h
          cases h
      · rw [if_neg hcond] at h
        exact processAddressFetch_no_panic env fuel true derive _ aIndex hard h
    · rw [hsum] at h
      dsimp only at h
      by_cases hcond : (s_.address = none ∨ getAddrTxStatsByCache st.memo derive = s_)
      · rw [if_pos hcond] at h
        rcases haddr : addrGet st.cache.addr derive.terminal with _ | cwa
        · rw [haddr] at h
          cases h
        · rw [haddr] at h
          cases h
      · rw [if_neg hcond] at h
        exact processAddressFetch_no_panic env fuel true derive st aIndex hard h

/-- The per-keychain scan (in either mode) keeps the address index soundly
stored. -/
theorem scanKeychain_good (env : Env) (fuel B : Nat) (descr : Descr) (kc : Nat) :
    ∀ (steps idx ec : Nat) (st : St) (aIndex : AIndex) (out : St × AIndex),
      scanKeychain env fuel B descr false kc steps idx ec st aIndex = .ok out ∨
        scanKeychain env fuel B descr true kc steps idx ec st aIndex = .ok out →
      (∀ t, GoodTx st.cache.tx t → GoodTx out.1.cache.tx t)
      ∧ (GoodIdx aIndex st.cache.tx → GoodIdx out.2 out.1.cache.tx) := by
  intro steps
  induction steps with
  | zero =>
    intro idx ec st aIndex out h
    rcases h with h | h <;> simp [scanKeychain] at h
  | succ s ih =>
    intro idx ec st aIndex out h
    have step : ∀ (um : Bool),
        scanKeychain env fuel B descr um kc (s + 1) idx ec st aIndex = .ok out →
        (∀ t, GoodTx st.cache.tx t → GoodTx out.1.cache.tx t)
        ∧ (GoodIdx aIndex st.cache.tx → GoodIdx out.2 out.1.cache.tx) := by
      intro um h
      rw [scanKeychain] at h
      rcases hpa : processAddress env fuel um
          (descr.addrOf kc idx)
          { st with trace := st.trace ++ [Ev.visit (descr.addrOf kc idx).terminal] }
          aIndex with hard | ⟨st1, aIndex1, b⟩
      · rw [hpa] at h
        simp [Bind.bind, Except.bind] at h
      · rw [hpa] at h
        simp only [Bind.bind, Except.bind] at h
        have hpg := processAddress_good env fuel um (descr.addrOf kc idx)
          { st with trace := st.trace ++ [Ev.visit (descr.addrOf kc idx).terminal] }
          aIndex (st1, aIndex1, b) hpa
        rcases b with _ | _
        · rw [if_neg (fun hh : false = true => Bool.noConfusion hh)] at h
          have hrec := ih (idx + 1) 0 st1 aIndex1 out
            (by rcases um with _ | _
                · exact Or.inl h
                · exact Or.inr h)
          exact ⟨fun t ht => hrec.1 t (hpg.1 t ht), fun hgood => hrec.2 (hpg.2 hgood)⟩
        · rw [if_pos rfl] at h
          by_cases hstop : B ≤ ec + 1
          · rw [if_pos hstop] at h
            simp only [Pure.pure, Except.pure] at h
            cases h
            exact hpg
          · rw [if_neg hstop] at h
            have hrec := ih (idx + 1) (ec + 1) st1 aIndex1 out
              (by rcases um with _ | _
                  · exact Or.inl h
                  · exact Or.inr h)
            exact ⟨fun t ht => hrec.1 t (hpg.1 t ht), fun hgood => hrec.2 (hpg.2 hgood)⟩
    rcases h with h | h
    · exact step false h
    · exact step true h

/-- The per-keychain scan can only fail by fuel exhaustion. -/
theorem scanKeychain_no_panic (env : Env) (fuel B : Nat) (descr : Descr) (um : Bool)
    (kc : Nat) :
    ∀ (steps idx ec : Nat) (st : St) (aIndex : AIndex) (hard : Hard),
      scanKeychain env fuel B descr um kc steps idx ec st aIndex = .error hard →
      hard = .fuelOut := by
  intro steps
  induction steps with
  | zero =>
    intro idx ec st aIndex hard h
    rw [scanKeychain] at h
    cases h
    rfl
  | succ s ih =>
    intro idx ec st aIndex hard h
    rw [scanKeychain] at h
    rcases hpa : processAddress env fuel um (descr.addrOf kc idx)
        { st with trace := st.trace ++ [Ev.visit (descr.addrOf kc idx).terminal] }
        aIndex with hard' | ⟨st1, aIndex1, b⟩
    · rw [hpa] at h
      simp only [Bind.bind, Except.bind] at h
      cases h
      exact processAddress_no_panic env fuel um (descr.addrOf kc idx) _ aIndex _ hpa
    · rw [hpa] at h
      simp only [Bind.bind, Except.bind] at h
      rcases b with _ | _
      · rw [if_neg (fun hh : false = true => Bool.noConfusion hh)] at h
        exact ih (idx + 1) 0 st1 aIndex1 hard h
      · rw [if_pos rfl] at h
        by_cases hstop : B ≤ ec + 1
        · rw [if_pos hstop] at h
          cases h
        · rw [if_neg hstop] at h
          exact ih (idx + 1) (ec + 1) st1 aIndex1 hard h

/-- The whole scan keeps the address index soundly stored. -/
theorem scanKeychains_good (env : Env) (fuel steps B : Nat) (descr : Descr) (um : Bool) :
    ∀ (kcs : List Nat) (st : St) (aIndex : AIndex) (out : St × AIndex),
      scanKeychains env fuel steps B descr um kcs st aIndex = .ok out →
      (∀ t, GoodTx st.cache.tx t → GoodTx out.1.cache.tx t)
      ∧ (GoodIdx aIndex st.cache.tx → GoodIdx out.2 out.1.cache.tx) := by
  intro kcs
  induction kcs with
  | nil =>
    intro st aIndex out h
    simp only [scanKeychains] at h
    cases h
    exact ⟨fun t ht => ht, fun hgood => hgood⟩
  | cons kc eest ih =>
    intro st aIndex out h
    rw [scanKeychains] at h
    rcases h1 : scanKeychain env fuel B descr um kc steps 0 0 st aIndex with hard | o1
    · rw [h1] at h
      simp [Bind.bind, Except.bind] at h
    · rw [h1] at h
      simp only [Bind.bind, Except.bind] at h
      have hg1 := scanKeychain_good env fuel B descr kc steps 0 0 st aIndex o1
        (by rcases um with _ | _
            · exact Or.inl h1
            · exact Or.inr h1)
      have hg2 := ih o1.1 o1.2 out h
      exact ⟨fun t ht => hg2.1 t (hg1.1 t ht), fun hgood => hg2.2 (hg1.2 hgood)⟩

/-- The whole scan can only fail by fuel exhaustion. -/
theorem scanKeychains_no_panic (env : Env) (fuel steps B : Nat) (descr : Descr) (um : Bool) :
    ∀ (kcs : List Nat) (st : St) (aIndex : AIndex) (hard : Hard),
      scanKeychains env fuel steps B descr um kcs st aIndex = .error hard →
      hard = .fuelOut := by
  intro kcs
  induction kcs with
  | nil =>
    intro st aIndex hard h
    simp only [scanKeychains] at h
    cases h
  | cons kc rest ih =>
    intro st aIndex hard h
    rw [scanKeychains] at h
    rcases h1 : scanKeychain env fuel B descr um kc steps 0 0 st aIndex with hard' | o1
    · rw [h1] at h
      simp only [Bind.bind, Except.bind] at h
      cases h
      exact scanKeychain_no_panic env fuel B descr um kc steps 0 0 st aIndex _ h1
    · rw [h1] at h
      simp only [Bind.bind, Except.bind] at h
      exact ih o1.1 o1.2 hard h

/-- C10: the `expect("broken logic")` removal in `process_transactions` is
unreachable — neither `create` nor `update` can ever end in the panic
outcome, for any environment, fuel, batch size, descriptor, memo and prior
cache: every txid retained in the address index was inserted into the
transaction store by the scan, and each temporary removal is paired with a
reinsertion under the same id before the next lookup (fuel exhaustion of
the embedding's bounded loops is the only non-success outcome). -/
theorem c10_no_panic (env : Env) (fuel steps B : Nat) (descr : Descr)
    (memo0 : Memo) (cache0 : WalletCache) :
    createIx env fuel steps B descr memo0 ≠ .error .panicked
    ∧ updateIx env fuel steps B descr cache0 memo0 ≠ .error .panicked := by
  constructor
  · intro h
    unfold createIx at h
    dsimp only at h
    rcases h1 : scanKeychains env fuel steps B descr false descr.keychains
        ⟨WalletCache.new, memo0, [], []⟩ [] with hard | ⟨st1, aidx1⟩
    · rw [h1] at h
      simp only [Bind.bind, Except.bind] at h
      cases h
      have := scanKeychains_no_panic env fuel steps B descr false descr.keychains
        ⟨WalletCache.new, memo0, [], []⟩ [] _ h1
      exact Hard.noConfusion this
    · rw [h1] at h
      simp only [Bind.bind, Except.bind] at h
      have hgood : GoodIdx aidx1 st1.cache.tx :=
        (scanKeychains_good env fuel steps B descr false descr.keychains
          ⟨WalletCache.new, memo0, [], []⟩ [] (st1, aidx1) h1).2
          (fun e he => absurd he (List.not_mem_nil e))
      obtain ⟨out2, hok⟩ := processTransactions_ok descr.decode st1 aidx1 hgood
      rw [hok] at h
      rcases out2 with ⟨st2, ret2⟩
      simp [Bind.bind, Except.bind, Pure.pure, Except.pure] at h
  · intro h
    unfold updateIx at h
    dsimp only at h
    rcases h1 : scanKeychains env fuel steps B descr true descr.keychains
        ⟨cache0, memo0, [], []⟩ [] with hard | ⟨st1, aidx1⟩
    · rw [h1] at h
      simp only [Bind.bind, Except.bind] at h
      cases h
      have := scanKeychains_no_panic env fuel steps B descr true descr.keychains
        ⟨cache0, memo0, [], []⟩ [] _ h1
      exact Hard.noConfusion this
    · rw [h1] at h
      simp only [Bind.bind, Except.bind] at h
      have hgood : GoodIdx aidx1 st1.cache.tx :=
        (scanKeychains_good env fuel steps B descr true descr.keychains
          ⟨cache0, memo0, [], []⟩ [] (st1, aidx1) h1).2
          (fun e he => absurd he (List.not_mem_nil e))
      obtain ⟨out2, hok⟩ := processTransactions_ok descr.decode st1 aidx1 hgood
      rw [hok] at h
      rcases out2 with ⟨st2, ret2⟩
      simp [Bind.bind, Except.bind, Pure.pure, Except.pure] at h

/-- Inputs of a transaction whose payer script is the session address script. -/
def sCredits (s : Script) (tx : WalletTx) : List TxCredit :=
  tx.inputs.filter (fun c => c.payer.scriptPubkey = some s)

/-- Outputs of a transaction paying to the session address script. -/
def ownDebits (s : Script) (tx : WalletTx) : List TxDebit :=
  tx.outputs.filter (fun d => d.beneficiary.scriptPubkey = some s)

/-- Total value paid to the address script by one transaction. -/
def ownVal (s : Script) (tx : WalletTx) : Nat :=
  ((ownDebits s tx).map (fun d => d.value)).sum

/-- Total value paid to the address script by a list of transactions. -/
def ownSum (s : Script) (orig : Txid → WalletTx) (ts : List Txid) : Nat :=
  (ts.map (fun t => ownVal s (orig t))).sum

/-- Outpoints of one transaction's outputs paying to the address script. -/
def ownOutpoints (s : Script) (tx : WalletTx) : List Outpoint :=
  (ownDebits s tx).map (fun d => d.outpoint)

/-- Outpoints paying to the address script over a list of transactions. -/
def ownOutpointsOf (s : Script) (orig : Txid → WalletTx) (ts : List Txid) : List Outpoint :=
  ts.flatMap (fun t => ownOutpoints s (orig t))

/-- Funding outpoints spent by the listed transactions' script-owned inputs. -/
def spentOutpoints (s : Script) (orig : Txid → WalletTx) (ts : List Txid) : List Outpoint :=
  ts.flatMap (fun t => (sCredits s (orig t)).map (fun c => c.outpoint))

/-- Spent funding outpoints whose spending transaction is mined. -/
def minedSpentOutpoints (s : Script) (orig : Txid → WalletTx) (ts : List Txid) : List Outpoint :=
  (ts.filter (fun t => (orig t).status.isMined)).flatMap
    (fun t => (sCredits s (orig t)).map (fun c => c.outpoint))

/-- Total value spent by the listed transactions' script-owned inputs. -/
def spentSum (s : Script) (orig : Txid → WalletTx) (ts : List Txid) : Nat :=
  (ts.flatMap (fun t => (sCredits s (orig t)).map (fun c => c.value))).sum

theorem satAddI64_eq (a b : Int) (h0 : 0 ≤ a) (h1 : 0 ≤ b) (h2 : a + b ≤ 2 ^ 63 - 1) :
    satAddI64 a b = a + b := by
  rw [satAddI64]
  rw [min_eq_left h2]
  rw [max_eq_left]
  have : (0 : Int) ≤ a + b := by omega
  omega

theorem satSubI64_eq (a b : Int) (h0 : 0 ≤ a - b) (h2 : a - b ≤ 2 ^ 63 - 1) :
    satSubI64 a b = a - b := by
  rw [satSubI64]
  rw [min_eq_left h2]
  rw [max_eq_left]
  omega

theorem mapGet_mem {κ τ : Type} [DecidableEq κ] :
    ∀ (m : List (κ × τ)) (k : κ) (v : τ), mapGet m k = some v → (k, v) ∈ m := by
  intro m
  induction m with
  | nil => intro k v h; simp [mapGet] at h
  | cons p rest ih =>
    intro k v h
    rw [mapGet] at h
    by_cases hp : p.1 = k
    · rw [if_pos hp] at h
      have hv : v = p.2 := (Option.some.inj h).symm
      exact List.mem_cons.2 (Or.inl (by rw [hv, ← hp]))
    · rw [if_neg hp] at h
      exact List.mem_cons_of_mem p (ih k v h)

/-- Characterization of one `process_outputs` step: the output's beneficiary
is reclassified with a stable script pubkey, and exactly the outputs paying
the session script bump the statistics and enter the unspent set. -/
theorem processDebit_eq (decode : Script → Bool) (s : Script)
    (selfMap : List (Script × WalletAddr)) (d : TxDebit) (wa : WalletAddr)
    (cache : WalletCache) (hwa_s : wa.script = s)
    (hsm : ∀ p ∈ selfMap, (p : Script × WalletAddr).2.script = p.1) :
    ∃ b', processDebit decode s selfMap d wa cache =
      ({ d with beneficiary := b' },
       if d.beneficiary.scriptPubkey = some s then
         { wa with used := wa.used + 1, volume := satAddU64 wa.volume d.value,
                   balance := satAddI64 wa.balance (d.value : Int) }
       else wa,
       if d.beneficiary.scriptPubkey = some s then
         { cache with utxo := utxoInsert cache.utxo d.outpoint }
       else cache)
      ∧ b'.scriptPubkey = d.beneficiary.scriptPubkey
      ∧ (d.beneficiary.scriptPubkey = some s → b' = .walletOwned wa.terminal s) := by
  rw [processDebit]
  rcases hbs : d.beneficiary.scriptPubkey with _ | ds
  · refine ⟨d.beneficiary, ?_, hbs, ?_⟩
    · rw [if_neg (fun hh : (none : Option Script) = some s => Option.noConfusion hh),
          if_neg (fun hh : (none : Option Script) = some s => Option.noConfusion hh)]
    · intro hh
      exact absurd hh (fun hh : (none : Option Script) = some s => Option.noConfusion hh)
  · dsimp only
    by_cases hds : ds = s
    · subst hds
      rw [if_pos rfl]
      refine ⟨Party.walletOwned wa.terminal wa.script, ?_, ?_, ?_⟩
      · rw [if_pos rfl, if_pos rfl]
        rfl
      · rw [Party.scriptPubkey, hwa_s]
      · intro _
        rw [hwa_s]
    · have hnm : ¬ ((some ds : Option Script) = some s) := fun hh => hds (Option.some.inj hh)
      rw [if_neg hds]
      by_cases hu : d.beneficiary.isUnknown = true
      · rw [if_pos hu]
        rcases hsel : mapGet selfMap ds with _ | realAddr
        · dsimp only
          by_cases hdec : decode ds = true
          · rw [if_pos hdec]
            refine ⟨Party.counterparty ds, ?_, ?_, ?_⟩
            · rw [if_neg hnm, if_neg hnm]
            · rw [Party.scriptPubkey]
            · intro hh
              exact absurd hh hnm
          · rw [if_neg hdec]
            refine ⟨d.beneficiary, ?_, hbs, ?_⟩
            · rw [if_neg hnm, if_neg hnm]
            · intro hh
              exact absurd hh hnm
        · dsimp only
          have hreal : realAddr.script = ds := hsm (ds, realAddr) (mapGet_mem selfMap ds realAddr hsel)
          refine ⟨Party.walletOwned realAddr.terminal realAddr.script, ?_, ?_, ?_⟩
          · rw [if_neg hnm, if_neg hnm]
            rfl
          · rw [Party.scriptPubkey, hreal]
          · intro hh
            exact absurd hh hnm
      · rw [if_neg hu]
        refine ⟨d.beneficiary, ?_, hbs, ?_⟩
        · rw [if_neg hnm, if_neg hnm]
        · intro hh
          exact absurd hh hnm

/-- List-level restriction of `ownDebits` to a plain output list. -/
def ownDebitsL (s : Script) (ds : List TxDebit) : List TxDebit :=
  ds.filter (fun d => d.beneficiary.scriptPubkey = some s)

/-- List-level total owned value of an output list. -/
def ownValL (s : Script) (ds : List TxDebit) : Nat :=
  ((ownDebitsL s ds).map (fun d => d.value)).sum

/-- List-level owned outpoints of an output list. -/
def ownOutpointsL (s : Script) (ds : List TxDebit) : List Outpoint :=
  (ownDebitsL s ds).map (fun d => d.outpoint)

/-- Relation between an original output record and its image under the
output pass: outpoint, value and spent back-reference are preserved, the
beneficiary script pubkey is stable, and an output paying to the session
script is classified `WalletOwned` at the session terminal. -/
def DebitRel (s : Script) (τ : Terminal) (d d' : TxDebit) : Prop :=
  d'.outpoint = d.outpoint ∧ d'.value = d.value ∧ d'.spent = d.spent ∧
  d'.beneficiary.scriptPubkey = d.beneficiary.scriptPubkey ∧
  (d.beneficiary.scriptPubkey = some s → d'.beneficiary = .walletOwned τ s)

/-- Characterization of the `process_outputs` loop: outputs are rewritten
pointwise by `DebitRel`, the balance grows by the total owned value, and
the owned outpoints are appended to the unspent set. -/
theorem processOutputsGo_eq (decode : Script → Bool) (s : Script)
    (selfMap : List (Script × WalletAddr))
    (hsm : ∀ p ∈ selfMap, (p : Script × WalletAddr).2.script = p.1) :
    ∀ (ds : List TxDebit) (wa : WalletAddr) (cache : WalletCache),
      wa.script = s →
      0 ≤ wa.balance → wa.balance + (ownValL s ds : Int) ≤ 2 ^ 63 - 1 →
      (∀ o ∈ ownOutpointsL s ds, o ∉ cache.utxo) → (ownOutpointsL s ds).Nodup →
      ∃ ds' used' vol',
        processOutputsGo decode s selfMap ds wa cache =
          (ds', ⟨wa.terminal, s, used', vol', wa.balance + (ownValL s ds : Int)⟩,
           { cache with utxo := cache.utxo ++ ownOutpointsL s ds })
        ∧ List.Forall₂ (DebitRel s wa.terminal) ds ds' := by
  intro ds
  induction ds with
  | nil =>
    intro wa cache hws hb0 hb1 hfresh hnd
    refine ⟨[], wa.used, wa.volume, ?_, List.Forall₂.nil⟩
    rw [processOutputsGo]
    rw [show ownValL s [] = 0 from rfl, show ownOutpointsL s [] = [] from rfl]
    rcases wa with ⟨τ, s', u, v, b⟩
    rcases cache with ⟨a, tm, u'⟩
    dsimp only at hws ⊢
    rw [hws]
    simp
  | cons d rest ih =>
    intro wa cache hws hb0 hb1 hfresh hnd
    obtain ⟨b', heq, hbs', hmatch⟩ := processDebit_eq decode s selfMap d wa cache hws hsm
    rw [processOutputsGo, heq]
    by_cases hm : d.beneficiary.scriptPubkey = some s
    · rw [if_pos hm, if_pos hm]
      dsimp only
      have hv0 : ownValL s (d :: rest) = d.value + ownValL s rest := by
        rw [ownValL, ownValL, ownDebitsL, ownDebitsL, List.filter_cons_of_pos (by simp [hm])]
        simp
      have ho0 : ownOutpointsL s (d :: rest) = d.outpoint :: ownOutpointsL s rest := by
        rw [ownOutpointsL, ownOutpointsL, ownDebitsL, ownDebitsL,
          List.filter_cons_of_pos (by simp [hm])]
        simp
      have hins : utxoInsert cache.utxo d.outpoint = cache.utxo ++ [d.outpoint] := by
        rw [utxoInsert, if_neg (hfresh d.outpoint (by rw [ho0]; exact List.mem_cons_self _ _))]
      have hsat : satAddI64 wa.balance (d.value : Int) = wa.balance + (d.value : Int) := by
        apply satAddI64_eq _ _ hb0 (by positivity)
        rw [hv0] at hb1
        push_cast at hb1 ⊢
        omega
      have hbal1 : (0 : Int) ≤ wa.balance + (d.value : Int) := by positivity
      obtain ⟨ds', u', v', hrec, hrel⟩ := ih
        { wa with used := wa.used + 1, volume := satAddU64 wa.volume d.value,
                  balance := satAddI64 wa.balance (d.value : Int) }
        { cache with utxo := utxoInsert cache.utxo d.outpoint }
        hws (by rw [hsat]; exact hbal1)
        (by rw [hsat]
            rw [hv0] at hb1
            push_cast at hb1 ⊢
            omega)
        (by intro o ho
            rw [hins]
            intro hmem
            rcases List.mem_append.1 hmem with hmem | hmem
            · exact hfresh o (by rw [ho0]; exact List.mem_cons_of_mem _ ho) hmem
            · rw [List.mem_singleton] at hmem
              rw [ho0] at hnd
              exact (List.nodup_cons.1 hnd).1 (hmem ▸ ho)
            )
        (by rw [ho0] at hnd; exact (List.nodup_cons.1 hnd).2)
      rw [hrec]
      dsimp only
      refine ⟨{ d with beneficiary := b' } :: ds', u', v', ?_, ?_⟩
      · rw [hv0, ho0, hins, hsat]
        have harith : wa.balance + (d.value : Int) + ((ownValL s rest : Nat) : Int)
            = wa.balance + (((d.value + ownValL s rest : Nat) : Nat) : Int) := by
          push_cast
          ring
        rw [harith, List.append_assoc, List.singleton_append]
      · exact List.Forall₂.cons ⟨rfl, rfl, rfl, hbs', hmatch⟩ hrel
    · rw [if_neg hm, if_neg hm]
      dsimp only
      have hv0 : ownValL s (d :: rest) = ownValL s rest := by
        rw [ownValL, ownValL, ownDebitsL, ownDebitsL, List.filter_cons_of_neg (by simp [hm])]
      have ho0 : ownOutpointsL s (d :: rest) = ownOutpointsL s rest := by
        rw [ownOutpointsL, ownOutpointsL, ownDebitsL, ownDebitsL,
          List.filter_cons_of_neg (by simp [hm])]
      rw [hv0] at hb1
      rw [ho0] at hfresh hnd
      obtain ⟨ds', u', v', hrec, hrel⟩ := ih wa cache hws hb0 hb1 hfresh hnd
      rw [hrec]
      dsimp only
      refine ⟨{ d with beneficiary := b' } :: ds', u', v', ?_, ?_⟩
      · rw [hv0, ho0]
      · exact List.Forall₂.cons ⟨rfl, rfl, rfl, hbs', hmatch⟩ hrel

theorem mapGet_mapRemove_self {κ τ : Type} [DecidableEq κ] :
    ∀ (m : List (κ × τ)) (k : κ), mapGet (mapRemove m k) k = none := by
  intro m
  induction m with
  | nil => intro k; rw [mapRemove]; rfl
  | cons p rest ih =>
    intro k
    rw [mapRemove]
    by_cases hp : p.1 = k
    · rw [List.filter_cons_of_neg (by simp [hp])]
      exact ih k
    · rw [List.filter_cons_of_pos (by simp [hp]), mapGet, if_neg hp]
      exact ih k

theorem forall₂_imp_mem {α β : Type} {R S : α → β → Prop} :
    ∀ {l : List α} {l' : List β}, List.Forall₂ R l l' →
      (∀ a ∈ l, ∀ b, R a b → S a b) → List.Forall₂ S l l' := by
  intro l l' h
  induction h with
  | nil => intro _; exact List.Forall₂.nil
  | cons hab hrest ih =>
    intro hmem
    exact List.Forall₂.cons (hmem _ (List.mem_cons_self _ _) _ hab)
      (ih (fun a ha b hr => hmem a (List.mem_cons_of_mem _ ha) b hr))

theorem forall₂_get2 {α β : Type} {R : α → β → Prop} :
    ∀ {l : List α} {l' : List β}, List.Forall₂ R l l' →
      ∀ i a, l.get? i = some a → ∃ b, l'.get? i = some b ∧ R a b := by
  intro l l' h
  induction h with
  | nil => intro i a ha; simp at ha
  | cons hab hrest ih =>
    intro i a ha
    match i with
    | 0 =>
      refine ⟨_, rfl, ?_⟩
      have hax : _ = a := Option.some.inj ha
      rw [← hax]
      exact hab
    | Nat.succ j => exact ih j a ha

theorem forall₂_get_none {α β : Type} {R : α → β → Prop} :
    ∀ {l : List α} {l' : List β}, List.Forall₂ R l l' →
      ∀ i, l.get? i = none → l'.get? i = none := by
  intro l l' h
  induction h with
  | nil => intro i _; simp
  | cons hab hrest ih =>
    intro i ha
    match i with
    | 0 => simp at ha
    | Nat.succ j => exact ih j ha

theorem forall₂_set {α β : Type} {R S : α → β → Prop} :
    ∀ {l : List α} {l' : List β}, List.Forall₂ R l l' →
      ∀ (i : Nat) (a : α) (b' : β), l.get? i = some a → S a b' →
      (∀ j, ¬ j = i → ∀ x y, l.get? j = some x → R x y → S x y) →
      List.Forall₂ S l (l'.set i b') := by
  intro l l' h
  induction h with
  | nil => intro i a b' ha _ _; simp at ha
  | @cons x y la lb hab hrest ih =>
    intro i a b' ha hS hoth
    match i with
    | 0 =>
      rw [List.set]
      refine List.Forall₂.cons ?_ ?_
      · have hax : x = a := Option.some.inj ha
        rw [hax]
        exact hS
      · refine forall₂_imp_mem hrest ?_
        intro p hp q hpq
        obtain ⟨k, hk⟩ := List.get?_of_mem hp
        exact hoth (k + 1) (Nat.succ_ne_zero k) p q hk hpq
    | Nat.succ j =>
      rw [List.set]
      refine List.Forall₂.cons (hoth 0 (fun hh => Nat.noConfusion hh) x y rfl hab) ?_
      refine ih j a b' ha hS ?_
      intro j' hj' p q hp hpq
      exact hoth (j' + 1) (fun hh => hj' (Nat.succ.inj hh)) p q hp hpq

theorem find?_at_index {α : Type} (p : α → Bool) :
    ∀ (l : List α) (i : Nat) (a : α), l.get? i = some a → p a = true →
      (∀ j b, j < i → l.get? j = some b → p b = false) →
      l.find? p = some a := by
  intro l
  induction l with
  | nil => intro i a ha _ _; simp at ha
  | cons x rest ih =>
    intro i a ha hp hbefore
    match i with
    | 0 =>
      have hax : x = a := Option.some.inj ha
      rw [List.find?, hax, hp]
    | Nat.succ j =>
      rw [List.find?]
      rw [hbefore 0 x (Nat.succ_pos j) rfl]
      refine ih j a ha hp ?_
      intro j' b hj' hb
      exact hbefore (j' + 1) b (Nat.succ_lt_succ hj') hb

/-- Outpoints of the script-owned credits of an input list, in order. -/
def sMarks (s : Script) (cs : List TxCredit) : List Outpoint :=
  (cs.filter (fun c => c.payer.scriptPubkey = some s)).map (fun c => c.outpoint)

/-- Total value of the script-owned credits of an input list. -/
def sVals (s : Script) (cs : List TxCredit) : Nat :=
  ((cs.filter (fun c => c.payer.scriptPubkey = some s)).map (fun c => c.value)).sum

/-- Relation between an original output record and its stored image during
the input pass: as `DebitRel`, except that the spent back-reference is the
output's own outpoint exactly when that outpoint has been marked spent. -/
def OutRelB (s : Script) (τ : Terminal) (marks : List Outpoint) (d d' : TxDebit) : Prop :=
  d'.outpoint = d.outpoint ∧ d'.value = d.value ∧
  d'.beneficiary.scriptPubkey = d.beneficiary.scriptPubkey ∧
  (d.beneficiary.scriptPubkey = some s → d'.beneficiary = .walletOwned τ s) ∧
  d'.spent = (if d.outpoint ∈ marks then some d.outpoint else none)

/-- Stored transaction image during the input pass: self-keyed, original
status, outputs related pointwise by `OutRelB` under the given mark set. -/
def TxRelB (s : Script) (τ : Terminal) (orig : Txid → WalletTx) (marks : List Outpoint)
    (t : Txid) (tx : WalletTx) : Prop :=
  tx.txid = t ∧ tx.status = (orig t).status ∧
  List.Forall₂ (OutRelB s τ marks) (orig t).outputs tx.outputs

/-- Source-consistency of one input of a stored transaction: it is a
coinbase subsidy, or a foreign input whose funding transaction is not in
the store, or a script-owned input funded by a listed transaction other
than its own, at an output paying the session script with matching value. -/
def CredOK (s : Script) (orig : Txid → WalletTx) (T : List Txid) (tcur : Txid)
    (c : TxCredit) : Prop :=
  c.payer.scriptPubkey = none ∨
  (¬ c.payer.scriptPubkey = some s ∧ c.outpoint.txid ∉ T) ∨
  (c.payer.scriptPubkey = some s ∧ c.outpoint.txid ∈ T ∧ ¬ c.outpoint.txid = tcur ∧
   ∃ d, (orig c.outpoint.txid).outputs.get? c.outpoint.vout = some d ∧
     d.beneficiary.scriptPubkey = some s ∧ d.value = c.value)

theorem flatMap_cons' {α β : Type} (f : α → List β) (a : α) (l : List α) :
    (a :: l).flatMap f = f a ++ l.flatMap f := by
  simp [List.flatMap]

/-- Characterization of the whole output pass over the entry's txid list. -/
theorem outputPass_eq (decode : Script → Bool) (s : Script) (τ : Terminal)
    (selfMap : List (Script × WalletAddr)) (orig : Txid → WalletTx) (T : List Txid)
    (hsm : ∀ p ∈ selfMap, (p : Script × WalletAddr).2.script = p.1)
    (hTid : ∀ t ∈ T, (orig t).txid = t)
    (hTspent : ∀ t ∈ T, ∀ d ∈ (orig t).outputs, d.spent = none) :
    ∀ (todo : List Txid) (wa : WalletAddr) (cache : WalletCache) (tr : List Ev),
      (∀ t ∈ todo, t ∈ T) → todo.Nodup →
      wa.script = s → wa.terminal = τ → 0 ≤ wa.balance →
      wa.balance + (ownSum s orig todo : Int) ≤ 2 ^ 63 - 1 →
      (∀ t ∈ todo, mapGet cache.tx t = some (orig t)) →
      (∀ o ∈ ownOutpointsOf s orig todo, o ∉ cache.utxo) →
      (ownOutpointsOf s orig todo).Nodup →
      ∃ wa' cache',
        outputPass decode s selfMap todo wa cache tr =
          .ok (wa', cache', tr ++ todo.map (Ev.outputsOf s)) ∧
        wa'.script = s ∧ wa'.terminal = τ ∧
        wa'.balance = wa.balance + (ownSum s orig todo : Int) ∧
        cache'.addr = cache.addr ∧
        cache'.utxo = cache.utxo ++ ownOutpointsOf s orig todo ∧
        (∀ t, t ∉ todo → mapGet cache'.tx t = mapGet cache.tx t) ∧
        (∀ t ∈ todo, ∃ tx', mapGet cache'.tx t = some tx' ∧ TxRelB s τ orig [] t tx' ∧
          tx'.inputs = (orig t).inputs) := by
  intro todo
  induction todo with
  | nil =>
    intro wa cache tr _ _ hws hwt _ _ _ _ _
    refine ⟨wa, cache, ?_, hws, hwt, by simp [ownSum], rfl, by simp [ownOutpointsOf], ?_, ?_⟩
    · rw [outputPass]
      simp
    · intro t _; rfl
    · intro t ht; simp at ht
  | cons t rest ih =>
    intro wa cache tr hsub hnd hws hwt hb0 hb1 hget hfresh hond
    have htT : t ∈ T := hsub t (List.mem_cons_self _ _)
    have hown0 : ownOutpointsOf s orig (t :: rest) =
        ownOutpoints s (orig t) ++ ownOutpointsOf s orig rest := by
      rw [ownOutpointsOf, flatMap_cons', ownOutpointsOf]
    have hsum0 : ownSum s orig (t :: rest) = ownVal s (orig t) + ownSum s orig rest := by
      rw [ownSum, List.map_cons, List.sum_cons, ownSum]
    rw [hown0] at hfresh hond
    obtain ⟨hndt, hndr, hdisj⟩ := List.nodup_append.1 hond
    obtain ⟨outs, u', v', hgo, hrel⟩ := processOutputsGo_eq decode s selfMap hsm
      (orig t).outputs wa { cache with tx := mapRemove cache.tx t } hws hb0
      (by rw [hsum0] at hb1
          have hvv : ownVal s (orig t) = ownValL s (orig t).outputs := rfl
          rw [hvv] at hb1
          push_cast at hb1 ⊢
          have hnn : (0 : Int) ≤ ((ownSum s orig rest : Nat) : Int) := by positivity
          omega)
      (fun o ho => hfresh o (List.mem_append.2 (Or.inl ho)))
      hndt
    rw [outputPass, hget t (List.mem_cons_self _ _)]
    dsimp only
    rw [processOutputs, hgo]
    dsimp only
    obtain ⟨wa2, cache4, hrec, hws2, hwt2, hbal2, haddr2, hutxo2, hunch2, hproc2⟩ := ih
      ⟨wa.terminal, s, u', v', wa.balance + (ownValL s (orig t).outputs : Int)⟩
      { cache with
          tx := mapInsert (mapRemove cache.tx t) ({ orig t with outputs := outs } : WalletTx).txid
            { orig t with outputs := outs },
          utxo := cache.utxo ++ ownOutpointsL s (orig t).outputs }
      (tr ++ [Ev.outputsOf s t])
      (fun t' ht' => hsub t' (List.mem_cons_of_mem _ ht'))
      (List.nodup_cons.1 hnd).2
      rfl hwt
      (by dsimp only
          have hnn : (0 : Int) ≤ ((ownValL s (orig t).outputs : Nat) : Int) := by positivity
          omega)
      (by dsimp only
          rw [hsum0] at hb1
          have hvv : ownVal s (orig t) = ownValL s (orig t).outputs := rfl
          rw [hvv] at hb1
          push_cast at hb1 ⊢
          omega)
      (by intro t' ht'
          dsimp only
          have htne : ¬ t' = t := fun hh => (List.nodup_cons.1 hnd).1 (hh ▸ ht')
          have hid : ({ orig t with outputs := outs } : WalletTx).txid = t := hTid t htT
          rw [hid, mapGet_mapInsert_ne _ _ _ _ htne, mapGet_mapRemove_ne _ _ _ htne]
          exact hget t' (List.mem_cons_of_mem _ ht'))
      (by intro o ho
          dsimp only
          intro hmem
          rcases List.mem_append.1 hmem with hmem | hmem
          · exact hfresh o (List.mem_append.2 (Or.inr ho)) hmem
          · exact hdisj hmem ho)
      hndr
    refine ⟨wa2, cache4, ?_, hws2, hwt2, ?_, ?_, ?_, ?_, ?_⟩
    · rw [hrec]
      simp
    · rw [hbal2]
      dsimp only
      rw [hsum0, show ownVal s (orig t) = ownValL s (orig t).outputs from rfl]
      push_cast
      ring
    · rw [haddr2]
    · rw [hutxo2]
      dsimp only
      rw [hown0, List.append_assoc,
        show ownOutpoints s (orig t) = ownOutpointsL s (orig t).outputs from rfl]
    · intro t' ht'
      have htr : t' ∉ rest := fun hh => ht' (List.mem_cons_of_mem _ hh)
      have htne : ¬ t' = t := fun hh => ht' (hh ▸ List.mem_cons_self _ _)
      rw [hunch2 t' htr]
      dsimp only
      have hid : ({ orig t with outputs := outs } : WalletTx).txid = t := hTid t htT
      rw [hid, mapGet_mapInsert_ne _ _ _ _ htne, mapGet_mapRemove_ne _ _ _ htne]
    · intro t' ht'
      rcases List.mem_cons.1 ht' with hh | hh
      · subst hh
        have htr : t' ∉ rest := (List.nodup_cons.1 hnd).1
        refine ⟨{ orig t' with outputs := outs }, ?_, ⟨hTid t' htT, rfl, ?_⟩, rfl⟩
        · rw [hunch2 t' htr]
          dsimp only
          have hid : ({ orig t' with outputs := outs } : WalletTx).txid = t' := hTid t' htT
          rw [hid, mapGet_mapInsert_self]
        · rw [← hwt]
          refine forall₂_imp_mem hrel ?_
          intro d hd d' hrd
          obtain ⟨ho, hv, hspent, hbs, hmt⟩ := hrd
          exact ⟨ho, hv, hbs, hmt, by
            rw [hspent, hTspent t' htT d hd]
            rw [if_neg (List.not_mem_nil _)]⟩
      · exact hproc2 t' hh

theorem processCredit_none (decode : Script → Bool) (script : Script)
    (selfMap : List (Script × WalletAddr)) (status : TxStatus) (c : TxCredit)
    (wa : WalletAddr) (cache : WalletCache) (h : c.payer.scriptPubkey = none) :
    processCredit decode script selfMap status c wa cache = (c, wa, cache) := by
  rw [processCredit, h]

theorem processCredit_nonS (decode : Script → Bool) (script : Script)
    (selfMap : List (Script × WalletAddr)) (status : TxStatus) (c : TxCredit)
    (wa : WalletAddr) (cache : WalletCache) (s' : Script)
    (h : c.payer.scriptPubkey = some s') (hne : ¬ s' = script)
    (hsel : mapGet selfMap s' = none)
    (hmiss : mapGet cache.tx c.outpoint.txid = none) :
    ∃ c', processCredit decode script selfMap status c wa cache = (c', wa, cache) := by
  rw [processCredit, h]
  dsimp only
  rw [if_neg hne]
  have hfund : ∀ p : Party,
      creditFundingUpdate status { c with payer := p } cache = cache := by
    intro p
    rw [creditFundingUpdate]
    dsimp only
    rw [hmiss]
  have hfund0 : creditFundingUpdate status c cache = cache := by
    rw [creditFundingUpdate, hmiss]
  by_cases hu : c.payer.isUnknown = true
  · rw [if_pos hu, hsel]
    dsimp only
    by_cases hdec : decode s' = true
    · rw [if_pos hdec]
      dsimp only
      rw [if_neg (fun hh : false = true => Bool.noConfusion hh)]
      exact ⟨_, by rw [hfund]⟩
    · rw [if_neg hdec]
      dsimp only
      rw [if_neg (fun hh : false = true => Bool.noConfusion hh)]
      exact ⟨_, by rw [hfund0]⟩
  · rw [if_neg hu]
    dsimp only
    rw [if_neg (fun hh : false = true => Bool.noConfusion hh)]
    exact ⟨_, by rw [hfund0]⟩

theorem processCredit_s (decode : Script → Bool) (script : Script)
    (selfMap : List (Script × WalletAddr)) (status : TxStatus) (c : TxCredit)
    (wa : WalletAddr) (cache : WalletCache) (h : c.payer.scriptPubkey = some script) :
    processCredit decode script selfMap status c wa cache =
      ({ c with payer := .walletOwned wa.terminal wa.script },
       { wa with balance := satSubI64 wa.balance (c.value : Int) },
       creditFundingUpdate status { c with payer := .walletOwned wa.terminal wa.script }
         cache) := by
  rw [processCredit, h]
  dsimp only
  rw [if_pos rfl]
  dsimp only
  rw [if_neg (fun hh : false = true => Bool.noConfusion hh)]
  rfl

theorem TxRelB_extend (s : Script) (τ : Terminal) (orig : Txid → WalletTx)
    (marks marks' : List Outpoint) (t : Txid) (tx : WalletTx)
    (h : TxRelB s τ orig marks t tx)
    (hout : ∀ i d, (orig t).outputs.get? i = some d → d.outpoint = ⟨t, i⟩)
    (hmm : ∀ o : Outpoint, o.txid = t → (o ∈ marks' ↔ o ∈ marks)) :
    TxRelB s τ orig marks' t tx := by
  obtain ⟨h1, h2, h3⟩ := h
  refine ⟨h1, h2, forall₂_imp_mem h3 ?_⟩
  intro d hd d' hr
  obtain ⟨r1, r2, r3, r4, r5⟩ := hr
  refine ⟨r1, r2, r3, r4, ?_⟩
  obtain ⟨i, hi⟩ := List.get?_of_mem hd
  have hdo : d.outpoint = ⟨t, i⟩ := hout i d hi
  have : d.outpoint ∈ marks' ↔ d.outpoint ∈ marks := hmm d.outpoint (by rw [hdo])
  rw [r5]
  by_cases hin : d.outpoint ∈ marks
  · rw [if_pos hin, if_pos (this.2 hin)]
  · rw [if_neg hin, if_neg (fun hh => hin (this.1 hh))]

theorem creditFundingUpdate_eq (s : Script) (τ : Terminal) (orig : Txid → WalletTx)
    (T : List Txid) (tcur : Txid) (status : TxStatus) (c : TxCredit)
    (cache : WalletCache) (marks : List Outpoint)
    (hTout : ∀ t ∈ T, ∀ i d, (orig t).outputs.get? i = some d → d.outpoint = ⟨t, i⟩)
    (hstore : ∀ t ∈ T, ¬ t = tcur →
      ∃ tx', mapGet cache.tx t = some tx' ∧ TxRelB s τ orig marks t tx')
    (hnone : ∀ t', t' ∉ T → mapGet cache.tx t' = none)
    (hcur : mapGet cache.tx tcur = none)
    (hcT : c.outpoint.txid ∈ T) (hcne : ¬ c.outpoint.txid = tcur)
    (hcd : ∃ d, (orig c.outpoint.txid).outputs.get? c.outpoint.vout = some d ∧
      d.beneficiary.scriptPubkey = some s ∧ d.value = c.value) :
    ∃ cache', creditFundingUpdate status c cache = cache' ∧
      cache'.addr = cache.addr ∧
      cache'.utxo =
        (if status.isMined then utxoRemove cache.utxo c.outpoint else cache.utxo) ∧
      (∀ t ∈ T, ¬ t = tcur → ∀ tx₁, mapGet cache.tx t = some tx₁ →
        ∃ tx₂, mapGet cache'.tx t = some tx₂ ∧
          TxRelB s τ orig (marks ++ [c.outpoint]) t tx₂ ∧ tx₂.inputs = tx₁.inputs) ∧
      (∀ t', t' ∉ T → mapGet cache'.tx t' = none) ∧
      mapGet cache'.tx tcur = none := by
  obtain ⟨d, hd, hds, hdv⟩ := hcd
  obtain ⟨tx', hget', hrel'⟩ := hstore c.outpoint.txid hcT hcne
  obtain ⟨hid', hst', hfa'⟩ := hrel'
  obtain ⟨d', hd', hodd⟩ := forall₂_get2 hfa' c.outpoint.vout d hd
  have hdo : d.outpoint = ⟨c.outpoint.txid, c.outpoint.vout⟩ :=
    hTout c.outpoint.txid hcT c.outpoint.vout d hd
  have hdoc : d.outpoint = c.outpoint := hdo
  have hd'o : d'.outpoint = c.outpoint := by rw [hodd.1, hdoc]
  rw [creditFundingUpdate, hget']
  dsimp only
  rw [hd']
  dsimp only
  refine ⟨_, rfl, rfl, ?_, ?_, ?_, ?_⟩
  · dsimp only
    rw [hd'o]
  · intro t htT htne tx₁ hget₁
    by_cases htc : t = c.outpoint.txid
    · subst htc
      have htx₁ : tx₁ = tx' := by
        rw [hget₁] at hget'
        exact Option.some.inj hget'
      refine ⟨{ tx' with outputs := tx'.outputs.set c.outpoint.vout { d' with spent := some c.outpoint } }, ?_, ⟨hid', hst', ?_⟩, by rw [htx₁]⟩
      · dsimp only
        rw [mapGet_mapInsert_self]
      · dsimp only
        refine forall₂_set hfa' c.outpoint.vout d { d' with spent := some c.outpoint }
          hd ?_ ?_
        · obtain ⟨r1, r2, r3, r4, _⟩ := hodd
          refine ⟨r1, r2, r3, r4, ?_⟩
          dsimp only
          rw [if_pos (by rw [hdoc]; exact List.mem_append.2 (Or.inr (List.mem_singleton.2 rfl)))]
          rw [hdoc]
        · intro j hj x y hx hr
          obtain ⟨r1, r2, r3, r4, r5⟩ := hr
          refine ⟨r1, r2, r3, r4, ?_⟩
          have hxo : x.outpoint = ⟨c.outpoint.txid, j⟩ := hTout c.outpoint.txid hcT j x hx
          have hxne : ¬ x.outpoint ∈ [c.outpoint] := by
            intro hh
            rw [List.mem_singleton] at hh
            rw [hxo] at hh
            have : j = c.outpoint.vout := congrArg Outpoint.vout hh
            exact hj this
          rw [r5]
          by_cases hin : x.outpoint ∈ marks
          · rw [if_pos hin, if_pos (List.mem_append.2 (Or.inl hin))]
          · rw [if_neg hin,
              if_neg (fun hh => (List.mem_append.1 hh).elim hin hxne)]
    · obtain ⟨tx₂, hget₂, hrel₂⟩ := hstore t htT htne
      have htx₁ : tx₁ = tx₂ := by
        rw [hget₁] at hget₂
        exact Option.some.inj hget₂
      refine ⟨tx₂, ?_, ?_, by rw [htx₁]⟩
      · dsimp only
        rw [mapGet_mapInsert_ne _ _ _ _ htc]
        exact hget₂
      · refine TxRelB_extend s τ orig marks _ t tx₂ hrel₂ (hTout t htT) ?_
        intro o ho
        constructor
        · intro hh
          rcases List.mem_append.1 hh with hh | hh
          · exact hh
          · rw [List.mem_singleton] at hh
            exact absurd (ho ▸ congrArg Outpoint.txid hh : t = c.outpoint.txid) htc
        · exact fun hh => List.mem_append.2 (Or.inl hh)
  · intro t' ht'
    dsimp only
    rw [mapGet_mapInsert_ne _ _ _ _ (fun hh => ht' (by rw [hh]; exact hcT))]
    exact hnone t' ht'
  · dsimp only
    rw [mapGet_mapInsert_ne _ _ _ _ (fun hh => hcne hh.symm)]
    exact hcur

theorem sMarks_cons_pos (s : Script) (c : TxCredit) (cs : List TxCredit)
    (h : c.payer.scriptPubkey = some s) :
    sMarks s (c :: cs) = c.outpoint :: sMarks s cs := by
  rw [sMarks, List.filter_cons_of_pos (by simp [h]), List.map_cons, sMarks]

theorem sMarks_cons_neg (s : Script) (c : TxCredit) (cs : List TxCredit)
    (h : ¬ c.payer.scriptPubkey = some s) :
    sMarks s (c :: cs) = sMarks s cs := by
  rw [sMarks, List.filter_cons_of_neg (by simp [h]), sMarks]

theorem sVals_cons_pos (s : Script) (c : TxCredit) (cs : List TxCredit)
    (h : c.payer.scriptPubkey = some s) :
    sVals s (c :: cs) = c.value + sVals s cs := by
  rw [sVals, List.filter_cons_of_pos (by simp [h]), List.map_cons, List.sum_cons, sVals]

theorem sVals_cons_neg (s : Script) (c : TxCredit) (cs : List TxCredit)
    (h : ¬ c.payer.scriptPubkey = some s) :
    sVals s (c :: cs) = sVals s cs := by
  rw [sVals, List.filter_cons_of_neg (by simp [h]), sVals]

/-- Characterization of the `process_inputs` loop over one transaction's
inputs: the balance drops by the total script-owned input value, mined
spends leave the unspent set, and stored transactions acquire spent marks
at exactly the newly spent outpoints. -/
theorem processInputsGo_eq (decode : Script → Bool) (s : Script) (τ : Terminal)
    (selfMap : List (Script × WalletAddr)) (orig : Txid → WalletTx) (T : List Txid)
    (tcur : Txid) (status : TxStatus)
    (hsmNone : ∀ s', ¬ s' = s → mapGet selfMap s' = none)
    (hTout : ∀ t ∈ T, ∀ i d, (orig t).outputs.get? i = some d →
      d.outpoint = ⟨t, i⟩) :
    ∀ (cs : List TxCredit) (wa : WalletAddr) (cache : WalletCache)
      (marks : List Outpoint),
      wa.script = s → wa.terminal = τ →
      0 ≤ wa.balance - (sVals s cs : Int) → wa.balance ≤ 2 ^ 63 - 1 →
      (∀ c ∈ cs, CredOK s orig T tcur c) →
      (∀ t ∈ T, ¬ t = tcur →
        ∃ tx', mapGet cache.tx t = some tx' ∧ TxRelB s τ orig marks t tx') →
      (∀ t', t' ∉ T → mapGet cache.tx t' = none) →
      mapGet cache.tx tcur = none →
      ∃ cs' cache',
        processInputsGo decode s selfMap status cs wa cache =
          (cs', { wa with balance := wa.balance - (sVals s cs : Int) }, cache') ∧
        cache'.addr = cache.addr ∧
        cache'.utxo = (if status.isMined then
          cache.utxo.filter (fun o => ¬ o ∈ sMarks s cs) else cache.utxo) ∧
        (∀ t ∈ T, ¬ t = tcur → ∀ tx₁, mapGet cache.tx t = some tx₁ →
          ∃ tx₂, mapGet cache'.tx t = some tx₂ ∧
            TxRelB s τ orig (marks ++ sMarks s cs) t tx₂ ∧ tx₂.inputs = tx₁.inputs) ∧
        (∀ t', t' ∉ T → mapGet cache'.tx t' = none) ∧
        mapGet cache'.tx tcur = none := by
  intro cs
  induction cs with
  | nil =>
    intro wa cache marks hws hwt hb0 hb1 _ hstore hnone hcur
    refine ⟨[], cache, ?_, rfl, ?_, ?_, hnone, hcur⟩
    · rw [processInputsGo]
      have hz : wa.balance - ((sVals s [] : Nat) : Int) = wa.balance := by
        rw [show sVals s [] = 0 from rfl]
        simp
      rw [hz]
    · have hf : cache.utxo.filter (fun o => ¬ o ∈ sMarks s ([] : List TxCredit)) =
          cache.utxo := by
        apply List.filter_eq_self.2
        intro a _
        simp [sMarks]
      rw [hf]
      cases status.isMined <;> rfl
    · intro t htT htne tx₁ hget₁
      obtain ⟨tx', hget', hrel'⟩ := hstore t htT htne
      have : tx₁ = tx' := by
        rw [hget₁] at hget'
        exact Option.some.inj hget'
      subst this
      refine ⟨tx₁, hget₁, ?_, rfl⟩
      rw [show sMarks s ([] : List TxCredit) = [] from rfl, List.append_nil]
      exact hrel'
  | cons c cs ih =>
    intro wa cache marks hws hwt hb0 hb1 hcred hstore hnone hcur
    have hckc : CredOK s orig T tcur c := hcred c (List.mem_cons_self _ _)
    rw [processInputsGo]
    rcases hckc with h1 | ⟨h2a, h2b⟩ | ⟨h3a, h3b, h3c, h3d⟩
    · -- subsidy input: skipped entirely
      rw [processCredit_none decode s selfMap status c wa cache h1]
      dsimp only
      have hm0 : sMarks s (c :: cs) = sMarks s cs :=
        sMarks_cons_neg s c cs (by rw [h1]; exact fun hh => Option.noConfusion hh)
      have hv0 : sVals s (c :: cs) = sVals s cs :=
        sVals_cons_neg s c cs (by rw [h1]; exact fun hh => Option.noConfusion hh)
      rw [hv0] at hb0
      obtain ⟨cs', cache', hrec, ha, hu, hst, hn, hc⟩ := ih wa cache marks hws hwt hb0 hb1
        (fun x hx => hcred x (List.mem_cons_of_mem _ hx)) hstore hnone hcur
      rw [hrec]
      dsimp only
      refine ⟨c :: cs', cache', by rw [hv0], ha, by rw [hm0]; exact hu, ?_, hn, hc⟩
      intro t htT htne tx₁ hget₁
      rw [hm0]
      exact hst t htT htne tx₁ hget₁
    · -- foreign input: classification only, store and unspent set untouched
      rcases hp : c.payer.scriptPubkey with _ | s'
      · rw [processCredit_none decode s selfMap status c wa cache hp]
        dsimp only
        have hm0 : sMarks s (c :: cs) = sMarks s cs :=
          sMarks_cons_neg s c cs h2a
        have hv0 : sVals s (c :: cs) = sVals s cs :=
          sVals_cons_neg s c cs h2a
        rw [hv0] at hb0
        obtain ⟨cs', cache', hrec, ha, hu, hst, hn, hc⟩ := ih wa cache marks hws hwt hb0 hb1
          (fun x hx => hcred x (List.mem_cons_of_mem _ hx)) hstore hnone hcur
        rw [hrec]
        dsimp only
        refine ⟨c :: cs', cache', by rw [hv0], ha, by rw [hm0]; exact hu, ?_, hn, hc⟩
        intro t htT htne tx₁ hget₁
        rw [hm0]
        exact hst t htT htne tx₁ hget₁
      · have hs' : ¬ s' = s := by
          intro hh
          rw [hh] at hp
          exact h2a hp
        obtain ⟨c', hpc⟩ := processCredit_nonS decode s selfMap status c wa cache s' hp hs'
          (hsmNone s' hs') (hnone c.outpoint.txid h2b)
        rw [hpc]
        dsimp only
        have hm0 : sMarks s (c :: cs) = sMarks s cs := sMarks_cons_neg s c cs h2a
        have hv0 : sVals s (c :: cs) = sVals s cs := sVals_cons_neg s c cs h2a
        rw [hv0] at hb0
        obtain ⟨cs', cache', hrec, ha, hu, hst, hn, hc⟩ := ih wa cache marks hws hwt hb0 hb1
          (fun x hx => hcred x (List.mem_cons_of_mem _ hx)) hstore hnone hcur
        rw [hrec]
        dsimp only
        refine ⟨c' :: cs', cache', by rw [hv0], ha, by rw [hm0]; exact hu, ?_, hn, hc⟩
        intro t htT htne tx₁ hget₁
        rw [hm0]
        exact hst t htT htne tx₁ hget₁
    · -- wallet-funded input: balance debit, spent mark, unspent-set removal
      rw [processCredit_s decode s selfMap status c wa cache h3a]
      dsimp only
      have hm0 : sMarks s (c :: cs) = c.outpoint :: sMarks s cs := sMarks_cons_pos s c cs h3a
      have hv0 : sVals s (c :: cs) = c.value + sVals s cs := sVals_cons_pos s c cs h3a
      have hvnn : (0 : Int) ≤ ((sVals s cs : Nat) : Int) := by positivity
      have hcnn : (0 : Int) ≤ ((c.value : Nat) : Int) := by positivity
      rw [hv0] at hb0
      push_cast at hb0
      have hsub : satSubI64 wa.balance (c.value : Int) = wa.balance - (c.value : Int) := by
        apply satSubI64_eq
        · omega
        · omega
      rw [hsub]
      obtain ⟨cacheF, hcf, hfa, hfu, hfst, hfn, hfc⟩ :=
        creditFundingUpdate_eq s τ orig T tcur status
          { c with payer := Party.walletOwned wa.terminal wa.script } cache marks
          hTout hstore hnone hcur h3b h3c h3d
      rw [hcf]
      obtain ⟨cs', cache', hrec, ha, hu, hst, hn, hc⟩ := ih
        { wa with balance := wa.balance - (c.value : Int) } cacheF (marks ++ [c.outpoint])
        hws hwt
        (by dsimp only; omega)
        (by dsimp only; omega)
        (fun x hx => hcred x (List.mem_cons_of_mem _ hx))
        (by intro t htT htne
            obtain ⟨tx₁, hget₁, _⟩ := hstore t htT htne
            obtain ⟨tx₂, hget₂, hrel₂, _⟩ := hfst t htT htne tx₁ hget₁
            exact ⟨tx₂, hget₂, hrel₂⟩)
        hfn hfc
      rw [hrec]
      dsimp only
      refine ⟨{ c with payer := Party.walletOwned wa.terminal wa.script } :: cs', cache', ?_, ?_, ?_, ?_, hn, hc⟩
      · have harith : wa.balance - (c.value : Int) - ((sVals s cs : Nat) : Int)
            = wa.balance - ((sVals s (c :: cs) : Nat) : Int) := by
          rw [hv0]
          push_cast
          ring
        rw [harith]
      · rw [ha, hfa]
      · rw [hu, hfu, hm0]
        rcases hmined : status.isMined with _ | _
        · rfl
        · rw [if_pos rfl, if_pos rfl, if_pos rfl]
          rw [show utxoRemove cache.utxo c.outpoint
              = cache.utxo.filter (fun x => ¬ x = c.outpoint) from rfl]
          rw [List.filter_filter]
          apply List.filter_congr
          intro a _
          simp [List.mem_cons, not_or, Bool.and_comm]
      · intro t htT htne tx₁ hget₁
        obtain ⟨txm, hgetm, hrelm, hinpm⟩ := hfst t htT htne tx₁ hget₁
        obtain ⟨tx₂, hget₂, hrel₂, hinp₂⟩ := hst t htT htne txm hgetm
        refine ⟨tx₂, hget₂, ?_, by rw [hinp₂, hinpm]⟩
        rw [hm0]
        rw [show marks ++ c.outpoint :: sMarks s cs
            = (marks ++ [c.outpoint]) ++ sMarks s cs by simp]
        exact hrel₂

theorem spentSum_cons (s : Script) (orig : Txid → WalletTx) (t : Txid)
    (rest : List Txid) :
    spentSum s orig (t :: rest) = sVals s (orig t).inputs + spentSum s orig rest := by
  rw [spentSum, flatMap_cons', List.sum_append, spentSum]
  rfl

theorem spentOutpoints_cons (s : Script) (orig : Txid → WalletTx) (t : Txid)
    (rest : List Txid) :
    spentOutpoints s orig (t :: rest) =
      sMarks s (orig t).inputs ++ spentOutpoints s orig rest := by
  rw [spentOutpoints, flatMap_cons', spentOutpoints]
  rfl

theorem minedSpentOutpoints_cons_pos (s : Script) (orig : Txid → WalletTx) (t : Txid)
    (rest : List Txid) (h : (orig t).status.isMined = true) :
    minedSpentOutpoints s orig (t :: rest) =
      sMarks s (orig t).inputs ++ minedSpentOutpoints s orig rest := by
  rw [minedSpentOutpoints, List.filter_cons_of_pos (by simp [h]), flatMap_cons',
    minedSpentOutpoints]
  rfl

theorem minedSpentOutpoints_cons_neg (s : Script) (orig : Txid → WalletTx) (t : Txid)
    (rest : List Txid) (h : ¬ (orig t).status.isMined = true) :
    minedSpentOutpoints s orig (t :: rest) = minedSpentOutpoints s orig rest := by
  rw [minedSpentOutpoints, List.filter_cons_of_neg (by simp [h]), minedSpentOutpoints]

theorem sMarks_txid_ne (s : Script) (orig : Txid → WalletTx) (T : List Txid)
    (t : Txid) (hCt : ∀ c ∈ (orig t).inputs, CredOK s orig T t c) :
    ∀ o ∈ sMarks s (orig t).inputs, ¬ o.txid = t := by
  intro o ho
  rw [sMarks] at ho
  obtain ⟨c, hc, hco⟩ := List.mem_map.1 ho
  obtain ⟨hcin, hcp'⟩ := List.mem_filter.1 hc
  have hcp : c.payer.scriptPubkey = some s := of_decide_eq_true hcp'
  rcases hCt c hcin with h1 | ⟨h2a, _⟩ | ⟨_, _, h3c, _⟩
  · rw [h1] at hcp
    exact absurd hcp (fun hh => Option.noConfusion hh)
  · exact absurd hcp h2a
  · rw [← hco]
    exact h3c

/-- Characterization of the whole input pass over the entry's txid list. -/
theorem inputPass_eq (decode : Script → Bool) (s : Script) (τ : Terminal)
    (selfMap : List (Script × WalletAddr)) (orig : Txid → WalletTx) (T : List Txid)
    (hsmNone : ∀ s', ¬ s' = s → mapGet selfMap s' = none)
    (hTout : ∀ t ∈ T, ∀ i d, (orig t).outputs.get? i = some d → d.outpoint = ⟨t, i⟩)
    (hCred : ∀ t ∈ T, ∀ c ∈ (orig t).inputs, CredOK s orig T t c) :
    ∀ (todo : List Txid) (wa : WalletAddr) (cache : WalletCache) (tr : List Ev)
      (marks : List Outpoint),
      (∀ t ∈ todo, t ∈ T) → todo.Nodup →
      wa.script = s → wa.terminal = τ →
      0 ≤ wa.balance - (spentSum s orig todo : Int) → wa.balance ≤ 2 ^ 63 - 1 →
      (∀ t ∈ T, ∃ tx', mapGet cache.tx t = some tx' ∧ TxRelB s τ orig marks t tx' ∧
        (t ∈ todo → tx'.inputs = (orig t).inputs)) →
      (∀ t', t' ∉ T → mapGet cache.tx t' = none) →
      ∃ wa' cache',
        inputPass decode s selfMap todo wa cache tr =
          .ok (wa', cache', tr ++ todo.map (Ev.inputsOf s)) ∧
        wa' = { wa with balance := wa.balance - (spentSum s orig todo : Int) } ∧
        cache'.addr = cache.addr ∧
        cache'.utxo =
          cache.utxo.filter (fun o => ¬ o ∈ minedSpentOutpoints s orig todo) ∧
        (∀ t ∈ T, ∃ tx₂, mapGet cache'.tx t = some tx₂ ∧
          TxRelB s τ orig (marks ++ spentOutpoints s orig todo) t tx₂) ∧
        (∀ t', t' ∉ T → mapGet cache'.tx t' = none) := by
  intro todo
  induction todo with
  | nil =>
    intro wa cache tr marks _ _ _ _ _ _ hstore hnone
    refine ⟨wa, cache, ?_, ?_, rfl, ?_, ?_, hnone⟩
    · rw [inputPass]
      simp
    · have hz : wa.balance - ((spentSum s orig [] : Nat) : Int) = wa.balance := by
        rw [show spentSum s orig [] = 0 from rfl]
        simp
      rw [hz]
    · rw [show minedSpentOutpoints s orig [] = [] from rfl]
      symm
      apply List.filter_eq_self.2
      intro a _
      simp
    · intro t htT
      obtain ⟨tx', hg, hrel, _⟩ := hstore t htT
      refine ⟨tx', hg, ?_⟩
      rw [show spentOutpoints s orig [] = [] from rfl, List.append_nil]
      exact hrel
  | cons t rest ih =>
    intro wa cache tr marks hsub hnd hws hwt hb0 hb1 hstore hnone
    have htT : t ∈ T := hsub t (List.mem_cons_self _ _)
    obtain ⟨tx', hget', hrel', hinp'⟩ := hstore t htT
    have hinp : tx'.inputs = (orig t).inputs := hinp' (List.mem_cons_self _ _)
    obtain ⟨hid', hst', hfa'⟩ := hrel'
    rw [inputPass, hget']
    dsimp only
    rw [processInputs, hst', hinp]
    have hss : spentSum s orig (t :: rest) =
        sVals s (orig t).inputs + spentSum s orig rest := spentSum_cons s orig t rest
    have hsvnn : (0 : Int) ≤ ((sVals s (orig t).inputs : Nat) : Int) := by positivity
    have hspnn : (0 : Int) ≤ ((spentSum s orig rest : Nat) : Int) := by positivity
    rw [hss] at hb0
    push_cast at hb0
    obtain ⟨cs', cacheF, hgo, hfa2, hfu, hfst, hfn, hfc⟩ :=
      processInputsGo_eq decode s τ selfMap orig T t ((orig t).status) hsmNone hTout
        (orig t).inputs wa { cache with tx := mapRemove cache.tx t } marks hws hwt
        (by omega) hb1 (hCred t htT)
        (by intro t'' ht'' htne
            obtain ⟨txx, hgx, hrx, _⟩ := hstore t'' ht''
            refine ⟨txx, ?_, hrx⟩
            dsimp only
            rw [mapGet_mapRemove_ne _ _ _ htne]
            exact hgx)
        (by intro t'' ht''
            dsimp only
            have htne : ¬ t'' = t := fun hh => ht'' (hh ▸ htT)
            rw [mapGet_mapRemove_ne _ _ _ htne]
            exact hnone t'' ht'')
        (by dsimp only
            rw [mapGet_mapRemove_self])
    rw [hgo]
    dsimp only
    have hmarkst : ∀ o ∈ sMarks s (orig t).inputs, ¬ o.txid = t :=
      sMarks_txid_ne s orig T t (hCred t htT)
    obtain ⟨wa₂, cache₃, hrec, hwa₂, ha₃, hu₃, hst₃, hn₃⟩ := ih
      { wa with balance := wa.balance - (sVals s (orig t).inputs : Int) }
      { cacheF with tx := mapInsert cacheF.tx tx'.txid { tx' with status := (orig t).status, inputs := cs' } }
      (tr ++ [Ev.inputsOf s t]) (marks ++ sMarks s (orig t).inputs)
      (fun t'' ht'' => hsub t'' (List.mem_cons_of_mem _ ht''))
      (List.nodup_cons.1 hnd).2
      hws hwt
      (by dsimp only; omega)
      (by dsimp only; omega)
      (by intro t'' ht''
          by_cases htc : t'' = t
          · subst htc
            refine ⟨{ tx' with status := (orig t'').status, inputs := cs' }, ?_, ?_, ?_⟩
            · dsimp only
              rw [hid', mapGet_mapInsert_self]
            · refine TxRelB_extend s τ orig marks _ t'' _ ⟨hid', rfl, hfa'⟩
                (hTout t'' ht'') ?_
              intro o ho
              constructor
              · intro hh
                rcases List.mem_append.1 hh with hh | hh
                · exact hh
                · exact absurd ho (hmarkst o hh)
              · exact fun hh => List.mem_append.2 (Or.inl hh)
            · intro hmem
              exact absurd hmem (List.nodup_cons.1 hnd).1
          · obtain ⟨txx, hgx, hrx, hix⟩ := hstore t'' ht''
            have hgx₁ : mapGet ({ cache with tx := mapRemove cache.tx t } : WalletCache).tx t'' = some txx := by
              dsimp only
              rw [mapGet_mapRemove_ne _ _ _ htc]
              exact hgx
            obtain ⟨tx₂, hg₂, hr₂, hi₂⟩ := hfst t'' ht'' htc txx hgx₁
            refine ⟨tx₂, ?_, hr₂, ?_⟩
            · dsimp only
              rw [hid', mapGet_mapInsert_ne _ _ _ _ htc]
              exact hg₂
            · intro hmem
              rw [hi₂]
              exact hix (List.mem_cons_of_mem _ hmem))
      (by intro t'' ht''
          have htne : ¬ t'' = t := fun hh => ht'' (hh ▸ htT)
          dsimp only
          rw [hid', mapGet_mapInsert_ne _ _ _ _ htne]
          exact hfn t'' ht'')
    rw [hrec]
    refine ⟨wa₂, cache₃, by simp, ?_, ?_, ?_, ?_, hn₃⟩
    · rw [hwa₂]
      dsimp only
      have harith : wa.balance - ((sVals s (orig t).inputs : Nat) : Int)
            - ((spentSum s orig rest : Nat) : Int)
          = wa.balance - ((spentSum s orig (t :: rest) : Nat) : Int) := by
        rw [hss]
        push_cast
        ring
      rw [harith]
    · rw [ha₃]
      dsimp only
      rw [hfa2]
    · rw [hu₃]
      dsimp only
      rw [hfu]
      dsimp only
      rcases hmined : (orig t).status.isMined with _ | _
      · rw [if_neg (fun hh : false = true => Bool.noConfusion hh)]
        rw [minedSpentOutpoints_cons_neg s orig t rest (by rw [hmined]; exact fun hh => Bool.noConfusion hh)]
      · rw [if_pos rfl, List.filter_filter]
        rw [minedSpentOutpoints_cons_pos s orig t rest hmined]
        apply List.filter_congr
        intro a _
        simp [List.mem_append, not_or, Bool.and_comm]
    · intro t'' ht''
      obtain ⟨tx₂, hg₂, hr₂⟩ := hst₃ t'' ht''
      refine ⟨tx₂, hg₂, ?_⟩
      rw [spentOutpoints_cons, show marks ++ (sMarks s (orig t).inputs ++ spentOutpoints s orig rest) = (marks ++ sMarks s (orig t).inputs) ++ spentOutpoints s orig rest by simp]
      exact hr₂

/-- Value of the original output sitting at an outpoint (0 when absent). -/
def valAt (orig : Txid → WalletTx) (o : Outpoint) : Nat :=
  match (orig o.txid).outputs.get? o.vout with
  | some d => d.value
  | none => 0

theorem valAt_outputs (orig : Txid → WalletTx) (t : Txid)
    (hTout_t : ∀ i d, (orig t).outputs.get? i = some d → d.outpoint = ⟨t, i⟩) :
    ∀ d ∈ (orig t).outputs, valAt orig d.outpoint = d.value := by
  intro d hd
  obtain ⟨i, hi⟩ := List.get?_of_mem hd
  have hdo : d.outpoint = ⟨t, i⟩ := hTout_t i d hi
  rw [hdo, valAt]
  dsimp only
  rw [hi]

theorem ownOutpoints_map_valAt (s : Script) (orig : Txid → WalletTx) (t : Txid)
    (hTout_t : ∀ i d, (orig t).outputs.get? i = some d → d.outpoint = ⟨t, i⟩) :
    ((ownOutpoints s (orig t)).map (valAt orig)).sum = ownVal s (orig t) := by
  rw [ownOutpoints, List.map_map, ownVal]
  congr 1
  apply List.map_congr_left
  intro d hd
  exact valAt_outputs orig t hTout_t d (List.mem_of_mem_filter hd)

theorem ownOutpointsOf_sum_valAt (s : Script) (orig : Txid → WalletTx) :
    ∀ (T : List Txid),
      (∀ t ∈ T, ∀ i d, (orig t).outputs.get? i = some d → d.outpoint = ⟨t, i⟩) →
      ((ownOutpointsOf s orig T).map (valAt orig)).sum = ownSum s orig T := by
  intro T
  induction T with
  | nil => intro _; rfl
  | cons t rest ih =>
    intro hTout
    have hsc : ownSum s orig (t :: rest) = ownVal s (orig t) + ownSum s orig rest := by
      simp [ownSum]
    rw [ownOutpointsOf, flatMap_cons', List.map_append, List.sum_append,
      show (rest.flatMap fun t => ownOutpoints s (orig t)) = ownOutpointsOf s orig rest
        from rfl,
      ih (fun t' ht' => hTout t' (List.mem_cons_of_mem _ ht')),
      ownOutpoints_map_valAt s orig t (hTout t (List.mem_cons_self _ _)), hsc]

theorem sCredit_valAt (s : Script) (orig : Txid → WalletTx) (T : List Txid)
    (t : Txid) (htT : t ∈ T)
    (hCred : ∀ t ∈ T, ∀ c ∈ (orig t).inputs, CredOK s orig T t c) :
    ∀ c ∈ sCredits s (orig t), valAt orig c.outpoint = c.value := by
  intro c hc
  obtain ⟨hcin, hcp'⟩ := List.mem_filter.1 hc
  have hcp : c.payer.scriptPubkey = some s := of_decide_eq_true hcp'
  rcases hCred t htT c hcin with h1 | ⟨h2a, _⟩ | ⟨_, _, _, d, hd, _, hdv⟩
  · rw [h1] at hcp
    exact absurd hcp (fun hh => Option.noConfusion hh)
  · exact absurd hcp h2a
  · rw [valAt, hd]
    exact hdv

theorem spentOutpoints_sum_valAt (s : Script) (orig : Txid → WalletTx) (T : List Txid)
    (hCred : ∀ t ∈ T, ∀ c ∈ (orig t).inputs, CredOK s orig T t c) :
    ∀ (ts : List Txid), (∀ t ∈ ts, t ∈ T) →
      ((spentOutpoints s orig ts).map (valAt orig)).sum = spentSum s orig ts := by
  intro ts
  induction ts with
  | nil => intro _; rfl
  | cons t rest ih =>
    intro hsub
    rw [spentOutpoints, flatMap_cons', List.map_append, List.sum_append,
      show (rest.flatMap fun t => (sCredits s (orig t)).map fun c => c.outpoint)
        = spentOutpoints s orig rest from rfl,
      ih (fun t' ht' => hsub t' (List.mem_cons_of_mem _ ht')),
      spentSum_cons,
      show sVals s (orig t).inputs = ((sCredits s (orig t)).map (fun c => c.value)).sum
        from rfl]
    congr 1
    rw [List.map_map]
    congr 1
    apply List.map_congr_left
    intro c hc
    exact sCredit_valAt s orig T t (hsub t (List.mem_cons_self _ _)) hCred c hc

theorem spentOutpoints_subset (s : Script) (orig : Txid → WalletTx) (T : List Txid)
    (hTout : ∀ t ∈ T, ∀ i d, (orig t).outputs.get? i = some d → d.outpoint = ⟨t, i⟩)
    (hCred : ∀ t ∈ T, ∀ c ∈ (orig t).inputs, CredOK s orig T t c) :
    ∀ o ∈ spentOutpoints s orig T, o ∈ ownOutpointsOf s orig T := by
  intro o ho
  rw [spentOutpoints] at ho
  obtain ⟨t, htT, hmem⟩ := List.mem_flatMap.1 ho
  obtain ⟨c, hc, hco⟩ := List.mem_map.1 hmem
  obtain ⟨hcin, hcp'⟩ := List.mem_filter.1 hc
  have hcp : c.payer.scriptPubkey = some s := of_decide_eq_true hcp'
  rcases hCred t htT c hcin with h1 | ⟨h2a, _⟩ | ⟨_, hcT, _, d, hd, hds, _⟩
  · rw [h1] at hcp
    exact absurd hcp (fun hh => Option.noConfusion hh)
  · exact absurd hcp h2a
  · rw [ownOutpointsOf]
    refine List.mem_flatMap.2 ⟨c.outpoint.txid, hcT, ?_⟩
    rw [ownOutpoints]
    have hdmem : d ∈ (orig c.outpoint.txid).outputs := by
      obtain ⟨hlt, hget⟩ := List.get?_eq_some.1 hd
      rw [← hget]
      exact List.get_mem _ _ _
    have hdown : d ∈ ownDebits s (orig c.outpoint.txid) := by
      rw [ownDebits]
      exact List.mem_filter.2 ⟨hdmem, decide_eq_true hds⟩
    refine List.mem_map.2 ⟨d, hdown, ?_⟩
    have : d.outpoint = ⟨c.outpoint.txid, c.outpoint.vout⟩ :=
      hTout c.outpoint.txid hcT c.outpoint.vout d hd
    rw [this, ← hco]

theorem minedSpent_subset (s : Script) (orig : Txid → WalletTx) (ts : List Txid) :
    ∀ o ∈ minedSpentOutpoints s orig ts, o ∈ spentOutpoints s orig ts := by
  intro o ho
  rw [minedSpentOutpoints] at ho
  obtain ⟨t, htT, hmem⟩ := List.mem_flatMap.1 ho
  rw [spentOutpoints]
  exact List.mem_flatMap.2 ⟨t, List.mem_of_mem_filter htT, hmem⟩

theorem sum_split_mem (f : Outpoint → Nat) (sp : List Outpoint) :
    ∀ own : List Outpoint,
      ((own.map f).sum : Nat) =
        ((own.filter (fun o => o ∈ sp)).map f).sum +
        ((own.filter (fun o => ¬ o ∈ sp)).map f).sum := by
  intro own
  have hperm : List.Perm
      (own.filter (fun o => decide (o ∈ sp)) ++
        own.filter (fun o => !(decide (o ∈ sp)))) own := by
    exact List.filter_append_perm _ own
  have hsum := (hperm.map f).sum_eq
  have hfeq : own.filter (fun o => !(decide (o ∈ sp))) =
      own.filter (fun o => ¬ o ∈ sp) := by
    apply List.filter_congr
    intro a _
    rw [decide_not]
  rw [← hsum, List.map_append, List.sum_append, hfeq]

theorem filter_mem_perm (sp : List Outpoint) (own : List Outpoint)
    (hndo : own.Nodup) (hnds : sp.Nodup) (hsub : ∀ o ∈ sp, o ∈ own) :
    List.Perm (own.filter (fun o => o ∈ sp)) sp := by
  apply (List.perm_ext_iff_of_nodup (List.Nodup.filter _ hndo) hnds).2
  intro a
  constructor
  · intro ha
    exact of_decide_eq_true (List.mem_filter.1 ha).2
  · intro ha
    exact List.mem_filter.2 ⟨hsub a ha, decide_eq_true ha⟩

theorem sum_filter_not_mem (f : Outpoint → Nat) (sp own : List Outpoint)
    (hndo : own.Nodup) (hnds : sp.Nodup) (hsub : ∀ o ∈ sp, o ∈ own) :
    (((own.filter (fun o => ¬ o ∈ sp)).map f).sum : Int) =
      ((own.map f).sum : Int) - ((sp.map f).sum : Int) := by
  have hsplit := sum_split_mem f sp own
  have hperm := filter_mem_perm sp own hndo hnds hsub
  have : ((own.filter (fun o => o ∈ sp)).map f).sum = (sp.map f).sum :=
    (hperm.map f).sum_eq
  rw [this] at hsplit
  have := congrArg (fun n : Nat => (n : Int)) hsplit
  push_cast at this ⊢
  omega

theorem spentSum_le_ownSum (s : Script) (orig : Txid → WalletTx) (T : List Txid)
    (hTout : ∀ t ∈ T, ∀ i d, (orig t).outputs.get? i = some d → d.outpoint = ⟨t, i⟩)
    (hCred : ∀ t ∈ T, ∀ c ∈ (orig t).inputs, CredOK s orig T t c)
    (hOwnNd : (ownOutpointsOf s orig T).Nodup)
    (hSpNd : (spentOutpoints s orig T).Nodup) :
    spentSum s orig T ≤ ownSum s orig T := by
  rw [← ownOutpointsOf_sum_valAt s orig T hTout,
    ← spentOutpoints_sum_valAt s orig T hCred T (fun _ h => h)]
  have hperm := filter_mem_perm (spentOutpoints s orig T) (ownOutpointsOf s orig T)
    hOwnNd hSpNd (spentOutpoints_subset s orig T hTout hCred)
  have heq := (hperm.map (valAt orig)).sum_eq
  rw [← heq]
  have := sum_split_mem (valAt orig) (spentOutpoints s orig T) (ownOutpointsOf s orig T)
  omega

theorem sum_ite_msp (f : Outpoint → Int) (sp msp : List Outpoint)
    (hsub : ∀ o ∈ msp, o ∈ sp) :
    ∀ own : List Outpoint,
      ((own.filter (fun o => ¬ o ∈ msp)).map
        (fun o => if o ∈ sp then 0 else f o)).sum =
      ((own.filter (fun o => ¬ o ∈ sp)).map f).sum := by
  intro own
  induction own with
  | nil => rfl
  | cons o rest ih =>
    by_cases hsp : o ∈ sp
    · have hR : (o :: rest).filter (fun x => ¬ x ∈ sp) =
          rest.filter (fun x => ¬ x ∈ sp) :=
        List.filter_cons_of_neg (by simp [hsp])
      by_cases hmsp : o ∈ msp
      · have hL : (o :: rest).filter (fun x => ¬ x ∈ msp) =
            rest.filter (fun x => ¬ x ∈ msp) :=
          List.filter_cons_of_neg (by simp [hmsp])
        rw [hL, hR, ih]
      · have hL : (o :: rest).filter (fun x => ¬ x ∈ msp) =
            o :: rest.filter (fun x => ¬ x ∈ msp) :=
          List.filter_cons_of_pos (by simp [hmsp])
        rw [hL, hR, List.map_cons, List.sum_cons, if_pos hsp, ih, zero_add]
    · have hmsp : ¬ o ∈ msp := fun hh => hsp (hsub o hh)
      have hL : (o :: rest).filter (fun x => ¬ x ∈ msp) =
          o :: rest.filter (fun x => ¬ x ∈ msp) :=
        List.filter_cons_of_pos (by simp [hmsp])
      have hR : (o :: rest).filter (fun x => ¬ x ∈ sp) =
          o :: rest.filter (fun x => ¬ x ∈ sp) :=
        List.filter_cons_of_pos (by simp [hsp])
      rw [hL, hR, List.map_cons, List.map_cons, List.sum_cons, List.sum_cons,
        if_neg hsp, ih]

/-- Pointwise evaluation of the spec's per-outpoint balance contribution on
the final cache: an owned outpoint contributes its original value exactly
when it has not been spent by the batch. -/
theorem ownedSpentlessVal_at (s : Script) (τ : Terminal) (orig : Txid → WalletTx)
    (T : List Txid)
    (hTout : ∀ t ∈ T, ∀ i d, (orig t).outputs.get? i = some d → d.outpoint = ⟨t, i⟩)
    (cacheB : WalletCache) (waB : WalletAddr)
    (hwb_t : waB.terminal = τ) (hwb_s : waB.script = s)
    (hstoreB : ∀ t ∈ T, ∃ txB, mapGet cacheB.tx t = some txB ∧
      TxRelB s τ orig (spentOutpoints s orig T) t txB) :
    ∀ o ∈ ownOutpointsOf s orig T,
      ownedSpentlessVal cacheB waB o =
        if o ∈ spentOutpoints s orig T then 0 else (valAt orig o : Int) := by
  intro o ho
  rw [ownOutpointsOf] at ho
  obtain ⟨t, htT, hmem⟩ := List.mem_flatMap.1 ho
  obtain ⟨d, hdown, hdo⟩ := List.mem_map.1 hmem
  obtain ⟨hdmem, hds'⟩ := List.mem_filter.1 hdown
  have hds : d.beneficiary.scriptPubkey = some s := of_decide_eq_true hds'
  obtain ⟨i, hi⟩ := List.get?_of_mem hdmem
  have hdti : d.outpoint = ⟨t, i⟩ := hTout t htT i d hi
  have hoe : o = (⟨t, i⟩ : Outpoint) := by rw [← hdti, hdo]
  obtain ⟨txB, hgetB, hidB, hstB, hfaB⟩ := hstoreB t htT
  obtain ⟨d', hd'i, hrel⟩ := forall₂_get2 hfaB i d hi
  obtain ⟨r1, r2, r3, r4, r5⟩ := hrel
  have hfind : txB.outputs.find? (fun x => x.outpoint = o) = some d' := by
    apply find?_at_index _ txB.outputs i d' hd'i
    · apply decide_eq_true
      rw [r1, hdo]
    · intro j b hj hb
      have hilen : i < (orig t).outputs.length := (List.get?_eq_some.1 hi).1
      have hjlen : j < (orig t).outputs.length := lt_trans hj hilen
      obtain ⟨dj, hdj⟩ : ∃ a, (orig t).outputs.get? j = some a :=
        ⟨_, List.get?_eq_get hjlen⟩
      obtain ⟨b', hb', hrelj⟩ := forall₂_get2 hfaB j dj hdj
      have hbb : b = b' := by
        rw [hb] at hb'
        exact Option.some.inj hb'
      apply decide_eq_false
      intro hbo
      rw [hbb, hrelj.1, hTout t htT j dj hdj, hoe] at hbo
      have : j = i := congrArg Outpoint.vout hbo
      exact absurd this (Nat.ne_of_lt hj)
  have hgeto : mapGet cacheB.tx o.txid = some txB := by
    rw [hoe]
    exact hgetB
  rw [ownedSpentlessVal, debitAt, hgeto]
  dsimp only
  rw [hfind]
  dsimp only
  have hbene : d'.beneficiary = Party.walletOwned waB.terminal waB.script := by
    rw [hwb_t, hwb_s]
    exact r4 hds
  by_cases hsp : o ∈ spentOutpoints s orig T
  · rw [if_pos hsp]
    have hspent : d'.spent = some d.outpoint := by
      rw [r5, if_pos (by rw [hdo]; exact hsp)]
    rw [if_neg]
    intro hcond
    rw [hspent] at hcond
    exact Option.noConfusion hcond.2
  · rw [if_neg hsp]
    have hspent : d'.spent = none := by
      rw [r5, if_neg (by rw [hdo]; exact hsp)]
    rw [if_pos ⟨hbene, hspent⟩, r2]
    rw [← hdo, valAt_outputs orig t (hTout t htT) d hdmem]

/-- The final unspent-set sum over spent-mark-free `WalletOwned` outputs
equals total owned value minus total spent value. -/
theorem ownedSpentlessSum_final (s : Script) (τ : Terminal) (orig : Txid → WalletTx)
    (T : List Txid)
    (hTout : ∀ t ∈ T, ∀ i d, (orig t).outputs.get? i = some d → d.outpoint = ⟨t, i⟩)
    (hCred : ∀ t ∈ T, ∀ c ∈ (orig t).inputs, CredOK s orig T t c)
    (hOwnNd : (ownOutpointsOf s orig T).Nodup)
    (hSpNd : (spentOutpoints s orig T).Nodup)
    (cacheB : WalletCache) (waB : WalletAddr)
    (hwb_t : waB.terminal = τ) (hwb_s : waB.script = s)
    (hutxoB : cacheB.utxo = (ownOutpointsOf s orig T).filter
      (fun o => ¬ o ∈ minedSpentOutpoints s orig T))
    (hstoreB : ∀ t ∈ T, ∃ txB, mapGet cacheB.tx t = some txB ∧
      TxRelB s τ orig (spentOutpoints s orig T) t txB) :
    ownedSpentlessSum cacheB waB =
      (ownSum s orig T : Int) - (spentSum s orig T : Int) := by
  rw [ownedSpentlessSum, hutxoB]
  have hpt : ∀ o ∈ (ownOutpointsOf s orig T).filter
      (fun o => ¬ o ∈ minedSpentOutpoints s orig T),
      ownedSpentlessVal cacheB waB o =
        (fun o => if o ∈ spentOutpoints s orig T then 0 else (valAt orig o : Int)) o := by
    intro o hoF
    exact ownedSpentlessVal_at s τ orig T hTout cacheB waB hwb_t hwb_s hstoreB o
      (List.mem_of_mem_filter hoF)
  rw [List.map_congr_left hpt]
  rw [sum_ite_msp (fun o => (valAt orig o : Int)) (spentOutpoints s orig T)
    (minedSpentOutpoints s orig T) (minedSpent_subset s orig T) (ownOutpointsOf s orig T)]
  have hcast : ∀ l : List Outpoint,
      (l.map (fun o => ((valAt orig o : Nat) : Int))).sum =
        ((l.map (valAt orig)).sum : Int) := by
    intro l
    induction l with
    | nil => simp
    | cons a r ih =>
      rw [List.map_cons, List.sum_cons, ih, List.map_cons, List.sum_cons]
      push_cast
      ring
  rw [hcast]
  rw [sum_filter_not_mem (valAt orig) (spentOutpoints s orig T) (ownOutpointsOf s orig T)
    hOwnNd hSpNd (spentOutpoints_subset s orig T hTout hCred)]
  rw [ownOutpointsOf_sum_valAt s orig T hTout,
    spentOutpoints_sum_valAt s orig T hCred T (fun _ h => h)]

/-- C1 (amended): after a completed `process_transactions` reconciliation of
a single-active-address session — one retained address entry with fresh
statistics, a transaction store holding exactly the listed transactions,
and source-consistent data (self-keyed txids and outpoints, fresh outputs,
inputs that are subsidies, foreign, or funded by listed transactions of the
same script with matching values, no duplicate funding or spent outpoints,
total owned value within `i64`) — every cached address's balance equals the
sum of the values of unspent-set outpoints whose output is classified
`WalletOwned` to that address and still carries an empty spent
back-reference; this holds including when spending transactions in the
batch are unconfirmed: their funding outpoints remain in the unspent set
but are spent-marked and excluded from the sum. -/
theorem c1_balance_spentless
    (decode : Script → Bool) (s : Script) (τ : Terminal) (u0 v0 : Nat)
    (orig : Txid → WalletTx) (T : List Txid) (st : St)
    (hT0 : ¬ T = []) (hTnd : T.Nodup)
    (hTid : ∀ t ∈ T, (orig t).txid = t)
    (hTout : ∀ t ∈ T, ∀ i d, (orig t).outputs.get? i = some d → d.outpoint = ⟨t, i⟩)
    (hTspent : ∀ t ∈ T, ∀ d ∈ (orig t).outputs, d.spent = none)
    (hCred : ∀ t ∈ T, ∀ c ∈ (orig t).inputs, CredOK s orig T t c)
    (hOwnNd : (ownOutpointsOf s orig T).Nodup)
    (hSpNd : (spentOutpoints s orig T).Nodup)
    (hbound : (ownSum s orig T : Int) ≤ 2 ^ 63 - 1)
    (haddr : st.cache.addr = []) (hutxo : st.cache.utxo = [])
    (hstore : ∀ t ∈ T, mapGet st.cache.tx t = some (orig t))
    (hmiss : ∀ t', t' ∉ T → mapGet st.cache.tx t' = none) :
    ∃ st' ret,
      processTransactions decode st [(s, ⟨τ, s, u0, v0, 0⟩, T)] = .ok (st', ret) ∧
      ∀ wa ∈ st'.cache.addr, wa.balance = ownedSpentlessSum st'.cache wa := by
  have hsm' : ∀ p ∈ ([(s, (⟨τ, s, u0, v0, 0⟩ : WalletAddr))] :
      List (Script × WalletAddr)), (p : Script × WalletAddr).2.script = p.1 := by
    intro p hp
    rw [List.mem_singleton] at hp
    rw [hp]
  obtain ⟨waA, cacheA, hOP, hwsA, hwtA, hbalA, haddrA, hutxoA, hunchA, hprocA⟩ :=
    outputPass_eq decode s τ [(s, ⟨τ, s, u0, v0, 0⟩)] orig T hsm' hTid hTspent
      T ⟨τ, s, u0, v0, 0⟩ st.cache st.trace (fun _ h => h) hTnd rfl rfl le_rfl
      (by dsimp only
          omega)
      hstore
      (by intro o _
          rw [hutxo]
          exact List.not_mem_nil o)
      hOwnNd
  have hbalA' : waA.balance = (ownSum s orig T : Int) := by
    rw [hbalA]
    dsimp only
    omega
  have hle : spentSum s orig T ≤ ownSum s orig T :=
    spentSum_le_ownSum s orig T hTout hCred hOwnNd hSpNd
  obtain ⟨waB, cacheB, hIP, hwaB, haddrB, hutxoB, hstB, hnB⟩ :=
    inputPass_eq decode s τ [(s, ⟨τ, s, u0, v0, 0⟩)] orig T
      (by intro s' hs'
          rw [mapGet, if_neg (fun hh => hs' hh.symm)]
          rfl)
      hTout hCred T waA cacheA (st.trace ++ T.map (Ev.outputsOf s)) []
      (fun _ h => h) hTnd hwsA hwtA
      (by rw [hbalA']
          have : (spentSum s orig T : Int) ≤ (ownSum s orig T : Int) := by
            exact_mod_cast hle
          omega)
      (by rw [hbalA']
          exact hbound)
      (by intro t htT
          obtain ⟨tx', hget, hrelB, hinp⟩ := hprocA t htT
          exact ⟨tx', hget, hrelB, fun _ => hinp⟩)
      (by intro t' ht'
          rw [hunchA t' ht']
          exact hmiss t' ht')
  have hPE : processEntry decode [(s, ⟨τ, s, u0, v0, 0⟩)]
      (s, ⟨τ, s, u0, v0, 0⟩, T) st.cache st.trace =
      .ok ({ cacheB with addr := addrInsert cacheB.addr waB },
        (st.trace ++ T.map (Ev.outputsOf s)) ++ T.map (Ev.inputsOf s)) := by
    rw [processEntry]
    simp only [Bind.bind, Except.bind]
    rw [hOP]
    dsimp only
    rw [hIP]
    dsimp only
    rfl
  have hPEs : processEntries decode [(s, ⟨τ, s, u0, v0, 0⟩)]
      [(s, ⟨τ, s, u0, v0, 0⟩, T)] st.cache st.trace =
      .ok ({ cacheB with addr := addrInsert cacheB.addr waB },
        (st.trace ++ T.map (Ev.outputsOf s)) ++ T.map (Ev.inputsOf s)) := by
    rw [processEntries]
    simp only [Bind.bind, Except.bind]
    rw [hPE]
    dsimp only
    rw [processEntries]
  refine ⟨{ st with cache := { cacheB with addr := addrInsert cacheB.addr waB }, trace := (st.trace ++ T.map (Ev.outputsOf s)) ++ T.map (Ev.inputsOf s) }, [(s, ⟨τ, s, u0, v0, 0⟩, T)], ?_, ?_⟩
  · rw [processTransactions]
    simp only [Bind.bind, Except.bind]
    rw [show (([(s, (⟨τ, s, u0, v0, 0⟩ : WalletAddr), T)] : AIndex).filter
        (fun e => ¬ e.2.2 = [])) = [(s, ⟨τ, s, u0, v0, 0⟩, T)] from by
      rw [List.filter_cons_of_pos (by simp [hT0])]
      rfl]
    rw [show selfScriptMap [(s, ⟨τ, s, u0, v0, 0⟩, T)] = [(s, ⟨τ, s, u0, v0, 0⟩)]
      from rfl]
    rw [hPEs]
    rfl
  · intro wa hwa
    have haddrB' : cacheB.addr = [] := by
      rw [haddrB, haddrA, haddr]
    have haddrIns : addrInsert ([] : List WalletAddr) waB = [waB] := by
      simp [addrInsert]
    rw [haddrB', haddrIns] at hwa
    rw [List.mem_singleton] at hwa
    rw [hwa]
    have hwbt : waB.terminal = τ := by
      rw [hwaB]
      dsimp only
      exact hwtA
    have hwbs : waB.script = s := by
      rw [hwaB]
      dsimp only
      exact hwsA
    have hsum := ownedSpentlessSum_final s τ orig T hTout hCred hOwnNd hSpNd
      { cacheB with addr := addrInsert cacheB.addr waB } waB hwbt hwbs
      (by dsimp only
          rw [hutxoB, hutxoA, hutxo]
          rfl)
      (by intro t htT
          obtain ⟨txB, hget, hrel⟩ := hstB t htT
          refine ⟨txB, hget, ?_⟩
          rw [show ([] : List Outpoint) ++ spentOutpoints s orig T
            = spentOutpoints s orig T from List.nil_append _] at hrel
          exact hrel)
    rw [hsum, hwaB]
    dsimp only
    rw [hbalA']

theorem forall_get?_of_list {α : Type} (P : Nat → α → Prop) (l : List α)
    (h : ∀ i : Fin l.length, P i (l.get i)) :
    ∀ i d, l.get? i = some d → P i d := by
  intro i d hd
  obtain ⟨hlt, hget⟩ := List.get?_eq_some.1 hd
  rw [← hget]
  exact h ⟨i, hlt⟩

def c1wTx10 : WalletTx :=
  ⟨10, .mined, [], [⟨⟨10, 0⟩, .unknown 100, 60, none⟩, ⟨⟨10, 1⟩, .unknown 55, 40, none⟩]⟩

def c1wTx11 : WalletTx :=
  ⟨11, .mempool, [⟨⟨10, 0⟩, false, 60, .unknown 100⟩], [⟨⟨11, 0⟩, .unknown 77, 55, none⟩]⟩

def c1wOrig : Txid → WalletTx :=
  fun t => if t = 10 then c1wTx10 else if t = 11 then c1wTx11 else ⟨t, .mempool, [], []⟩

def c1wSt : St := ⟨⟨[], [(10, c1wTx10), (11, c1wTx11)], []⟩, [], [], []⟩

/-- C1 amended-claim witness: a concrete two-transaction session (mined
funding transaction, unconfirmed spend of its first output) satisfying
every hypothesis of the amended theorem. -/
theorem c1_balance_spentless_witness :
    ∃ st' ret,
      processTransactions (fun _ => true) c1wSt
        [(100, ⟨⟨0, 0⟩, 100, 0, 0, 0⟩, [10, 11])] = .ok (st', ret) ∧
      ∀ wa ∈ st'.cache.addr, wa.balance = ownedSpentlessSum st'.cache wa :=
  c1_balance_spentless (fun _ => true) 100 ⟨0, 0⟩ 0 0 c1wOrig [10, 11] c1wSt
    (by decide) (by decide) (by decide)
    (by intro t ht i d hd
        have ht' : t = 10 ∨ t = 11 := by
          simpa [List.mem_cons] using ht
        rcases ht' with h | h
        · subst h
          exact forall_get?_of_list (fun i d => d.outpoint = ⟨10, i⟩)
            (c1wOrig 10).outputs (by decide) i d hd
        · subst h
          exact forall_get?_of_list (fun i d => d.outpoint = ⟨11, i⟩)
            (c1wOrig 11).outputs (by decide) i d hd)
    (by decide)
    (by intro t ht c hc
        have ht' : t = 10 ∨ t = 11 := by
          simpa [List.mem_cons] using ht
        rcases ht' with h | h
        · subst h
          rw [show (c1wOrig 10).inputs = [] from rfl] at hc
          exact absurd hc (List.not_mem_nil c)
        · subst h
          rw [show (c1wOrig 11).inputs = [⟨⟨10, 0⟩, false, 60, .unknown 100⟩] from rfl,
            List.mem_singleton] at hc
          subst hc
          exact Or.inr (Or.inr ⟨by decide, by decide, by decide,
            ⟨⟨⟨10, 0⟩, .unknown 100, 60, none⟩, by decide, by decide, by decide⟩⟩))
    (by decide) (by decide) (by decide)
    rfl rfl
    (by decide)
    (by intro t' ht'
        have h10 : ¬ (10 : Txid) = t' := fun hh => ht' (by rw [← hh]; decide)
        have h11 : ¬ (11 : Txid) = t' := fun hh => ht' (by rw [← hh]; decide)
        rw [show c1wSt.cache.tx = [(10, c1wTx10), (11, c1wTx11)] from rfl, mapGet]
        rw [if_neg h10, mapGet, if_neg h11, mapGet])

end BpEsplora
